import Mathlib

/-!
# Sudoku constraint-propagation engine: shallow embedding

Embedding of `src/modules/cell.js`, `src/modules/board.js` and the board
construction of `src/main.js`.

* A cell object is identified by its construction index (0..80); object
  identity in the source (`exceptions.indexOf(cell)`, `cell1.box == cell2.box`)
  becomes equality of indices / group references.
* The mutable state is the `val` and `poss_vals` fields of the 81 cells. It is stored
  as one natural number, 16 bits per cell (bits 0-3 of a cell: `val`; bits 4-12:
  `poss_vals[0..8]`), read and written only through `valOf`, `possAt`, `flag`,
  `setCellVal` and `clearFlag`, whose read-after-write laws are proved below.
* The DOM fields (`nums`, `cellDiv`, `isSelected`) carry no logic and are left out.
* The mutually recursive methods are one function `exec` over a `Call` value,
  with a fuel argument bounding the depth of the call stack; a thrown exception
  is the result `Res.err`, carrying the state at the moment of the throw.
* JavaScript `undefined` used as a digit (`vals[2]` of a two-element array) is the
  digit `0`: `poss_vals[undefined-1]` is falsy in the source, and flag `0` reads
  `false` here.
-/

namespace Sudoku

/-! ## Data model -/

/-- The state of the 81 cells: cell `c` occupies bits `16*c .. 16*c+15`. -/
abbrev Cells := Nat

/-- Which of the three group collections of the board an array belongs to. -/
inductive GroupKind where
  | box
  | row
  | col
deriving DecidableEq, Repr

/-- A group array of the board (`boxes[i]`, `rows[i]` or `cols[i]`), by identity. -/
structure GroupRef where
  kind : GroupKind
  idx : Nat
deriving DecidableEq, Repr

/-- The `Board` object: three collections of group arrays holding cell indices. -/
structure Board where
  boxes : List (List Nat)
  rows : List (List Nat)
  cols : List (List Nat)
deriving DecidableEq, Repr

/-! ## Construction (`main.js` lines 10-35, `Cell` constructor) -/

/-- `row_num` of `main.js`. -/
def rowNum (index : Nat) : Nat := (index % 9) / 3 + 3 * (index / 27)

/-- `col_index` of `main.js`. -/
def colIndex (index : Nat) : Nat := (index % 3 + 3 * (index / 9)) % 9

/-- `box_index` of the `Cell` constructor: position inside the box array. -/
def boxPos (index : Nat) : Nat := index % 9

/-- `row_index` of the `Cell` constructor: position inside the row array. -/
def rowPos (index : Nat) : Nat := (index % 3 + 3 * (index / 9)) % 9

/-- `col_index` of the `Cell` constructor: position inside the column array. -/
def colPos (index : Nat) : Nat := (boxPos index) / 3 + 3 * (index / 27)

/-- The `box` field of cell `index`: `boxes[i]` with `index = i*9 + n`. -/
def cellBox (index : Nat) : GroupRef := ⟨GroupKind.box, index / 9⟩

/-- The `row` field of cell `index`: `rows[row_num]`. -/
def cellRow (index : Nat) : GroupRef := ⟨GroupKind.row, rowNum index⟩

/-- The `col` field of cell `index`: `cols[col_index]`. -/
def cellCol (index : Nat) : GroupRef := ⟨GroupKind.col, colIndex index⟩

/-- JavaScript array assignment `arr[k] = x` on an array that may be shorter
than `k` (holes are `none`). -/
def jsSet (arr : List (Option Nat)) (k : Nat) (x : Nat) : List (Option Nat) :=
  if k < arr.length then arr.set k (some x)
  else arr ++ List.replicate (k - arr.length) none ++ [some x]

/-- Assignment `groups[g][k] = x` in a collection of group arrays. -/
def jsSet2 (groups : List (List (Option Nat))) (g k x : Nat) : List (List (Option Nat)) :=
  groups.set g (jsSet (groups.getD g []) k x)

/-- The three collections while they are being filled by the constructor calls. -/
structure Wiring where
  boxes : List (List (Option Nat))
  rows : List (List (Option Nat))
  cols : List (List (Option Nat))
deriving DecidableEq, Repr

/-- The collections after `main.js` lines 11-16: nine empty arrays each. -/
def emptyWiring : Wiring :=
  ⟨List.replicate 9 [], List.replicate 9 [], List.replicate 9 []⟩

/-- One `new Cell(boxes[i], rows[row_num], cols[col_index], index, board)`:
the constructor stores the cell in its three group arrays. -/
def addCell (w : Wiring) (index : Nat) : Wiring :=
  ⟨jsSet2 w.boxes (index / 9) (boxPos index) index,
   jsSet2 w.rows (rowNum index) (rowPos index) index,
   jsSet2 w.cols (colIndex index) (colPos index) index⟩

/-- The loops of `main.js` lines 22-35: `index = i*9 + n` runs through 0..80 in order. -/
def wiring : Wiring := (List.range 81).foldl addCell emptyWiring

/-- Reading a filled group array (a hole would read as cell 0; there is none). -/
def readGroup (arr : List (Option Nat)) : List Nat := arr.map (fun o => o.getD 0)

/-- The board as constructed by `main.js`. -/
def theBoard : Board :=
  ⟨wiring.boxes.map readGroup, wiring.rows.map readGroup, wiring.cols.map readGroup⟩

/-- The cells of a group array. -/
def Board.group (B : Board) (g : GroupRef) : List Nat :=
  match g.kind with
  | GroupKind.box => B.boxes.getD g.idx []
  | GroupKind.row => B.rows.getD g.idx []
  | GroupKind.col => B.cols.getD g.idx []

/-! ## State access -/

/-- `cell.val` of cell `c`. -/
def valOf (s : Cells) (c : Nat) : Nat :=
  Nat.land (Nat.shiftRight s (Nat.mul 16 c)) 15

/-- `cell.poss_vals[i]` as a truth value, for the array index `i`
(`undefined`, beyond the nine entries, is falsy). -/
def possAt (s : Cells) (c i : Nat) : Bool :=
  Nat.ble i 8 && Nat.beq (Nat.land (Nat.shiftRight s (Nat.add (Nat.mul 16 c) (Nat.add 4 i))) 1) 1

/-- `cell.poss_vals[v-1]` as a truth value (index `-1` is `undefined`, falsy). -/
def flag (s : Cells) (c v : Nat) : Bool :=
  !Nat.beq v 0 && possAt s c (Nat.sub v 1)

/-- `cell.val = v`, for a digit `v`. -/
def setCellVal (s : Cells) (c v : Nat) : Cells :=
  Nat.xor s (Nat.shiftLeft (Nat.xor (valOf s c) (Nat.land v 15)) (Nat.mul 16 c))

/-- `cell.poss_vals[v-1] = false`; for `v` outside 1..9 none of the nine flags changes. -/
def clearFlag (s : Cells) (c v : Nat) : Cells :=
  bif !Nat.beq v 0 && Nat.ble v 9 then
    Nat.xor s (Nat.land s (Nat.shiftLeft 1 (Nat.add (Nat.mul 16 c) (Nat.add 3 v))))
  else s

/-- The cells right after construction: `val = 0`, all nine flags `true`. -/
def fresh : Cells :=
  (List.range 81).foldl (fun s c => Nat.add s (Nat.shiftLeft 0x1FF0 (Nat.mul 16 c))) 0

/-- `Cell.getPossVals`. -/
def getPossVals (s : Cells) (c : Nat) : List Nat :=
  ((List.range 9).filter (fun i => possAt s c i)).map (fun i => i + 1)

/-- The counter `vals[i]` of `Board.getNumVals` after the loop over the cells of the
group: one increment per cell with `cell.poss_vals[i] && cell.val == 0`. -/
def countCands (s : Cells) (i : Nat) : List Nat → Nat
  | [] => 0
  | c :: cs =>
    bif possAt s c i && Nat.beq (valOf s c) 0 then Nat.succ (countCands s i cs)
    else countCands s i cs

/-- `Board.getNumVals`: per digit, the number of unresolved cells of the group carrying it. -/
def getNumVals (s : Cells) (group : List Nat) : List Nat :=
  (List.range 9).map (fun i => countCands s i group)

/-- Entry `vals[i]` of the array returned by `Board.getNumVals(group)`. -/
def numValsAt (s : Cells) (group : List Nat) (i : Nat) : Nat := countCands s i group

/-- `Board.getCellsWithVal`: the loop with its early `return []`. -/
def getCellsWithValAux (s : Cells) (v : Nat) : List Nat → List Nat → List Nat
  | [], cells => cells
  | c :: rest, cells =>
    if flag s c v && valOf s c != 0 then []
    else if flag s c v then getCellsWithValAux s v rest (cells ++ [c])
    else getCellsWithValAux s v rest cells

/-- `Board.getCellsWithVal`. -/
def getCellsWithVal (s : Cells) (group : List Nat) (v : Nat) : List Nat :=
  getCellsWithValAux s v group []

/-- `Board.isValTaken`. -/
def isValTaken (s : Cells) (group : List Nat) (v : Nat) : Bool :=
  group.any (fun c => valOf s c == v)

/-! ## Results and control flow -/

/-- The exceptions thrown by the source. -/
inductive Err where
  | noPossVals (index : Nat)
  | endErr
  | endSad
  | typeError
deriving DecidableEq, Repr

/-- Outcome of a call: normal return, exception (with the state at the throw),
or the call-depth bound of the model was reached. -/
inductive Res where
  | ok (s : Cells)
  | err (e : Err) (s : Cells)
  | timeout
deriving DecidableEq, Repr

/-- Sequencing: continue only after a normal return. -/
def Res.bind (r : Res) (f : Cells → Res) : Res :=
  match r with
  | Res.ok s => f s
  | Res.err e s => Res.err e s
  | Res.timeout => Res.timeout

/-- A `for` loop over `xs` whose body may throw. -/
def forEach {α : Type} (f : α → Cells → Res) : List α → Cells → Res
  | [], s => Res.ok s
  | x :: xs, s => (f x s).bind (forEach f xs)

/-- First loop of `Board.elimValFromGroupExcept`: clear the flag directly and
collect the cells it was cleared on. -/
def bulkClear (v : Nat) (exceptions : List Nat) : List Nat → Cells → List Nat → Cells × List Nat
  | [], s, cells => (s, cells)
  | c :: rest, s, cells =>
    if !exceptions.contains c && (flag s c v && valOf s c == 0) then
      bulkClear v exceptions rest (clearFlag s c v) (cells ++ [c])
    else bulkClear v exceptions rest s cells

/-- The cells collected by the first loop of `Board.nakedNum`. -/
def nakedCells (s : Cells) (group : List Nat) (vals : List Nat) : List Nat :=
  group.filter (fun c => (getPossVals s c).all (fun v => vals.contains v))

/-- The methods of `Cell` and `Board` that take part in the propagation. -/
inductive Call where
  | setVal (c v : Nat)
  | elimVal (c v : Nat)
  | elimValFromGroups (c v : Nat)
  | elimAllValsExcept (c : Nat) (exceptions : List Nat)
  | nakedNums (c : Nat) (vals : List Nat)
  | elimValFromGroupExcept (g : GroupRef) (v : Nat) (exceptions : List Nat)
  | hiddenSingle (g : GroupRef)
  | hiddenDouble (g : GroupRef)
  | pointingPair (g : GroupRef)
  | pointingTriple (g : GroupRef)
  | nakedNum (g : GroupRef) (vals : List Nat)
  | hiddenSingles
  | hiddenDoubles
  | pointingPairs
  | pointingTriples
deriving DecidableEq, Repr

/-- The 27 groups in the order of the `for` loops of `hiddenSingles` etc. -/
def allGroups : List GroupRef :=
  (List.range 9).flatMap (fun i => [⟨GroupKind.box, i⟩, ⟨GroupKind.row, i⟩, ⟨GroupKind.col, i⟩])

/-- Execution of a method call on the cell state, with call-depth bound `fuel`.
In the four deduction methods the array `vals = getNumVals(group)` is computed once
from the state `s0` at entry; its entry `vals[i]` is `numValsAt s0 group i`. -/
def exec (B : Board) : Nat → Call → Cells → Res
  | 0, _, _ => Res.timeout
  | n + 1, Call.setVal c v, s =>
    if valOf s c != 0 || !flag s c v then Res.ok s
    else
      (forEach (fun i s => if i + 1 != v then exec B n (Call.elimVal c (i + 1)) s else Res.ok s)
          (List.range 9) (setCellVal s c v)).bind fun s =>
      (exec B n (Call.elimValFromGroups c v) s).bind fun s =>
      (exec B n Call.hiddenSingles s).bind fun s =>
      (exec B n Call.hiddenDoubles s).bind fun s =>
      (exec B n Call.pointingPairs s).bind fun s =>
      exec B n Call.pointingTriples s
  | n + 1, Call.elimVal c v, s =>
    if v == 0 || 9 < v then Res.err Err.typeError s
    else
      let s1 := clearFlag s c v
      let poss := getPossVals s1 c
      if poss.length == 0 then Res.err (Err.noPossVals c) s1
      else if valOf s1 c == 0 then
        if poss.length == 1 then exec B n (Call.setVal c (poss.getD 0 0)) s1
        else exec B n (Call.nakedNums c poss) s1
      else Res.ok s1
  | n + 1, Call.elimValFromGroups c v, s =>
    (exec B n (Call.elimValFromGroupExcept (cellBox c) v []) s).bind fun s =>
    (exec B n (Call.elimValFromGroupExcept (cellRow c) v []) s).bind fun s =>
    exec B n (Call.elimValFromGroupExcept (cellCol c) v []) s
  | n + 1, Call.elimAllValsExcept c exceptions, s =>
    forEach (fun i s =>
        if !exceptions.contains (i + 1) then exec B n (Call.elimVal c (i + 1)) s else Res.ok s)
      (List.range 9) s
  | n + 1, Call.nakedNums c vals, s =>
    (exec B n (Call.nakedNum (cellBox c) vals) s).bind fun s =>
    (exec B n (Call.nakedNum (cellRow c) vals) s).bind fun s =>
    exec B n (Call.nakedNum (cellCol c) vals) s
  | n + 1, Call.elimValFromGroupExcept g v exceptions, s =>
    let r := bulkClear v exceptions (B.group g) s []
    forEach (fun c s => if valOf s c == 0 then exec B n (Call.elimVal c v) s else Res.ok s) r.2 r.1
  | n + 1, Call.hiddenSingle g, s0 =>
    forEach (fun val s =>
        if Nat.beq (numValsAt s0 (B.group g) val) 1 then
          let cells := getCellsWithVal s (B.group g) (val + 1)
          if cells.length == 1 then exec B n (Call.setVal (cells.getD 0 0) (val + 1)) s
          else if !isValTaken s (B.group g) (val + 1) then Res.err Err.endErr s
          else Res.ok s
        else Res.ok s)
      (List.range 9) s0
  | n + 1, Call.hiddenDouble g, s0 =>
    forEach (fun val1 s =>
        forEach (fun val2 s =>
            if Nat.beq (numValsAt s0 (B.group g) val1) 2
                && Nat.beq (numValsAt s0 (B.group g) val2) 2 then
              let cells1 := getCellsWithVal s (B.group g) (val1 + 1)
              let cells2 := getCellsWithVal s (B.group g) (val2 + 1)
              if cells1.length == 2 && cells2.length == 2 then
                if cells2.contains (cells1.getD 0 0) && cells2.contains (cells1.getD 1 0) then
                  (exec B n (Call.elimAllValsExcept (cells1.getD 0 0) [val1 + 1, val2 + 1]) s).bind
                    (exec B n (Call.elimAllValsExcept (cells1.getD 1 0) [val1 + 1, val2 + 1]))
                else Res.ok s
              else Res.ok s
            else Res.ok s)
          (List.range val1) s)
      (List.range 9) s0
  | n + 1, Call.pointingPair g, s0 =>
    forEach (fun val s =>
        if Nat.beq (numValsAt s0 (B.group g) val) 2 then
          let cells := getCellsWithVal s (B.group g) (val + 1)
          if cells.length == 2 then
            let cell1 := cells.getD 0 0
            let cell2 := cells.getD 1 0
            if cellBox cell1 == cellBox cell2 && cellBox cell1 != g then
              exec B n (Call.elimValFromGroupExcept (cellBox cell1) (val + 1) cells) s
            else if cellRow cell1 == cellRow cell2 && cellRow cell1 != g then
              exec B n (Call.elimValFromGroupExcept (cellRow cell1) (val + 1) cells) s
            else if cellCol cell1 == cellCol cell2 && cellCol cell1 != g then
              exec B n (Call.elimValFromGroupExcept (cellCol cell1) (val + 1) cells) s
            else Res.ok s
          else if !isValTaken s (B.group g) (val + 1) then Res.err Err.endErr s
          else Res.ok s
        else Res.ok s)
      (List.range 9) s0
  | n + 1, Call.pointingTriple g, s0 =>
    forEach (fun val s =>
        if Nat.beq (numValsAt s0 (B.group g) val) 3 then
          let cells := getCellsWithVal s (B.group g) (val + 1)
          if cells.length == 3 then
            let cell1 := cells.getD 0 0
            let cell2 := cells.getD 1 0
            let cell3 := cells.getD 2 0
            if cellBox cell1 == cellBox cell2 && cellBox cell2 == cellBox cell3
                && cellBox cell1 != g then
              exec B n (Call.elimValFromGroupExcept (cellBox cell1) (val + 1) cells) s
            else if cellRow cell1 == cellRow cell2 && cellRow cell2 == cellRow cell3
                && cellRow cell1 != g then
              exec B n (Call.elimValFromGroupExcept (cellRow cell1) (val + 1) cells) s
            else if cellCol cell1 == cellCol cell2 && cellCol cell2 == cellCol cell3
                && cellCol cell1 != g then
              exec B n (Call.elimValFromGroupExcept (cellCol cell1) (val + 1) cells) s
            else Res.ok s
          else if !isValTaken s (B.group g) (val + 1) then Res.err Err.endErr s
          else Res.ok s
        else Res.ok s)
      (List.range 9) s0
  | n + 1, Call.nakedNum g vals, s =>
    let cells := nakedCells s (B.group g) vals
    if cells.length == 0 then Res.err Err.endSad s
    else if cells.length == vals.length then
      (exec B n (Call.elimValFromGroupExcept g (vals.getD 0 0) cells) s).bind fun s =>
      (exec B n (Call.elimValFromGroupExcept g (vals.getD 1 0) cells) s).bind fun s =>
      exec B n (Call.elimValFromGroupExcept g (vals.getD 2 0) cells) s
    else Res.ok s
  | n + 1, Call.hiddenSingles, s =>
    forEach (fun g s => exec B n (Call.hiddenSingle g) s) allGroups s
  | n + 1, Call.hiddenDoubles, s =>
    forEach (fun g s => exec B n (Call.hiddenDouble g) s) allGroups s
  | n + 1, Call.pointingPairs, s =>
    forEach (fun g s => exec B n (Call.pointingPair g) s) allGroups s
  | n + 1, Call.pointingTriples, s =>
    forEach (fun g s => exec B n (Call.pointingTriple g) s) allGroups s

/-- A session: top-level `setVal` calls `(cell, digit)` made one after the other, as
the preset-game loop of `main.js` or successive key presses do; an exception ends it. -/
def runCalls (B : Board) (fuel : Nat) (calls : List (Nat × Nat)) (s : Cells) : Res :=
  forEach (fun p s => exec B fuel (Call.setVal p.1 p.2) s) calls s

/-! ## Predicates used in the statements -/

/-- Postcondition of an outcome: `P` after a normal return, `E` at a throw. -/
def Res.sat (P E : Cells → Prop) : Res → Prop
  | Res.ok s => P s
  | Res.err _ s => E s
  | Res.timeout => True

/-- Only-downward change: resolved cells keep their value, no flag is ever set. -/
def Mono (s s' : Cells) : Prop :=
  ∀ c, (valOf s c ≠ 0 → valOf s' c = valOf s c) ∧ ∀ v, flag s' c v = true → flag s c v = true

/-- Cell `c` is resolved to `v` and its candidate flags are exactly `{v}`. -/
def Settled (c v : Nat) (s : Cells) : Prop :=
  valOf s c = v ∧ ∀ w, flag s c w = true ↔ w = v

/-- Outcome `r'` extends `r`: they agree unless `r` ran out of call depth. -/
def Res.le (r r' : Res) : Prop := r = Res.timeout ∨ r = r'

/-- No unresolved cell of the listed group carries digit `v`. -/
def NoCand (group : List Nat) (v : Nat) (s : Cells) : Prop :=
  ∀ x ∈ group, ¬ (valOf s x = 0 ∧ flag s x v = true)

/-- The cells that share the box, the row or the column of cell 0 (grid row 0, column 0),
cell 0 itself excluded. -/
def peersOfCell0 : List Nat :=
  [1, 2, 3, 4, 5, 6, 7, 8, 9, 10, 11, 18, 19, 20, 27, 30, 33, 54, 57, 60]

/-- The state expected after `setVal(5)` on cell 0 of the fresh board: cell 0 holds 5 with
the single flag 5, and flag 5 is cleared on the twenty peers. -/
def afterFirst5 : Cells :=
  peersOfCell0.foldl (fun s x => clearFlag s x 5)
    ([1, 2, 3, 4, 6, 7, 8, 9].foldl (fun s w => clearFlag s 0 w) (setCellVal fresh 0 5))

/-- The fresh board on which cell 0 has lost every candidate but 5 and is still unresolved. -/
def only5 : Cells := [1, 2, 3, 4, 6, 7, 8, 9].foldl (fun s w => clearFlag s 0 w) fresh

/-- The fresh board on which cell 0 has only the candidates 3 and 5 left. -/
def only35 : Cells := [1, 2, 4, 6, 7, 8, 9].foldl (fun s w => clearFlag s 0 w) fresh

/-- A complete valid solution grid for the board: in every group the digits of its
cells are 1..9, each exactly once. `S x` is the digit of cell `x`. -/
def Solution (B : Board) (S : Nat → Nat) : Prop :=
  ∀ g ∈ allGroups, ((B.group g).map S).Perm [1, 2, 3, 4, 5, 6, 7, 8, 9]

/-- The state agrees with the solution: every cell still has its solution digit as a
candidate flag, and every resolved cell holds its solution digit. -/
def Sound (S : Nat → Nat) (s : Cells) : Prop :=
  ∀ x, x < 81 → flag s x (S x) = true ∧ (valOf s x ≠ 0 → valOf s x = S x)

/-- The wiring facts used by the deductions: the group arrays hold cell indices, and
every cell is stored in the three arrays its fields point to. -/
structure Wired (B : Board) : Prop where
  lt : ∀ g ∈ allGroups, ∀ x ∈ B.group g, x < 81
  mem_box : ∀ x, x < 81 → x ∈ B.group (cellBox x)
  mem_row : ∀ x, x < 81 → x ∈ B.group (cellRow x)
  mem_col : ∀ x, x < 81 → x ∈ B.group (cellCol x)

/-- What each call needs in order to keep the state in agreement with the solution `S`. -/
def Pre (B : Board) (S : Nat → Nat) : Call → Cells → Prop
  | Call.setVal c v, _ => c < 81 ∧ v = S c
  | Call.elimVal c v, _ => c < 81 ∧ v ≠ S c
  | Call.elimValFromGroups c v, s => c < 81 ∧ v = S c ∧ valOf s c ≠ 0
  | Call.elimAllValsExcept c exceptions, _ => c < 81 ∧ S c ∈ exceptions
  | Call.nakedNums c _, _ => c < 81
  | Call.elimValFromGroupExcept g v exceptions, s =>
    g ∈ allGroups ∧ ∀ x ∈ B.group g, x ∉ exceptions → valOf s x = 0 → S x ≠ v
  | Call.hiddenSingle g, _ => g ∈ allGroups
  | Call.hiddenDouble g, _ => g ∈ allGroups
  | Call.pointingPair g, _ => g ∈ allGroups
  | Call.pointingTriple g, _ => g ∈ allGroups
  | Call.nakedNum g _, _ => g ∈ allGroups
  | Call.hiddenSingles, _ => True
  | Call.hiddenDoubles, _ => True
  | Call.pointingPairs, _ => True
  | Call.pointingTriples, _ => True

/-- A grid given by the list of its 81 digits, by cell index. -/
def gridOf (digits : List Nat) (x : Nat) : Nat := digits.getD x 0

/-- A valid solution grid (digits by cell index, box after box) with 5 in cell 0. -/
def solB : List Nat :=
  [5, 2, 1, 4, 7, 3, 6, 9, 8, 8, 9, 6, 1, 2, 5, 7, 4, 3, 3, 7, 4, 6, 8, 9, 1, 2, 5,
   1, 5, 2, 8, 6, 9, 3, 4, 7, 9, 6, 8, 4, 3, 7, 2, 5, 1, 7, 4, 3, 2, 5, 1, 8, 9, 6,
   2, 1, 5, 7, 3, 4, 9, 8, 6, 6, 8, 9, 5, 1, 2, 3, 7, 4, 4, 3, 7, 9, 6, 8, 5, 1, 2]

/-- The 16 bits of a cell with value `val` and the candidate flags of `cands`. -/
def mkCell (val : Nat) (cands : List Nat) : Nat :=
  val + (cands.map (fun w => 2 ^ (3 + w))).sum

/-- The state made of the listed cells, in index order. -/
def mkState : List Nat → Cells
  | [] => 0
  | c :: cs => c + 65536 * mkState cs

/-- The grid `solB` entered completely, except that cell 0 is unresolved with candidates
2 and 5, cell 80 is unresolved with its digit as only candidate, and the resolved cell 1
(value 2) has lost its own flag. -/
def staleFlagState : Cells :=
  mkState ((List.range 81).map (fun x =>
    if x = 0 then mkCell 0 [2, 5]
    else if x = 1 then mkCell 2 []
    else if x = 80 then mkCell 0 [gridOf solB 80]
    else mkCell (gridOf solB x) [gridOf solB x]))

/-- The state `staleFlagState` after cell 80 got its digit and cell 0 got the value 2. -/
def staleFlagAfter : Cells :=
  mkState ((List.range 81).map (fun x =>
    if x = 0 then mkCell 2 [2]
    else if x = 1 then mkCell 2 []
    else mkCell (gridOf solB x) [gridOf solB x]))

/-- The exception a call ended with, if any. -/
def Res.raised : Res → Option Err
  | Res.err e _ => some e
  | _ => none

/-- A second valid solution grid (digits by cell index, box after box). -/
def solA : List Nat :=
  [3, 2, 1, 6, 9, 8, 5, 4, 7, 6, 9, 8, 5, 4, 7, 3, 2, 1, 7, 4, 5, 1, 2, 3, 8, 9, 6,
   1, 6, 2, 7, 3, 4, 8, 5, 9, 8, 5, 9, 1, 6, 2, 7, 3, 4, 4, 3, 7, 9, 5, 8, 2, 6, 1,
   9, 7, 5, 4, 1, 3, 2, 8, 6, 4, 1, 3, 2, 8, 6, 9, 7, 5, 6, 8, 2, 5, 7, 9, 3, 1, 4]

/-- Eleven givens of `solA`, in the order in which they are entered. -/
def falseAlarmCalls : List (Nat × Nat) :=
  [(36, 8), (23, 3), (64, 1), (67, 8), (12, 5), (16, 2), (2, 1), (6, 5), (8, 7), (19, 4),
   (14, 7)]

/-- Sixteen entries, none rejected by the engine, that end with two 5s in grid row 8. -/
def dupCalls : List (Nat × Nat) :=
  [(78, 4), (17, 9), (55, 5), (79, 7), (11, 6), (60, 3), (12, 5), (6, 7), (8, 8), (28, 8),
   (13, 8), (62, 2), (15, 2), (69, 9), (20, 1), (40, 1)]

/-- The state reached by `dupCalls` from the fresh board. -/
def dupState : Cells :=
  5433268077510333398560546266296506196483757246333820822169304042820110505089008790524244771770678273805001415252450812152623959638828420627841603694089860062947409002427017011515514165830495422617960531095071669254168499043283479999026123624357656742441767037799713988065062562135891506963905253908896666961485359520383137522122372691614573655511625686607130356498691369001437832876659104

/-! ## A faster executor for evaluation

`execF` computes the same outcome as `exec` (theorem `execF_eq`) with less work: a
deduction method returns at once when no digit of the group has the count it looks for,
the counts are computed on all cells of a group at once, and the subset test of
`nakedNum` is done on the flag bits. -/

/-- Bit `16 * c` for each of the cells `c < 81`. -/
def onesMask : Nat := Nat.div (Nat.sub (Nat.pow 2 1296) 1) 65535

/-- Bit `16 * c` is set exactly for the unresolved cells `c < 81`. -/
def unresMask (s : Cells) : Nat :=
  Nat.xor onesMask (Nat.land (Nat.lor (Nat.lor s (Nat.shiftRight s 1))
    (Nat.lor (Nat.shiftRight s 2) (Nat.shiftRight s 3))) onesMask)

/-- Bit `16 * c` is set exactly for the unresolved cells `c < 81` with `poss_vals[i]`. -/
def digitMask (s : Cells) (i : Nat) : Nat :=
  Nat.land (Nat.shiftRight s (Nat.add 4 i)) (unresMask s)

/-- Bit `16 * c` for each cell `c` of the list. -/
def maskOf : List Nat → Nat
  | [] => 0
  | c :: cs => Nat.lor (Nat.shiftLeft 1 (Nat.mul 16 c)) (maskOf cs)

/-- The counter `vals[i]` of `getNumVals`, computed on all cells of the group at once:
the bits of `digitMask` that belong to the group are added up by a remainder. -/
def fastCount (s : Cells) (group : List Nat) (i : Nat) : Nat :=
  bif Nat.ble i 8 then Nat.mod (Nat.land (digitMask s i) (maskOf group)) 65535 else 0

/-- Number of set bits among the bits `0, 16, 32, ...` of the first `n` blocks. -/
def limbCount : Nat → Nat → Nat
  | 0, _ => 0
  | n + 1, y => (bif y.testBit 0 then 1 else 0) + limbCount n (y >>> 16)

/-- Some digit has count `k` in the group. -/
def hasCount (s : Cells) (group : List Nat) (k : Nat) : Bool :=
  Nat.beq (fastCount s group 0) k || Nat.beq (fastCount s group 1) k ||
  Nat.beq (fastCount s group 2) k || Nat.beq (fastCount s group 3) k ||
  Nat.beq (fastCount s group 4) k || Nat.beq (fastCount s group 5) k ||
  Nat.beq (fastCount s group 6) k || Nat.beq (fastCount s group 7) k ||
  Nat.beq (fastCount s group 8) k

/-- The digits of `vals` as a set of bits: bit `v - 1` for a digit `v` in 1..9. -/
def valsMask : List Nat → Nat
  | [] => 0
  | v :: vs =>
    bif !Nat.beq v 0 && Nat.ble v 9 then Nat.lor (Nat.shiftLeft 1 (Nat.sub v 1)) (valsMask vs)
    else valsMask vs

/-- The nine candidate flags of cell `c` as a number. -/
def flagBits (s : Cells) (c : Nat) : Nat :=
  Nat.land (Nat.shiftRight s (Nat.add (Nat.mul 16 c) 4)) 511

/-- The cells of `nakedCells`, with the subset test done on bits. -/
def nakedCellsF (s : Cells) (group : List Nat) (vals : List Nat) : List Nat :=
  group.filter (fun c => Nat.beq (Nat.lor (flagBits s c) (valsMask vals)) (valsMask vals))

/-- The executor `exec` with the shortcuts described above. -/
def execF (B : Board) : Nat → Call → Cells → Res
  | 0, _, _ => Res.timeout
  | n + 1, Call.setVal c v, s =>
    if valOf s c != 0 || !flag s c v then Res.ok s
    else
      (forEach (fun i s => if i + 1 != v then execF B n (Call.elimVal c (i + 1)) s else Res.ok s)
          (List.range 9) (setCellVal s c v)).bind fun s =>
      (execF B n (Call.elimValFromGroups c v) s).bind fun s =>
      (execF B n Call.hiddenSingles s).bind fun s =>
      (execF B n Call.hiddenDoubles s).bind fun s =>
      (execF B n Call.pointingPairs s).bind fun s =>
      execF B n Call.pointingTriples s
  | n + 1, Call.elimVal c v, s =>
    if v == 0 || 9 < v then Res.err Err.typeError s
    else
      let s1 := clearFlag s c v
      let poss := getPossVals s1 c
      if poss.length == 0 then Res.err (Err.noPossVals c) s1
      else if valOf s1 c == 0 then
        if poss.length == 1 then execF B n (Call.setVal c (poss.getD 0 0)) s1
        else execF B n (Call.nakedNums c poss) s1
      else Res.ok s1
  | n + 1, Call.elimValFromGroups c v, s =>
    (execF B n (Call.elimValFromGroupExcept (cellBox c) v []) s).bind fun s =>
    (execF B n (Call.elimValFromGroupExcept (cellRow c) v []) s).bind fun s =>
    execF B n (Call.elimValFromGroupExcept (cellCol c) v []) s
  | n + 1, Call.elimAllValsExcept c exceptions, s =>
    forEach (fun i s =>
        if !exceptions.contains (i + 1) then execF B n (Call.elimVal c (i + 1)) s else Res.ok s)
      (List.range 9) s
  | n + 1, Call.nakedNums c vals, s =>
    (execF B n (Call.nakedNum (cellBox c) vals) s).bind fun s =>
    (execF B n (Call.nakedNum (cellRow c) vals) s).bind fun s =>
    execF B n (Call.nakedNum (cellCol c) vals) s
  | n + 1, Call.elimValFromGroupExcept g v exceptions, s =>
    let r := bulkClear v exceptions (B.group g) s []
    forEach (fun c s => if valOf s c == 0 then execF B n (Call.elimVal c v) s else Res.ok s) r.2 r.1
  | n + 1, Call.hiddenSingle g, s0 =>
    bif !hasCount s0 (B.group g) 1 then Res.ok s0 else
    forEach (fun val s =>
        if Nat.beq (fastCount s0 (B.group g) val) 1 then
          let cells := getCellsWithVal s (B.group g) (val + 1)
          if cells.length == 1 then execF B n (Call.setVal (cells.getD 0 0) (val + 1)) s
          else if !isValTaken s (B.group g) (val + 1) then Res.err Err.endErr s
          else Res.ok s
        else Res.ok s)
      (List.range 9) s0
  | n + 1, Call.hiddenDouble g, s0 =>
    bif !hasCount s0 (B.group g) 2 then Res.ok s0 else
    forEach (fun val1 s =>
        bif !Nat.beq (fastCount s0 (B.group g) val1) 2 then Res.ok s else
        forEach (fun val2 s =>
            if Nat.beq (fastCount s0 (B.group g) val1) 2
                && Nat.beq (fastCount s0 (B.group g) val2) 2 then
              let cells1 := getCellsWithVal s (B.group g) (val1 + 1)
              let cells2 := getCellsWithVal s (B.group g) (val2 + 1)
              if cells1.length == 2 && cells2.length == 2 then
                if cells2.contains (cells1.getD 0 0) && cells2.contains (cells1.getD 1 0) then
                  (execF B n (Call.elimAllValsExcept (cells1.getD 0 0) [val1 + 1, val2 + 1]) s).bind
                    (execF B n (Call.elimAllValsExcept (cells1.getD 1 0) [val1 + 1, val2 + 1]))
                else Res.ok s
              else Res.ok s
            else Res.ok s)
          (List.range val1) s)
      (List.range 9) s0
  | n + 1, Call.pointingPair g, s0 =>
    bif !hasCount s0 (B.group g) 2 then Res.ok s0 else
    forEach (fun val s =>
        if Nat.beq (fastCount s0 (B.group g) val) 2 then
          let cells := getCellsWithVal s (B.group g) (val + 1)
          if cells.length == 2 then
            let cell1 := cells.getD 0 0
            let cell2 := cells.getD 1 0
            if cellBox cell1 == cellBox cell2 && cellBox cell1 != g then
              execF B n (Call.elimValFromGroupExcept (cellBox cell1) (val + 1) cells) s
            else if cellRow cell1 == cellRow cell2 && cellRow cell1 != g then
              execF B n (Call.elimValFromGroupExcept (cellRow cell1) (val + 1) cells) s
            else if cellCol cell1 == cellCol cell2 && cellCol cell1 != g then
              execF B n (Call.elimValFromGroupExcept (cellCol cell1) (val + 1) cells) s
            else Res.ok s
          else if !isValTaken s (B.group g) (val + 1) then Res.err Err.endErr s
          else Res.ok s
        else Res.ok s)
      (List.range 9) s0
  | n + 1, Call.pointingTriple g, s0 =>
    bif !hasCount s0 (B.group g) 3 then Res.ok s0 else
    forEach (fun val s =>
        if Nat.beq (fastCount s0 (B.group g) val) 3 then
          let cells := getCellsWithVal s (B.group g) (val + 1)
          if cells.length == 3 then
            let cell1 := cells.getD 0 0
            let cell2 := cells.getD 1 0
            let cell3 := cells.getD 2 0
            if cellBox cell1 == cellBox cell2 && cellBox cell2 == cellBox cell3
                && cellBox cell1 != g then
              execF B n (Call.elimValFromGroupExcept (cellBox cell1) (val + 1) cells) s
            else if cellRow cell1 == cellRow cell2 && cellRow cell2 == cellRow cell3
                && cellRow cell1 != g then
              execF B n (Call.elimValFromGroupExcept (cellRow cell1) (val + 1) cells) s
            else if cellCol cell1 == cellCol cell2 && cellCol cell2 == cellCol cell3
                && cellCol cell1 != g then
              execF B n (Call.elimValFromGroupExcept (cellCol cell1) (val + 1) cells) s
            else Res.ok s
          else if !isValTaken s (B.group g) (val + 1) then Res.err Err.endErr s
          else Res.ok s
        else Res.ok s)
      (List.range 9) s0
  | n + 1, Call.nakedNum g vals, s =>
    let cells := nakedCellsF s (B.group g) vals
    if cells.length == 0 then Res.err Err.endSad s
    else if cells.length == vals.length then
      (execF B n (Call.elimValFromGroupExcept g (vals.getD 0 0) cells) s).bind fun s =>
      (execF B n (Call.elimValFromGroupExcept g (vals.getD 1 0) cells) s).bind fun s =>
      execF B n (Call.elimValFromGroupExcept g (vals.getD 2 0) cells) s
    else Res.ok s
  | n + 1, Call.hiddenSingles, s =>
    forEach (fun g s => execF B n (Call.hiddenSingle g) s) allGroups s
  | n + 1, Call.hiddenDoubles, s =>
    forEach (fun g s => execF B n (Call.hiddenDouble g) s) allGroups s
  | n + 1, Call.pointingPairs, s =>
    forEach (fun g s => execF B n (Call.pointingPair g) s) allGroups s
  | n + 1, Call.pointingTriples, s =>
    forEach (fun g s => execF B n (Call.pointingTriple g) s) allGroups s

/-- A session run by `execF`. -/
def runCallsF (B : Board) (fuel : Nat) (calls : List (Nat × Nat)) (s : Cells) : Res :=
  forEach (fun p s => execF B fuel (Call.setVal p.1 p.2) s) calls s

/-- The state before the last call of `falseAlarmCalls`. -/
def falseAlarmBefore : Cells :=
  168860848210926613273860768387208703544336177400136197332475660675079465786626535855536374189507780732708666768152903178165310596792872535134520093783891212633567886956767799091453638804996499316542556300074801889938797458621114950607937979716581361534243278994263758099119035884580036391345273477296630047738553263846084282054075189677403450769117212497517630539629457970125365533592263264

/-- The state at the throw of the last call of `falseAlarmCalls`. -/
def falseAlarmAfter : Cells :=
  168860848210926613273860768387208703544336176444318580256736804428250690447349746674097504583614537752472779007057749311557130722548007766871164801840564315844967233857325844195512108572377394622038365742175477288846173292325559054738290655054731522353875120713461941568786228033782416228471445194892030165401928246434702854611326665989721809956292206619004084857394063707311228743124523616

/-- The fresh board on which the cells 0..3 have lost the candidates 5..9. -/
def quadState : Cells :=
  [0, 1, 2, 3].foldl (fun s x => [5, 6, 7, 8, 9].foldl (fun s w => clearFlag s x w) s) fresh

/-- The state `quadState` after the digits 1, 2, 3 are cleared on the cells 4..8. -/
def quadAfter : Cells :=
  [4, 5, 6, 7, 8].foldl (fun s x => [1, 2, 3].foldl (fun s w => clearFlag s x w) s) quadState

/-- The state `afterFirst5` after digit 7 is cleared on the cells 3..8. -/
def afterClear7 : Cells := [3, 4, 5, 6, 7, 8].foldl (fun s x => clearFlag s x 7) afterFirst5

/-- Cell `c` is unresolved and has at most one candidate. -/
def Few (s : Cells) (c : Nat) : Prop := valOf s c = 0 ∧ (getPossVals s c).length ≤ 1

/-- From `s` to `s'` the state only went downward, and every unresolved cell with at most
one candidate in `s'` has the flags it had in `s`. -/
def NoNewFew (s s' : Cells) : Prop :=
  Mono s s' ∧ ∀ c, Few s' c → ∀ w, flag s c w = flag s' c w

/-- Seven givens of a valid grid after which a hidden single is left unapplied. -/
def hiddenLeftCalls : List (Nat × Nat) :=
  [(59, 7), (15, 3), (20, 5), (18, 6), (56, 6), (30, 3), (79, 3)]

/-- The state reached by `hiddenLeftCalls` from the fresh board. -/
def hiddenLeftState : Cells :=
  163529451960268703334045480272439470710182132126362134847009587973298718760215133190661853967209630363947806975966010265496279050210785850273406979395980519854574838224703446775358032535597705536427616404462333783166076908540713221389665438149744060731513613295850102199997228709193465543072327334268750633448369192259087617554179178199735467086186287360958049308133898380296757632977345712

/-- Number of candidates of cell `c` while it is unresolved, 0 once it holds a value. -/
def cellWeight (s : Cells) (c : Nat) : Nat :=
  bif Nat.beq (valOf s c) 0 then (getPossVals s c).length else 0

/-- The number of candidate flags set on unresolved cells of the board. -/
def undecided (s : Cells) : Nat := ((List.range 81).map (cellWeight s)).sum

/-- The number of unresolved cells of the board. -/
def unresolvedCount (s : Cells) : Nat :=
  ((List.range 81).map (fun c => bif Nat.beq (valOf s c) 0 then 1 else 0)).sum

/-- The longest chain of nested calls that can start at a method before a value is
assigned or a flag of an unresolved cell is cleared. -/
def Call.rank : Call → Nat
  | Call.setVal _ _ => 0
  | Call.elimValFromGroupExcept _ _ _ => 0
  | Call.nakedNum _ _ => 1
  | Call.hiddenSingle _ => 1
  | Call.pointingPair _ => 1
  | Call.pointingTriple _ => 1
  | Call.elimValFromGroups _ _ => 1
  | Call.nakedNums _ _ => 2
  | Call.hiddenSingles => 2
  | Call.pointingPairs => 2
  | Call.pointingTriples => 2
  | Call.elimVal _ _ => 3
  | Call.elimAllValsExcept _ _ => 4
  | Call.hiddenDouble _ => 5
  | Call.hiddenDoubles => 6

/-- The outcome is a return or a throw, and a returned state satisfies `I`. -/
def Res.safe (I : Cells → Prop) (r : Res) : Prop :=
  r ≠ Res.timeout ∧ ∀ t, r = Res.ok t → I t

/-- The states the program can be in: the state right after construction, and every state
left by a top-level `setVal` call on one of the 81 cells (a key press, or a given loaded
by `main.js`) made in such a state, whether the call returned or threw. -/
inductive Reachable (B : Board) : Cells → Prop
  | start : Reachable B fresh
  | ret {s s' : Cells} (n c v : Nat) (hc : c < 81) (hs : Reachable B s)
      (h : exec B n (Call.setVal c v) s = Res.ok s') : Reachable B s'
  | raise {s s' : Cells} (n c v : Nat) (e : Err) (hc : c < 81) (hs : Reachable B s)
      (h : exec B n (Call.setVal c v) s = Res.err e s') : Reachable B s'

/-- From `s` to `s'` the state only went downward, settled cells stayed settled, and every
cell resolved on the way is settled with its digit cleared from the unresolved cells of
its box, row and column. -/
def Tidy (B : Board) (s s' : Cells) : Prop :=
  Mono s s' ∧
  (∀ c v, v ≠ 0 → Settled c v s → Settled c v s') ∧
  ∀ c, valOf s c = 0 → valOf s' c ≠ 0 →
    Settled c (valOf s' c) s' ∧
    ∀ x, (x ∈ B.group (cellBox c) ∨ x ∈ B.group (cellRow c) ∨ x ∈ B.group (cellCol c)) →
      ¬ (valOf s' x = 0 ∧ flag s' x (valOf s' c) = true)

/-- The group reference of kind `k` among the three fields of cell `x`. -/
def cellGroup (k : GroupKind) (x : Nat) : GroupRef :=
  match k with
  | GroupKind.box => cellBox x
  | GroupKind.row => cellRow x
  | GroupKind.col => cellCol x

/-- Decidable form of "every resolved cell has exactly its own value as candidate flag". -/
def wfCheck (s : Cells) : Bool :=
  (List.range 81).all (fun c => Nat.beq (valOf s c) 0 ||
    (List.range 16).all (fun w => flag s c w == Nat.beq w (valOf s c)))

/-- The state `afterFirst5` (cell 0 holds 5) in which digit 3 is no candidate of the cells
1, 3, 4, 5, 6, 7, 8: in box 0 only cell 2 can still take 3. -/
def singleState : Cells := [1, 3, 4, 5, 6, 7, 8].foldl (fun s x => clearFlag s x 3) afterFirst5

/-- The state `singleState` after cell 2 got the value 3 and digit 3 was cleared in the rest
of its row and column. -/
def singleAfter : Cells :=
  [9, 10, 11, 18, 19, 20, 29, 32, 35, 56, 59, 62].foldl (fun s x => clearFlag s x 3)
    ([1, 2, 4, 5, 6, 7, 8, 9].foldl (fun s w => clearFlag s 2 w) (setCellVal singleState 2 3))

/-- The state `afterFirst5` in which digit 1 is no candidate of the cells of row 0 outside
box 0: in row 0 only the cells 1 and 2 can still take 1. -/
def pointState : Cells := [9, 10, 11, 18, 19, 20].foldl (fun s x => clearFlag s x 1) afterFirst5

/-- The state `pointState` after digit 1 was cleared on the cells 3..8 of box 0. -/
def pointAfter : Cells := [3, 4, 5, 6, 7, 8].foldl (fun s x => clearFlag s x 1) pointState

/-- The state `afterFirst5` in which the digits 1 and 2 are no candidates of the cells of
row 0 outside box 0: in row 0 only the cells 1 and 2 can still take 1 or 2. -/
def twoState : Cells :=
  [9, 10, 11, 18, 19, 20].foldl (fun s x => clearFlag (clearFlag s x 1) x 2) afterFirst5

/-- The state `twoState` after the cells 1 and 2 were narrowed to the candidates 1 and 2 and
these two digits were cleared on the cells 3..8 of box 0. -/
def twoAfter : Cells :=
  [3, 4, 5, 6, 7, 8].foldl (fun s x => clearFlag (clearFlag s x 1) x 2)
    ([3, 4, 6, 7, 8, 9].foldl (fun s w => clearFlag (clearFlag s 1 w) 2 w) twoState)

/-- The fresh board in which the digits 1 and 2 are no candidates of the cells 2, 9, 10, 11,
18, 19, 20 (row 0 without the cells 0 and 1) and cell 3 has only the candidates 1 and 3. -/
def pairState : Cells :=
  [2, 4, 5, 6, 7, 8, 9].foldl (fun s w => clearFlag s 3 w)
    ([2, 9, 10, 11, 18, 19, 20].foldl (fun s x => clearFlag (clearFlag s x 1) x 2) fresh)

/-- The state `pairState` after `hiddenDouble` on row 0: the cells 0 and 1 have the
candidates 1 and 2, cell 3 holds 3, the cells 4..8 lost 1, 2 and 3, and digit 3 is cleared on
cell 2 and on the rest of row 1 and of column 0. -/
def pairAfter : Cells :=
  [2, 4, 5, 6, 7, 8, 12, 13, 14, 21, 22, 23, 27, 30, 33, 54, 57, 60].foldl
    (fun s x => clearFlag s x 3)
    ([4, 5, 6, 7, 8].foldl (fun s x => clearFlag (clearFlag s x 1) x 2)
      ([3, 4, 5, 6, 7, 8, 9].foldl (fun s w => clearFlag (clearFlag s 0 w) 1 w)
        (clearFlag (setCellVal pairState 3 3) 3 1)))

/-! ## Laws of the state representation -/


theorem beq_eq_decide (a b : Nat) : Nat.beq a b = decide (a = b) := by
  by_cases h : a = b
  · subst h; simp
  · simp only [h, decide_False]
    cases hb : Nat.beq a b
    · rfl
    · exact absurd (Nat.eq_of_beq_eq_true hb) h

theorem ble_eq_decide (a b : Nat) : Nat.ble a b = decide (a ≤ b) := by
  by_cases h : a ≤ b
  · simp [h, Nat.ble_eq_true_of_le h]
  · simp only [h, decide_False]
    cases hb : Nat.ble a b
    · rfl
    · exact absurd (Nat.le_of_ble_eq_true hb) h

theorem valOf_eq (s c : Nat) : valOf s c = (s >>> (16 * c)) &&& 15 := rfl

theorem possAt_eq (s c i : Nat) :
    possAt s c i = (decide (i ≤ 8) && s.testBit (16 * c + (4 + i))) := by
  have h1 : Nat.ble i 8 = decide (i ≤ 8) := ble_eq_decide i 8
  have h2 : Nat.beq (Nat.land (Nat.shiftRight s (Nat.add (Nat.mul 16 c) (Nat.add 4 i))) 1) 1
      = s.testBit (16 * c + (4 + i)) := by
    show Nat.beq ((s >>> (16 * c + (4 + i))) &&& 1) 1 = _
    rw [Nat.testBit, Nat.and_one_is_mod]
    rcases Nat.mod_two_eq_zero_or_one (s >>> (16 * c + (4 + i))) with h | h
    · rw [Nat.one_and_eq_mod_two, h]; rfl
    · rw [Nat.one_and_eq_mod_two, h]; rfl
  unfold possAt
  rw [h1, h2]

theorem testBit_valOf (s c j : Nat) :
    (valOf s c).testBit j = (decide (j < 4) && s.testBit (16 * c + j)) := by
  rw [valOf_eq, Nat.testBit_and, Nat.testBit_shiftRight]
  have : (15 : Nat) = 2 ^ 4 - 1 := by norm_num
  rw [this, Nat.testBit_two_pow_sub_one, Bool.and_comm]

theorem valOf_lt (s c : Nat) : valOf s c < 16 := by
  rw [valOf_eq]
  have : (15 : Nat) = 2 ^ 4 - 1 := by norm_num
  rw [this, Nat.and_pow_two_sub_one_eq_mod]
  exact Nat.mod_lt _ (by norm_num)

theorem testBit_setCellVal (s c v k : Nat) :
    (setCellVal s c v).testBit k =
      if 16 * c ≤ k ∧ k < 16 * c + 4 then (v.testBit (k - 16 * c)) else s.testBit k := by
  show (s ^^^ ((valOf s c ^^^ (v &&& 15)) <<< (16 * c))).testBit k = _
  rw [Nat.testBit_xor, Nat.testBit_shiftLeft, Nat.testBit_xor, testBit_valOf, Nat.testBit_and]
  have h15 : (15 : Nat) = 2 ^ 4 - 1 := by norm_num
  rw [h15, Nat.testBit_two_pow_sub_one]
  by_cases h1 : 16 * c ≤ k
  · by_cases h2 : k < 16 * c + 4
    · have h3 : k - 16 * c < 4 := by omega
      have h4 : 16 * c + (k - 16 * c) = k := by omega
      simp [h1, h2, h3, h4]
    · have h3 : ¬ (k - 16 * c < 4) := by omega
      simp [h1, h2, h3]
  · simp [h1]

theorem testBit_clearFlag (s c v k : Nat) :
    (clearFlag s c v).testBit k =
      (s.testBit k && !decide (v ≠ 0 ∧ v ≤ 9 ∧ k = 16 * c + (3 + v))) := by
  unfold clearFlag
  by_cases hv : v ≠ 0 ∧ v ≤ 9
  · have hb : (!Nat.beq v 0 && Nat.ble v 9) = true := by
      rw [beq_eq_decide, ble_eq_decide]; simp [hv.1, hv.2]
    rw [hb]
    show (s ^^^ (s &&& (1 <<< (16 * c + (3 + v))))).testBit k = _
    rw [Nat.testBit_xor, Nat.testBit_and, Nat.testBit_shiftLeft]
    by_cases hk : k = 16 * c + (3 + v)
    · subst hk; simp [hv.1, hv.2]
    · by_cases hge : k ≥ 16 * c + (3 + v)
      · have : k - (16 * c + (3 + v)) ≠ 0 := by omega
        have h0 : Nat.testBit 1 (k - (16 * c + (3 + v))) = false := by
          cases hh : k - (16 * c + (3 + v)) with
          | zero => exact absurd hh this
          | succ m => simp [Nat.testBit_succ]
        simp [hk, hge, h0]
      · simp [hk, hge]
  · have hb : (!Nat.beq v 0 && Nat.ble v 9) = false := by
      by_cases h0 : v = 0
      · simp [h0]
      · have : ¬ v ≤ 9 := fun h => hv ⟨h0, h⟩
        have : Nat.ble v 9 = false := by
          cases hh : Nat.ble v 9
          · rfl
          · exact absurd (Nat.le_of_ble_eq_true hh) this
        simp [this]
    rw [hb]
    have : ¬ (v ≠ 0 ∧ v ≤ 9 ∧ k = 16 * c + (3 + v)) := fun h => hv ⟨h.1, h.2.1⟩
    simp [this]

/-! ### Read-after-write laws -/

theorem valOf_setCellVal (s c v c' : Nat) :
    valOf (setCellVal s c v) c' = if c' = c then v % 16 else valOf s c' := by
  apply Nat.eq_of_testBit_eq
  intro j
  rw [testBit_valOf, testBit_setCellVal]
  by_cases hc : c' = c
  · subst hc
    rw [if_pos rfl]
    have h16 : (16 : Nat) = 2 ^ 4 := by norm_num
    rw [h16, Nat.testBit_mod_two_pow]
    by_cases hj : j < 4
    · have : 2 ^ 4 * c' ≤ 2 ^ 4 * c' + j ∧ 2 ^ 4 * c' + j < 2 ^ 4 * c' + 4 := by omega
      simp [hj, this]
    · simp [hj]
  · rw [if_neg hc, testBit_valOf]
    by_cases hj : j < 4
    · have : ¬ (16 * c ≤ 16 * c' + j ∧ 16 * c' + j < 16 * c + 4) := by omega
      simp [hj, this]
    · simp [hj]

theorem possAt_setCellVal (s c v c' i : Nat) :
    possAt (setCellVal s c v) c' i = possAt s c' i := by
  rw [possAt_eq, possAt_eq, testBit_setCellVal]
  by_cases hi : i ≤ 8
  · have : ¬ (16 * c ≤ 16 * c' + (4 + i) ∧ 16 * c' + (4 + i) < 16 * c + 4) := by omega
    simp [hi, this]
  · simp [hi]

theorem valOf_clearFlag (s c v c' : Nat) : valOf (clearFlag s c v) c' = valOf s c' := by
  apply Nat.eq_of_testBit_eq
  intro j
  rw [testBit_valOf, testBit_valOf, testBit_clearFlag]
  by_cases hj : j < 4
  · have : ¬ (v ≠ 0 ∧ v ≤ 9 ∧ 16 * c' + j = 16 * c + (3 + v)) := by omega
    simp [hj, this]
  · simp [hj]

theorem possAt_clearFlag (s c v c' i : Nat) :
    possAt (clearFlag s c v) c' i = (possAt s c' i && !decide (c' = c ∧ i + 1 = v)) := by
  rw [possAt_eq, possAt_eq, testBit_clearFlag]
  by_cases hi : i ≤ 8
  · by_cases h : c' = c ∧ i + 1 = v
    · obtain ⟨rfl, rfl⟩ := h
      have h1 : i + 1 ≤ 9 := by omega
      have h2 : 4 + i = 3 + (i + 1) := by omega
      simp [hi, h1, h2]
    · have : ¬ (v ≠ 0 ∧ v ≤ 9 ∧ 16 * c' + (4 + i) = 16 * c + (3 + v)) := by omega
      simp [hi, h, this]
  · simp [hi]

theorem flag_eq (s c v : Nat) : flag s c v = (decide (v ≠ 0) && possAt s c (v - 1)) := by
  unfold flag
  rw [beq_eq_decide]
  by_cases h : v = 0 <;> simp [h]

theorem flag_setCellVal (s c v c' w : Nat) :
    flag (setCellVal s c v) c' w = flag s c' w := by
  rw [flag_eq, flag_eq, possAt_setCellVal]

theorem flag_clearFlag (s c v c' w : Nat) :
    flag (clearFlag s c v) c' w = (flag s c' w && !decide (c' = c ∧ w = v)) := by
  rw [flag_eq, flag_eq, possAt_clearFlag]
  by_cases hw : w = 0
  · simp [hw]
  · have : (w - 1 + 1 = v) = (w = v) := by
      apply propext; constructor <;> intro h <;> omega
    simp [hw, this, Bool.and_assoc]

/-- The packed fresh state built for the first `n` cells. -/
theorem testBit_freshFold (n k : Nat) :
    ((List.range n).foldl (fun s c => Nat.add s (Nat.shiftLeft 0x1FF0 (Nat.mul 16 c))) 0).testBit k
      = (decide (k < 16 * n) && decide (4 ≤ k % 16) && decide (k % 16 ≤ 12)) := by
  induction n generalizing k with
  | zero => simp
  | succ n ih =>
    rw [List.range_succ, List.foldl_append]
    simp only [List.foldl_cons, List.foldl_nil]
    show (_ + 0x1FF0 <<< (16 * n)).testBit k = _
    have hlt : (List.range n).foldl (fun s c => Nat.add s (Nat.shiftLeft 0x1FF0 (Nat.mul 16 c))) 0
        < 2 ^ (16 * n) := by
      apply Nat.lt_pow_two_of_testBit
      intro i hi
      rw [ih]
      have : ¬ i < 16 * n := by omega
      simp [this]
    rw [Nat.shiftLeft_eq, Nat.add_comm, Nat.mul_comm, Nat.testBit_mul_pow_two_add _ hlt, ih]
    have h13 : (0x1FF0 : Nat) = 2 ^ 13 - 2 ^ 4 := by norm_num
    by_cases hk : k < 16 * n
    · have : k < 16 * (n + 1) := by omega
      simp [hk, this]
    · simp only [hk, if_false, decide_False, Bool.false_and]
      have hkm : (k - 16 * n) % 16 = k % 16 := by omega
      by_cases hk2 : k < 16 * (n + 1)
      · have h3 : k - 16 * n < 16 := by omega
        have h4 : k % 16 = k - 16 * n := by omega
        rw [h4]
        simp only [hk2, decide_True, Bool.true_and]
        generalize k - 16 * n = j at h3
        interval_cases j <;> decide
      · have h3 : 16 ≤ k - 16 * n := by omega
        simp only [hk2, decide_False, Bool.false_and]
        apply Nat.testBit_lt_two_pow
        calc (0x1FF0 : Nat) < 2 ^ 16 := by norm_num
          _ ≤ 2 ^ (k - 16 * n) := Nat.pow_le_pow_right (by norm_num) h3

theorem valOf_fresh (c : Nat) : valOf fresh c = 0 := by
  apply Nat.eq_of_testBit_eq
  intro j
  rw [testBit_valOf]
  unfold fresh
  rw [testBit_freshFold]
  by_cases hj : j < 4
  · have : ¬ (4 ≤ (16 * c + j) % 16) := by omega
    simp [this]
  · simp [hj]

theorem possAt_fresh (c i : Nat) : possAt fresh c i = (decide (c < 81) && decide (i ≤ 8)) := by
  rw [possAt_eq]
  unfold fresh
  rw [testBit_freshFold]
  by_cases hi : i ≤ 8
  · have h1 : (16 * c + (4 + i)) % 16 = 4 + i := by omega
    have h2 : (16 * c + (4 + i) < 16 * 81) = (c < 81) := by
      apply propext; constructor <;> intro h <;> omega
    have h3 : 4 + i ≤ 12 := by omega
    simp [hi, h1, h2, h3]
  · simp [hi]

theorem sat_bind {P Q E : Cells → Prop} {r : Res} {f : Cells → Res}
    (hr : r.sat P E) (hf : ∀ s, P s → (f s).sat Q E) : (r.bind f).sat Q E := by
  cases r with
  | ok s => exact hf s hr
  | err e s => exact hr
  | timeout => trivial

theorem sat_forEach {α : Type} {P E : Cells → Prop} {f : α → Cells → Res} :
    ∀ (xs : List α), (∀ x ∈ xs, ∀ s, P s → (f x s).sat P E) →
      ∀ s, P s → (forEach f xs s).sat P E
  | [], _, s, hs => hs
  | x :: xs, h, s, hs =>
    sat_bind (h x (List.mem_cons_self x xs) s hs)
      (fun s' hs' => sat_forEach xs (fun y hy => h y (List.mem_cons_of_mem x hy)) s' hs')

theorem bulkClear_inv {P : Cells → Prop} (v : Nat) (exceptions : List Nat)
    (hbulk : ∀ s c, P s → valOf s c = 0 → flag s c v = true → P (clearFlag s c v)) :
    ∀ (group : List Nat) (s : Cells) (cells : List Nat), P s →
      P (bulkClear v exceptions group s cells).1
  | [], _, _, hs => hs
  | c :: rest, s, cells, hs => by
    unfold bulkClear
    split
    · rename_i h
      simp only [Bool.and_eq_true, beq_iff_eq] at h
      exact bulkClear_inv v exceptions hbulk rest _ _ (hbulk s c hs h.2.2 h.2.1)
    · exact bulkClear_inv v exceptions hbulk rest _ _ hs

/-- Invariant principle for the whole propagation: a predicate kept by the three
primitive writes (under the guards with which the source performs them) is kept by
every method call. -/
theorem exec_sat (B : Board) (P E : Cells → Prop) (hPE : ∀ s, P s → E s)
    (hset : ∀ s c v, P s → valOf s c = 0 → flag s c v = true → P (setCellVal s c v))
    (hbulk : ∀ s c v, P s → valOf s c = 0 → flag s c v = true → P (clearFlag s c v))
    (helim : ∀ s c v, P s → 1 ≤ v → v ≤ 9 → getPossVals (clearFlag s c v) c ≠ [] →
      P (clearFlag s c v))
    (helimE : ∀ s c v, P s → 1 ≤ v → v ≤ 9 → getPossVals (clearFlag s c v) c = [] →
      E (clearFlag s c v)) :
    ∀ (n : Nat) (call : Call) (s : Cells), P s → (exec B n call s).sat P E := by
  intro n
  induction n with
  | zero => intro call s _; trivial
  | succ n ih =>
    intro call s hs
    cases call with
    | setVal c v =>
      simp only [exec]
      split
      · exact hs
      · rename_i h
        simp only [Bool.or_eq_true, bne_iff_ne, ne_eq, Bool.not_eq_true', not_or, not_not,
          Bool.not_eq_false] at h
        refine sat_bind (sat_forEach _ ?_ _ (hset s c v hs h.1 h.2)) ?_
        · intro i _ s' hs'
          split
          · exact ih _ _ hs'
          · exact hs'
        · intro s1 h1
          refine sat_bind (ih _ _ h1) (fun s2 h2 => ?_)
          refine sat_bind (ih _ _ h2) (fun s3 h3 => ?_)
          refine sat_bind (ih _ _ h3) (fun s4 h4 => ?_)
          refine sat_bind (ih _ _ h4) (fun s5 h5 => ?_)
          exact ih _ _ h5
    | elimVal c v =>
      simp only [exec]
      split
      · exact hPE s hs
      · rename_i h
        simp only [Bool.or_eq_true, beq_iff_eq, decide_eq_true_eq, not_or, not_lt] at h
        have hv1 : 1 ≤ v := Nat.pos_of_ne_zero h.1
        split
        · rename_i h2
          simp only [beq_iff_eq, List.length_eq_zero] at h2
          exact helimE s c v hs hv1 h.2 h2
        · rename_i h2
          simp only [beq_iff_eq, List.length_eq_zero] at h2
          have hP := helim s c v hs hv1 h.2 h2
          split
          · split
            · exact ih _ _ hP
            · exact ih _ _ hP
          · exact hP
    | elimValFromGroups c v =>
      simp only [exec]
      refine sat_bind (ih _ _ hs) (fun s2 h2 => ?_)
      refine sat_bind (ih _ _ h2) (fun s3 h3 => ?_)
      exact ih _ _ h3
    | elimAllValsExcept c exceptions =>
      simp only [exec]
      refine sat_forEach _ ?_ _ hs
      intro i _ s' hs'
      split
      · exact ih _ _ hs'
      · exact hs'
    | nakedNums c vals =>
      simp only [exec]
      refine sat_bind (ih _ _ hs) (fun s2 h2 => ?_)
      refine sat_bind (ih _ _ h2) (fun s3 h3 => ?_)
      exact ih _ _ h3
    | elimValFromGroupExcept g v exceptions =>
      simp only [exec]
      refine sat_forEach _ ?_ _ (bulkClear_inv v exceptions (fun s c => hbulk s c v) _ _ _ hs)
      intro i _ s' hs'
      split
      · exact ih _ _ hs'
      · exact hs'
    | hiddenSingle g =>
      simp only [exec]
      refine sat_forEach _ ?_ _ hs
      intro i _ s' hs'
      split
      · split
        · exact ih _ _ hs'
        · split
          · exact hPE _ hs'
          · exact hs'
      · exact hs'
    | hiddenDouble g =>
      simp only [exec]
      refine sat_forEach _ ?_ _ hs
      intro i _ s1 hs1
      refine sat_forEach _ ?_ _ hs1
      intro j _ s' hs'
      split
      · split
        · split
          · exact sat_bind (ih _ _ hs') (fun s2 h2 => ih _ _ h2)
          · exact hs'
        · exact hs'
      · exact hs'
    | pointingPair g =>
      simp only [exec]
      refine sat_forEach _ ?_ _ hs
      intro i _ s' hs'
      split
      · split
        · split
          · exact ih _ _ hs'
          · split
            · exact ih _ _ hs'
            · split
              · exact ih _ _ hs'
              · exact hs'
        · split
          · exact hPE _ hs'
          · exact hs'
      · exact hs'
    | pointingTriple g =>
      simp only [exec]
      refine sat_forEach _ ?_ _ hs
      intro i _ s' hs'
      split
      · split
        · split
          · exact ih _ _ hs'
          · split
            · exact ih _ _ hs'
            · split
              · exact ih _ _ hs'
              · exact hs'
        · split
          · exact hPE _ hs'
          · exact hs'
      · exact hs'
    | nakedNum g vals =>
      simp only [exec]
      split
      · exact hPE _ hs
      · split
        · refine sat_bind (ih _ _ hs) (fun s2 h2 => ?_)
          refine sat_bind (ih _ _ h2) (fun s3 h3 => ?_)
          exact ih _ _ h3
        · exact hs
    | hiddenSingles =>
      simp only [exec]
      exact sat_forEach _ (fun g _ s' hs' => ih _ _ hs') _ hs
    | hiddenDoubles =>
      simp only [exec]
      exact sat_forEach _ (fun g _ s' hs' => ih _ _ hs') _ hs
    | pointingPairs =>
      simp only [exec]
      exact sat_forEach _ (fun g _ s' hs' => ih _ _ hs') _ hs
    | pointingTriples =>
      simp only [exec]
      exact sat_forEach _ (fun g _ s' hs' => ih _ _ hs') _ hs

/-! ### Monotonicity -/

theorem Mono.refl (s : Cells) : Mono s s := fun _ => ⟨fun _ => rfl, fun _ h => h⟩

theorem Mono.trans {a b c : Cells} (h1 : Mono a b) (h2 : Mono b c) : Mono a c := by
  intro x
  refine ⟨fun hx => ?_, fun v hv => (h1 x).2 v ((h2 x).2 v hv)⟩
  have e1 := (h1 x).1 hx
  have e2 := (h2 x).1 (by rw [e1]; exact hx)
  rw [e2, e1]

theorem mono_setCellVal {s0 s : Cells} (h : Mono s0 s) (c v : Nat) (hc : valOf s c = 0) :
    Mono s0 (setCellVal s c v) := by
  intro x
  refine ⟨fun hx => ?_, fun w hw => (h x).2 w (by rwa [flag_setCellVal] at hw)⟩
  have e1 := (h x).1 hx
  have hne : x ≠ c := by
    rintro rfl
    rw [hc] at e1
    exact hx e1.symm
  rw [valOf_setCellVal, if_neg hne, e1]

theorem mono_clearFlag {s0 s : Cells} (h : Mono s0 s) (c v : Nat) :
    Mono s0 (clearFlag s c v) := by
  intro x
  refine ⟨fun hx => ?_, fun w hw => (h x).2 w ?_⟩
  · rw [valOf_clearFlag]; exact (h x).1 hx
  · rw [flag_clearFlag] at hw
    simp only [Bool.and_eq_true] at hw
    exact hw.1

/-- Every method call, whether it returns or throws, only resolves unresolved cells
and only clears flags. -/
theorem exec_mono_from (B : Board) (s0 : Cells) (n : Nat) (call : Call) (s : Cells)
    (h0 : Mono s0 s) : (exec B n call s).sat (Mono s0) (Mono s0) :=
  exec_sat B (Mono s0) (Mono s0) (fun _ h => h)
    (fun _ c v h hc _ => mono_setCellVal h c v hc)
    (fun _ c v h _ _ => mono_clearFlag h c v)
    (fun _ c v h _ _ _ => mono_clearFlag h c v)
    (fun _ c v h _ _ _ => mono_clearFlag h c v)
    n call s h0

theorem exec_mono (B : Board) (n : Nat) (call : Call) (s : Cells) :
    (exec B n call s).sat (Mono s) (Mono s) :=
  exec_mono_from B s n call s (Mono.refl s)

theorem exec_ok_mono {B : Board} {n : Nat} {call : Call} {s s' : Cells}
    (h : exec B n call s = Res.ok s') : Mono s s' := by
  have := exec_mono B n call s
  rw [h] at this
  exact this

/-! ### Candidate lists -/

theorem possAt_lt {s c i : Nat} (h : possAt s c i = true) : i < 9 := by
  rw [possAt_eq] at h
  simp only [Bool.and_eq_true, decide_eq_true_eq] at h
  omega

theorem flag_range {s c v : Nat} (h : flag s c v = true) : 1 ≤ v ∧ v ≤ 9 := by
  rw [flag_eq] at h
  simp only [Bool.and_eq_true, decide_eq_true_eq] at h
  have := possAt_lt h.2
  omega

theorem mem_getPossVals (s c v : Nat) : v ∈ getPossVals s c ↔ flag s c v = true := by
  unfold getPossVals
  simp only [List.mem_map, List.mem_filter, List.mem_range]
  constructor
  · rintro ⟨i, ⟨_, hi⟩, rfl⟩
    rw [flag_eq]
    simpa using hi
  · intro h
    have hr := flag_range h
    rw [flag_eq] at h
    simp only [Bool.and_eq_true, decide_eq_true_eq] at h
    exact ⟨v - 1, ⟨possAt_lt h.2, h.2⟩, by omega⟩

theorem getPossVals_pairwise (s c : Nat) : (getPossVals s c).Pairwise (· < ·) := by
  unfold getPossVals
  rw [List.pairwise_map]
  refine List.Pairwise.imp ?_ ((List.pairwise_lt_range 9).filter _)
  intro a b h
  omega

theorem getPossVals_nodup (s c : Nat) : (getPossVals s c).Nodup :=
  (getPossVals_pairwise s c).imp (fun h => Nat.ne_of_lt h)

/-- The candidate list is determined by the flags: it is the singleton `[v]` exactly
when `v` is the only flag set. -/
theorem getPossVals_eq_singleton {s c v : Nat} (h : ∀ w, flag s c w = true ↔ w = v) :
    getPossVals s c = [v] := by
  have hperm : (getPossVals s c).Perm [v] := by
    rw [List.perm_ext_iff_of_nodup (getPossVals_nodup s c) (List.nodup_singleton v)]
    intro w
    rw [mem_getPossVals, h, List.mem_singleton]
  exact List.perm_singleton.mp hperm

theorem getPossVals_eq_nil {s c : Nat} (h : ∀ w, flag s c w = false) : getPossVals s c = [] := by
  rw [List.eq_nil_iff_forall_not_mem]
  intro w hw
  rw [mem_getPossVals, h w] at hw
  exact Bool.false_ne_true hw

theorem bind_eq_ok {r : Res} {f : Cells → Res} {s' : Cells} (h : r.bind f = Res.ok s') :
    ∃ s1, r = Res.ok s1 ∧ f s1 = Res.ok s' := by
  cases r with
  | ok s1 => exact ⟨s1, rfl, h⟩
  | err e s1 => cases h
  | timeout => cases h

theorem sat_ok {P E : Cells → Prop} {r : Res} {s' : Cells} (h : r.sat P E) (hr : r = Res.ok s') :
    P s' := by
  subst hr; exact h

theorem clearFlag_of_not_flag {s c v : Nat} (h : flag s c v = false) : clearFlag s c v = s := by
  apply Nat.eq_of_testBit_eq
  intro k
  rw [testBit_clearFlag]
  by_cases hk : v ≠ 0 ∧ v ≤ 9 ∧ k = 16 * c + (3 + v)
  · obtain ⟨h0, h9, rfl⟩ := hk
    rw [flag_eq, possAt_eq] at h
    have e : 16 * c + (4 + (v - 1)) = 16 * c + (3 + v) := by omega
    have h8 : v - 1 ≤ 8 := by omega
    rw [e] at h
    simp only [h0, h8, ne_eq, not_false_eq_true, decide_True, Bool.true_and] at h
    simp [h]
  · simp [hk]

/-! ### Cell.elimVal and Cell.setVal on one cell -/

/-- On a resolved cell `elimVal` only clears the flag, or throws when no flag is left. -/
theorem elimVal_resolved (B : Board) (n : Nat) (s : Cells) (c w : Nat)
    (hw1 : 1 ≤ w) (hw9 : w ≤ 9) (hval : valOf s c ≠ 0) :
    exec B (n + 1) (Call.elimVal c w) s =
      if getPossVals (clearFlag s c w) c = [] then Res.err (Err.noPossVals c) (clearFlag s c w)
      else Res.ok (clearFlag s c w) := by
  have h0 : (w == 0 || decide (9 < w)) = false := by
    have : ¬ (9 < w) := by omega
    have : w ≠ 0 := by omega
    simp [*]
  have hv : (valOf (clearFlag s c w) c == 0) = false := by
    rw [valOf_clearFlag]; simpa using hval
  simp only [exec, h0, hv]
  by_cases hp : getPossVals (clearFlag s c w) c = []
  · simp [hp]
  · have : ((getPossVals (clearFlag s c w) c).length == 0) = false := by
      simpa using hp
    simp [hp, this]

/-- The loop of `setVal` over its own candidate flags. -/
theorem setVal_loop (B : Board) (n c v : Nat) :
    ∀ (xs : List Nat) (s s' : Cells), valOf s c ≠ 0 → (∀ i ∈ xs, i < 9) →
      forEach (fun i s => if i + 1 != v then exec B n (Call.elimVal c (i + 1)) s else Res.ok s)
        xs s = Res.ok s' →
      valOf s' c = valOf s c ∧
        ∀ w, flag s' c w = true ↔ (flag s c w = true ∧ (w = v ∨ w - 1 ∉ xs))
  | [], s, s', _, _, h => by
    simp only [forEach, Res.ok.injEq] at h
    subst h
    simp
  | i :: xs, s, s', hval, hxs, h => by
    simp only [forEach] at h
    obtain ⟨s1, h1, h2⟩ := bind_eq_ok h
    have hi : i < 9 := hxs i (List.mem_cons_self i xs)
    have hxs' : ∀ j ∈ xs, j < 9 := fun j hj => hxs j (List.mem_cons_of_mem i hj)
    by_cases hiv : i + 1 = v
    · have e : (i + 1 != v) = false := by simp [hiv]
      rw [e] at h1
      simp only [Bool.false_eq_true, if_false, Res.ok.injEq] at h1
      subst h1
      obtain ⟨hv', hf'⟩ := setVal_loop B n c v xs s s' hval hxs' h2
      refine ⟨hv', fun w => ?_⟩
      rw [hf' w]
      constructor
      · rintro ⟨hw, hor⟩
        refine ⟨hw, ?_⟩
        rcases hor with hor | hor
        · exact Or.inl hor
        · by_cases hwv : w = v
          · exact Or.inl hwv
          · refine Or.inr ?_
            simp only [List.mem_cons, not_or]
            refine ⟨?_, hor⟩
            have := flag_range hw
            omega
      · rintro ⟨hw, hor⟩
        refine ⟨hw, ?_⟩
        rcases hor with hor | hor
        · exact Or.inl hor
        · simp only [List.mem_cons, not_or] at hor
          exact Or.inr hor.2
    · have e : (i + 1 != v) = true := by simp [hiv]
      rw [e] at h1
      simp only [if_true] at h1
      cases n with
      | zero => simp [exec] at h1
      | succ n =>
        rw [elimVal_resolved B n s c (i + 1) (by omega) (by omega) hval] at h1
        split at h1
        · cases h1
        · simp only [Res.ok.injEq] at h1
          subst h1
          have hval1 : valOf (clearFlag s c (i + 1)) c ≠ 0 := by rwa [valOf_clearFlag]
          obtain ⟨hv', hf'⟩ := setVal_loop B (n + 1) c v xs _ s' hval1 hxs' h2
          refine ⟨by rw [hv', valOf_clearFlag], fun w => ?_⟩
          rw [hf' w, flag_clearFlag]
          simp only [Bool.and_eq_true, Bool.not_eq_true', decide_eq_false_iff_not, true_and,
            List.mem_cons, not_or]
          constructor
          · rintro ⟨⟨hw, hne⟩, hor⟩
            refine ⟨hw, ?_⟩
            rcases hor with hor | hor
            · exact Or.inl hor
            · refine Or.inr ⟨?_, hor⟩
              have := flag_range hw
              omega
          · rintro ⟨hw, hor⟩
            have hr := flag_range hw
            rcases hor with hor | hor
            · exact ⟨⟨hw, by omega⟩, Or.inl hor⟩
            · exact ⟨⟨hw, by omega⟩, Or.inr hor.2⟩

/-- A settled cell stays settled through every call that returns normally. -/
theorem exec_settled (B : Board) (c v : Nat) (hv : v ≠ 0) (n : Nat) (call : Call) (s : Cells)
    (h : Settled c v s) : (exec B n call s).sat (Settled c v) (fun _ => True) := by
  refine exec_sat B (Settled c v) (fun _ => True) (fun _ _ => trivial) ?_ ?_ ?_
    (fun _ _ _ _ _ _ _ => trivial) n call s h
  · intro s x w hS hx _
    have hne : c ≠ x := by
      rintro rfl
      exact hv (hS.1.symm.trans hx)
    refine ⟨by rw [valOf_setCellVal, if_neg hne]; exact hS.1, fun u => ?_⟩
    rw [flag_setCellVal]; exact hS.2 u
  · intro s x w hS hx _
    have hne : c ≠ x := by
      rintro rfl
      exact hv (hS.1.symm.trans hx)
    refine ⟨by rw [valOf_clearFlag]; exact hS.1, fun u => ?_⟩
    rw [flag_clearFlag]
    simp [hne, hS.2 u]
  · intro s x w hS _ _ hne
    refine ⟨by rw [valOf_clearFlag]; exact hS.1, fun u => ?_⟩
    rw [flag_clearFlag]
    by_cases hx : c = x ∧ u = w
    · obtain ⟨rfl, rfl⟩ := hx
      by_cases huv : u = v
      · exfalso
        apply hne
        apply getPossVals_eq_nil
        intro t
        rw [flag_clearFlag]
        by_cases ht : t = u
        · simp [ht]
        · have : flag s c t = false := by
            cases hft : flag s c t
            · rfl
            · exact absurd ((hS.2 t).mp hft) (by rw [← huv]; exact ht)
          simp [this]
      · have : flag s c u = false := by
          cases hft : flag s c u
          · rfl
          · exact absurd ((hS.2 u).mp hft) huv
        simp [this, huv]
    · simp [hx, hS.2 u]

theorem Res.le_refl (r : Res) : r.le r := Or.inr rfl

theorem le_bind {r r' : Res} {f f' : Cells → Res} (h : r.le r')
    (hf : ∀ s, (f s).le (f' s)) : (r.bind f).le (r'.bind f') := by
  rcases h with h | h
  · subst h; exact Or.inl rfl
  · subst h
    cases r with
    | ok s => exact hf s
    | err e s => exact Or.inr rfl
    | timeout => exact Or.inl rfl

theorem le_forEach {α : Type} {f f' : α → Cells → Res} (hf : ∀ x s, (f x s).le (f' x s)) :
    ∀ (xs : List α) (s : Cells), (forEach f xs s).le (forEach f' xs s)
  | [], s => Or.inr rfl
  | x :: xs, s => le_bind (hf x s) (fun t => le_forEach hf xs t)

theorem le_ite {c : Prop} [Decidable c] {a a' b b' : Res} (ha : c → a.le a')
    (hb : ¬ c → b.le b') : (if c then a else b).le (if c then a' else b') := by
  by_cases h : c
  · simp only [h, if_true]; exact ha h
  · simp only [h, if_false]; exact hb h

/-- More call depth never changes an outcome that was reached. -/
theorem exec_le_succ (B : Board) : ∀ (n : Nat) (call : Call) (s : Cells),
    (exec B n call s).le (exec B (n + 1) call s) := by
  intro n
  induction n with
  | zero => intro call s; exact Or.inl rfl
  | succ n ih =>
    intro call s
    cases call <;> simp only [exec] <;>
      repeat' first
        | exact ih _ _
        | exact Res.le_refl _
        | (apply le_ite <;> intro _)
        | apply le_bind
        | apply le_forEach
        | intro _

theorem exec_le_add (B : Board) (n k : Nat) (call : Call) (s : Cells) :
    (exec B n call s).le (exec B (n + k) call s) := by
  induction k with
  | zero => exact Res.le_refl _
  | succ k ih =>
    rcases ih with h | h
    · exact Or.inl h
    · rcases exec_le_succ B (n + k) call s with h2 | h2
      · exact Or.inl (h.trans h2)
      · exact Or.inr (h.trans h2)

/-- A normal return reached with call depth `n` is reached with every larger depth. -/
theorem exec_ok_of_le {B : Board} {n m : Nat} {call : Call} {s s' : Cells}
    (h : exec B n call s = Res.ok s') (hnm : n ≤ m) : exec B m call s = Res.ok s' := by
  obtain ⟨k, rfl⟩ := Nat.exists_eq_add_of_le hnm
  rcases exec_le_add B n k call s with h1 | h1
  · rw [h] at h1; cases h1
  · rw [← h1, h]

theorem exec_err_of_le {B : Board} {n m : Nat} {call : Call} {s s' : Cells} {e : Err}
    (h : exec B n call s = Res.err e s') (hnm : n ≤ m) : exec B m call s = Res.err e s' := by
  obtain ⟨k, rfl⟩ := Nat.exists_eq_add_of_le hnm
  rcases exec_le_add B n k call s with h1 | h1
  · rw [h] at h1; cases h1
  · rw [← h1, h]

theorem NoCand.mono {group : List Nat} {v : Nat} {s s' : Cells} (h : NoCand group v s)
    (hm : Mono s s') : NoCand group v s' := by
  intro x hx ⟨h0, hf⟩
  refine h x hx ⟨?_, (hm x).2 v hf⟩
  by_contra hne
  have := (hm x).1 hne
  rw [h0] at this
  exact hne this.symm

theorem bulkClear_mono (v : Nat) (exceptions : List Nat) (group : List Nat) (s : Cells)
    (cells : List Nat) : Mono s (bulkClear v exceptions group s cells).1 :=
  bulkClear_inv (P := Mono s) v exceptions (fun _ c h _ _ => mono_clearFlag h c v) group s cells
    (Mono.refl s)

/-- After the first loop of `elimValFromGroupExcept` no unresolved cell of the group
outside the exceptions carries the digit. -/
theorem bulkClear_post (v : Nat) (exceptions : List Nat) :
    ∀ (group : List Nat) (s : Cells) (cells : List Nat),
      ∀ x ∈ group, x ∉ exceptions →
        ¬ (valOf (bulkClear v exceptions group s cells).1 x = 0 ∧
            flag (bulkClear v exceptions group s cells).1 x v = true)
  | [], _, _, x, hx, _ => by cases hx
  | c :: rest, s, cells, x, hx, hex => by
    unfold bulkClear
    rcases List.mem_cons.mp hx with rfl | hx'
    · split
      · rintro ⟨_, hf⟩
        have hm := bulkClear_mono v exceptions rest (clearFlag s x v) (cells ++ [x])
        have := (hm x).2 v hf
        rw [flag_clearFlag] at this
        simp at this
      · rename_i hcond
        rintro ⟨h0, hf⟩
        have hm := bulkClear_mono v exceptions rest s cells
        apply hcond
        have hfs := (hm x).2 v hf
        have h0s : valOf s x = 0 := by
          by_contra hne
          have := (hm x).1 hne
          rw [h0] at this
          exact hne this.symm
        simp [hex, hfs, h0s]
    · split
      · exact bulkClear_post v exceptions rest _ _ x hx' hex
      · exact bulkClear_post v exceptions rest _ _ x hx' hex

theorem forEach_mono_from {α : Type} (s0 : Cells) (f : α → Cells → Res)
    (hf : ∀ x s, Mono s0 s → (f x s).sat (Mono s0) (Mono s0)) (xs : List α) (s : Cells)
    (h : Mono s0 s) : (forEach f xs s).sat (Mono s0) (Mono s0) :=
  sat_forEach xs (fun x _ s hs => hf x s hs) s h

/-- Postcondition of `Board.elimValFromGroupExcept` on a normal return. -/
theorem elimValFromGroupExcept_post {B : Board} {n : Nat} {g : GroupRef} {v : Nat}
    {exceptions : List Nat} {s s' : Cells}
    (h : exec B n (Call.elimValFromGroupExcept g v exceptions) s = Res.ok s') :
    ∀ x ∈ B.group g, x ∉ exceptions → ¬ (valOf s' x = 0 ∧ flag s' x v = true) := by
  cases n with
  | zero => simp [exec] at h
  | succ n =>
    simp only [exec] at h
    intro x hx hex
    have hpost := bulkClear_post v exceptions (B.group g) s [] x hx hex
    have hm : Mono (bulkClear v exceptions (B.group g) s []).1 s' := by
      refine sat_ok (forEach_mono_from _ _ ?_ _ _ (Mono.refl _)) h
      intro c t ht
      split
      · exact exec_mono_from B _ n _ t ht
      · exact ht
    rintro ⟨h0, hf⟩
    apply hpost
    refine ⟨?_, (hm x).2 v hf⟩
    by_contra hne
    have := (hm x).1 hne
    rw [h0] at this
    exact hne this.symm

/-- The stages of a `setVal` call that passes its guard and returns normally. -/
theorem setVal_stages {B : Board} {n : Nat} {s s' : Cells} {c v : Nat}
    (hc : valOf s c = 0) (hv : flag s c v = true)
    (h : exec B n (Call.setVal c v) s = Res.ok s') :
    ∃ m s2 s3, n = m + 1 ∧
      forEach (fun i s => if i + 1 != v then exec B m (Call.elimVal c (i + 1)) s else Res.ok s)
        (List.range 9) (setCellVal s c v) = Res.ok s2 ∧
      exec B m (Call.elimValFromGroups c v) s2 = Res.ok s3 ∧ Mono s3 s' := by
  cases n with
  | zero => simp [exec] at h
  | succ m =>
    have hg : (valOf s c != 0 || !flag s c v) = false := by simp [hc, hv]
    simp only [exec, hg, Bool.false_eq_true, if_false] at h
    obtain ⟨s2, h2, h⟩ := bind_eq_ok h
    obtain ⟨s3, h3, h⟩ := bind_eq_ok h
    refine ⟨m, s2, s3, rfl, h2, h3, ?_⟩
    obtain ⟨s4, h4, h⟩ := bind_eq_ok h
    obtain ⟨s5, h5, h⟩ := bind_eq_ok h
    obtain ⟨s6, h6, h⟩ := bind_eq_ok h
    exact (((exec_ok_mono h4).trans (exec_ok_mono h5)).trans (exec_ok_mono h6)).trans
      (exec_ok_mono h)

/-- After the own-flag loop of `setVal` the cell is settled. -/
theorem setVal_loop_settled {B : Board} {m : Nat} {s s2 : Cells} {c v : Nat}
    (hv : flag s c v = true)
    (h2 : forEach (fun i s => if i + 1 != v then exec B m (Call.elimVal c (i + 1)) s
        else Res.ok s) (List.range 9) (setCellVal s c v) = Res.ok s2) :
    Settled c v s2 := by
  have hr := flag_range hv
  have hval1 : valOf (setCellVal s c v) c = v := by
    rw [valOf_setCellVal, if_pos rfl]; omega
  obtain ⟨hv2, hf2⟩ := setVal_loop B m c v (List.range 9) _ s2 (by rw [hval1]; omega)
    (fun i hi => List.mem_range.mp hi) h2
  refine ⟨hv2.trans hval1, fun w => ?_⟩
  rw [hf2 w, flag_setCellVal]
  constructor
  · rintro ⟨hw, hor⟩
    rcases hor with hor | hor
    · exact hor
    · exfalso
      apply hor
      have := flag_range hw
      exact List.mem_range.mpr (by omega)
  · rintro rfl
    exact ⟨hv, Or.inl rfl⟩

theorem setVal_settled {B : Board} {n : Nat} {s s' : Cells} {c v : Nat}
    (hc : valOf s c = 0) (hv : flag s c v = true)
    (h : exec B n (Call.setVal c v) s = Res.ok s') : Settled c v s' := by
  cases n with
  | zero => simp [exec] at h
  | succ m =>
    have hr := flag_range hv
    have hg : (valOf s c != 0 || !flag s c v) = false := by simp [hc, hv]
    simp only [exec, hg, Bool.false_eq_true, if_false] at h
    obtain ⟨s2, h2, h⟩ := bind_eq_ok h
    have hS2 := setVal_loop_settled hv h2
    have hv0 : v ≠ 0 := by omega
    refine sat_ok (E := fun _ => True) ?_ h
    refine sat_bind (exec_settled B c v hv0 m _ s2 hS2) (fun s3 h3 => ?_)
    refine sat_bind (exec_settled B c v hv0 m _ s3 h3) (fun s4 h4 => ?_)
    refine sat_bind (exec_settled B c v hv0 m _ s4 h4) (fun s5 h5 => ?_)
    refine sat_bind (exec_settled B c v hv0 m _ s5 h5) (fun s6 h6 => ?_)
    exact exec_settled B c v hv0 m _ s6 h6

/-! ## Claims about `Cell.setVal` and `Cell.elimVal` -/

/-- C1: `setVal(v)` on a cell that is already resolved, or for which `v` is not a
candidate, returns normally and leaves the whole state unchanged. -/
theorem setVal_guard_noop (B : Board) (n : Nat) (s : Cells) (c v : Nat)
    (h : valOf s c ≠ 0 ∨ flag s c v = false) :
    exec B (n + 1) (Call.setVal c v) s = Res.ok s := by
  have hg : (valOf s c != 0 || !flag s c v) = true := by
    rcases h with h | h
    · simp [h]
    · simp [h]
  simp only [exec, hg, if_true]

/-- C2: if `setVal(v)` on an unresolved cell `c` carrying `v` returns normally, then
`c.val = v` and `c.getPossVals()` is exactly `[v]`. -/
theorem setVal_value_and_candidates (B : Board) (n : Nat) (s s' : Cells) (c v : Nat)
    (hc : valOf s c = 0) (hv : flag s c v = true)
    (h : exec B n (Call.setVal c v) s = Res.ok s') :
    valOf s' c = v ∧ getPossVals s' c = [v] := by
  have hS := setVal_settled hc hv h
  exact ⟨hS.1, getPossVals_eq_singleton hS.2⟩

/-- C3: if `setVal(v)` on an unresolved cell `c` carrying `v` returns normally, then no
unresolved cell of the box, the row or the column of `c` has `v` as a candidate. -/
theorem setVal_clears_groups (B : Board) (n : Nat) (s s' : Cells) (c v : Nat)
    (hc : valOf s c = 0) (hv : flag s c v = true)
    (h : exec B n (Call.setVal c v) s = Res.ok s') :
    ∀ x, x ∈ B.group (cellBox c) ∨ x ∈ B.group (cellRow c) ∨ x ∈ B.group (cellCol c) →
      ¬ (valOf s' x = 0 ∧ flag s' x v = true) := by
  obtain ⟨m, s2, s3, rfl, _, h3, hm⟩ := setVal_stages hc hv h
  cases m with
  | zero => simp [exec] at h3
  | succ k =>
    simp only [exec] at h3
    obtain ⟨sa, ha, h3⟩ := bind_eq_ok h3
    obtain ⟨sb, hb, hcol⟩ := bind_eq_ok h3
    have hbox : NoCand (B.group (cellBox c)) v sa :=
      fun x hx => elimValFromGroupExcept_post ha x hx (List.not_mem_nil x)
    have hrow : NoCand (B.group (cellRow c)) v sb :=
      fun x hx => elimValFromGroupExcept_post hb x hx (List.not_mem_nil x)
    have hcl : NoCand (B.group (cellCol c)) v s3 :=
      fun x hx => elimValFromGroupExcept_post hcol x hx (List.not_mem_nil x)
    have mab := exec_ok_mono hb
    have mb3 := exec_ok_mono hcol
    intro x hx
    rcases hx with hx | hx | hx
    · exact (hbox.mono ((mab.trans mb3).trans hm)) x hx
    · exact (hrow.mono (mb3.trans hm)) x hx
    · exact (hcl.mono hm) x hx

/-- C8: when removing `d` leaves the cell without any candidate (its candidates were
none or just `d`), `elimVal(d)` throws the "No possible values" error. -/
theorem elimVal_throws_when_empty (B : Board) (n : Nat) (s : Cells) (c d : Nat)
    (hd1 : 1 ≤ d) (hd9 : d ≤ 9) (h : ∀ w, flag s c w = true → w = d) :
    exec B (n + 1) (Call.elimVal c d) s = Res.err (Err.noPossVals c) (clearFlag s c d) := by
  have h0 : (d == 0 || decide (9 < d)) = false := by
    have : ¬ (9 < d) := by omega
    have : d ≠ 0 := by omega
    simp [*]
  have hp : getPossVals (clearFlag s c d) c = [] := by
    apply getPossVals_eq_nil
    intro w
    rw [flag_clearFlag]
    cases hf : flag s c w
    · rfl
    · simp [h w hf]
  simp [exec, h0, hp]

/-- C9: if removing `d` from an unresolved cell leaves exactly one candidate `w` and
`elimVal(d)` returns normally, the cell is resolved to `w`. -/
theorem elimVal_forces_single (B : Board) (n : Nat) (s s' : Cells) (c d w : Nat)
    (hc : valOf s c = 0) (hone : getPossVals (clearFlag s c d) c = [w])
    (h : exec B n (Call.elimVal c d) s = Res.ok s') :
    valOf s' c = w := by
  cases n with
  | zero => simp [exec] at h
  | succ m =>
    simp only [exec] at h
    split at h
    · cases h
    · have hv : (valOf (clearFlag s c d) c == 0) = true := by
        rw [valOf_clearFlag]; simpa using hc
      simp only [hone, List.length_singleton, hv, if_true] at h
      simp only [List.getD_cons_zero] at h
      have hw : flag (clearFlag s c d) c w = true := by
        rw [← mem_getPossVals, hone]; exact List.mem_singleton_self w
      have hc1 : valOf (clearFlag s c d) c = 0 := by rw [valOf_clearFlag]; exact hc
      have h' : exec B m (Call.setVal c w) (clearFlag s c d) = Res.ok s' := by
        simpa using h
      exact (setVal_settled hc1 hw h').1

/-- C10 (as the code has it): for a digit `d` that is not a candidate of `c`, `elimVal(d)`
changes no flag at its removal step and then goes on as after any removal: it throws
when `c` has no candidate at all, returns the unchanged state when `c` is resolved, and
for an unresolved `c` still runs the forced `setVal` (one candidate) or `nakedNums`
(otherwise) on the unchanged state. -/
theorem elimVal_absent_digit (B : Board) (n : Nat) (s : Cells) (c d : Nat)
    (hd1 : 1 ≤ d) (hd9 : d ≤ 9) (h : flag s c d = false) :
    exec B (n + 1) (Call.elimVal c d) s =
      if getPossVals s c = [] then Res.err (Err.noPossVals c) s
      else if valOf s c = 0 then
        if (getPossVals s c).length = 1 then
          exec B n (Call.setVal c ((getPossVals s c).getD 0 0)) s
        else exec B n (Call.nakedNums c (getPossVals s c)) s
      else Res.ok s := by
  have h0 : (d == 0 || decide (9 < d)) = false := by
    have : ¬ (9 < d) := by omega
    have : d ≠ 0 := by omega
    simp [*]
  simp only [exec, h0, clearFlag_of_not_flag h]
  by_cases hp : getPossVals s c = []
  · simp [hp]
  · by_cases hv : valOf s c = 0
    · by_cases hl : (getPossVals s c).length = 1
      · simp [hp, hv, hl]
      · simp [hp, hv, hl]
    · simp [hp, hv]

/-- The group arrays built by the constructor calls, written out. -/
theorem theBoard_eq : theBoard =
    ⟨[[0, 1, 2, 3, 4, 5, 6, 7, 8], [9, 10, 11, 12, 13, 14, 15, 16, 17],
      [18, 19, 20, 21, 22, 23, 24, 25, 26], [27, 28, 29, 30, 31, 32, 33, 34, 35],
      [36, 37, 38, 39, 40, 41, 42, 43, 44], [45, 46, 47, 48, 49, 50, 51, 52, 53],
      [54, 55, 56, 57, 58, 59, 60, 61, 62], [63, 64, 65, 66, 67, 68, 69, 70, 71],
      [72, 73, 74, 75, 76, 77, 78, 79, 80]],
     [[0, 1, 2, 9, 10, 11, 18, 19, 20], [3, 4, 5, 12, 13, 14, 21, 22, 23],
      [6, 7, 8, 15, 16, 17, 24, 25, 26], [27, 28, 29, 36, 37, 38, 45, 46, 47],
      [30, 31, 32, 39, 40, 41, 48, 49, 50], [33, 34, 35, 42, 43, 44, 51, 52, 53],
      [54, 55, 56, 63, 64, 65, 72, 73, 74], [57, 58, 59, 66, 67, 68, 75, 76, 77],
      [60, 61, 62, 69, 70, 71, 78, 79, 80]],
     [[0, 3, 6, 27, 30, 33, 54, 57, 60], [1, 4, 7, 28, 31, 34, 55, 58, 61],
      [2, 5, 8, 29, 32, 35, 56, 59, 62], [9, 12, 15, 36, 39, 42, 63, 66, 69],
      [10, 13, 16, 37, 40, 43, 64, 67, 70], [11, 14, 17, 38, 41, 44, 65, 68, 71],
      [18, 21, 24, 45, 48, 51, 72, 75, 78], [19, 22, 25, 46, 49, 52, 73, 76, 79],
      [20, 23, 26, 47, 50, 53, 74, 77, 80]]⟩ := by
  decide!

theorem testBit_maskOf (k : Nat) : ∀ (group : List Nat),
    (maskOf group).testBit k = decide (∃ c ∈ group, k = 16 * c)
  | [] => by simp [maskOf]
  | c :: cs => by
    show ((1 <<< (16 * c)) ||| maskOf cs).testBit k = _
    rw [Nat.testBit_or, testBit_maskOf k cs, Nat.one_shiftLeft, Nat.testBit_two_pow]
    by_cases h : 16 * c = k
    · simp [h.symm]
    · have : ¬ k = 16 * c := fun h' => h h'.symm
      simp [h, this]

theorem onesMask_testBit : ∀ c, c < 81 → onesMask.testBit (16 * c) = true := by
  decide!

theorem valOf_eq_zero_iff (s c : Nat) :
    valOf s c = 0 ↔ (s.testBit (16 * c) = false ∧ s.testBit (16 * c + 1) = false ∧
      s.testBit (16 * c + 2) = false ∧ s.testBit (16 * c + 3) = false) := by
  constructor
  · intro h
    have h0 := testBit_valOf s c 0
    have h1 := testBit_valOf s c 1
    have h2 := testBit_valOf s c 2
    have h3 := testBit_valOf s c 3
    rw [h, Nat.zero_testBit] at h0 h1 h2 h3
    simp only [Nat.add_zero] at h0
    simp_all
  · intro h
    apply Nat.eq_of_testBit_eq
    intro j
    rw [testBit_valOf, Nat.zero_testBit]
    by_cases hj : j < 4
    · interval_cases j <;> simp [h]
    · simp [hj]

theorem testBit_unresMask (s c : Nat) (hc : c < 81) :
    (unresMask s).testBit (16 * c) = decide (valOf s c = 0) := by
  show (onesMask ^^^ ((s ||| s >>> 1 ||| (s >>> 2 ||| s >>> 3)) &&& onesMask)).testBit (16 * c) = _
  rw [Nat.testBit_xor, Nat.testBit_and, Nat.testBit_or, Nat.testBit_or, Nat.testBit_or,
    Nat.testBit_shiftRight, Nat.testBit_shiftRight, Nat.testBit_shiftRight,
    onesMask_testBit c hc, Nat.add_comm 1, Nat.add_comm 2, Nat.add_comm 3]
  by_cases h : valOf s c = 0
  · have h' := (valOf_eq_zero_iff s c).1 h
    simp [h, h'.1, h'.2.1, h'.2.2.1, h'.2.2.2]
  · have h' : ¬ (s.testBit (16 * c) = false ∧ s.testBit (16 * c + 1) = false ∧
        s.testBit (16 * c + 2) = false ∧ s.testBit (16 * c + 3) = false) :=
      fun h' => h ((valOf_eq_zero_iff s c).2 h')
    cases h0 : s.testBit (16 * c) <;> cases h1 : s.testBit (16 * c + 1) <;>
      cases h2 : s.testBit (16 * c + 2) <;> cases h3 : s.testBit (16 * c + 3) <;>
      simp_all

theorem testBit_digitMask (s c i : Nat) (hc : c < 81) (hi : i ≤ 8) :
    (digitMask s i).testBit (16 * c) = (possAt s c i && Nat.beq (valOf s c) 0) := by
  show ((s >>> (4 + i)) &&& unresMask s).testBit (16 * c) = _
  rw [Nat.testBit_and, Nat.testBit_shiftRight, testBit_unresMask s c hc, possAt_eq,
    beq_eq_decide, Nat.add_comm (4 + i)]
  simp [hi]

theorem mod_of_sparse (y : Nat) (h : ∀ k, y.testBit k = true → 16 ∣ k) :
    y % 65536 = bif y.testBit 0 then 1 else 0 := by
  apply Nat.eq_of_testBit_eq
  intro j
  have e : (65536 : Nat) = 2 ^ 16 := by norm_num
  rw [e, Nat.testBit_mod_two_pow]
  by_cases hj : j = 0
  · subst hj
    cases hb : y.testBit 0
    · simp [hb]
    · simp [hb]
  · have h1 : (bif y.testBit 0 then 1 else 0 : Nat).testBit j = false := by
      cases y.testBit 0
      · simp
      · simp only [cond_true]
        cases hb : Nat.testBit 1 j
        · rfl
        · exact absurd (Nat.testBit_one_eq_true_iff_self_eq_zero.1 hb) hj
    rw [h1]
    by_cases hlt : j < 16
    · cases hb : y.testBit j
      · simp
      · have := h j hb
        omega
    · simp [hlt]

theorem limbCount_mod : ∀ (n y : Nat),
    (∀ k, y.testBit k = true → 16 ∣ k ∧ k < 16 * n) → y % 65535 = limbCount n y % 65535
  | 0, y, h => by
    have : y = 0 := by
      apply Nat.eq_of_testBit_eq
      intro j
      rw [Nat.zero_testBit]
      cases hb : y.testBit j
      · rfl
      · have := (h j hb).2
        omega
    subst this
    rfl
  | n + 1, y, h => by
    have h1 := mod_of_sparse y (fun k hk => (h k hk).1)
    have h2 : ∀ k, (y >>> 16).testBit k = true → 16 ∣ k ∧ k < 16 * n := by
      intro k hk
      rw [Nat.testBit_shiftRight] at hk
      have := h _ hk
      omega
    have ih := limbCount_mod n (y >>> 16) h2
    have h3 : y >>> 16 = y / 65536 := by rw [Nat.shiftRight_eq_div_pow]
    have h4 := Nat.div_add_mod y 65536
    show y % 65535 = ((bif y.testBit 0 then 1 else 0) + limbCount n (y >>> 16)) % 65535
    rw [← h1]
    rw [h3] at ih
    rw [h3]
    omega

theorem limbCount_le : ∀ (n y : Nat), limbCount n y ≤ n
  | 0, _ => Nat.le_refl 0
  | n + 1, y => by
    have := limbCount_le n (y >>> 16)
    show (bif y.testBit 0 then 1 else 0) + limbCount n (y >>> 16) ≤ n + 1
    cases y.testBit 0 <;> simp <;> omega

theorem limbCount_eq_countP : ∀ (n y : Nat),
    limbCount n y = (List.range n).countP (fun c => y.testBit (16 * c))
  | 0, _ => rfl
  | n + 1, y => by
    rw [List.range_succ_eq_map, List.countP_cons, List.countP_map]
    show (bif y.testBit 0 then 1 else 0) + limbCount n (y >>> 16) = _
    rw [limbCount_eq_countP n (y >>> 16)]
    have : (List.range n).countP (fun c => (y >>> 16).testBit (16 * c)) =
        (List.range n).countP ((fun c => y.testBit (16 * c)) ∘ Nat.succ) := by
      apply List.countP_congr
      intro c _
      simp only [Nat.testBit_shiftRight, Function.comp, Nat.succ_eq_add_one]
      rw [show 16 + 16 * c = 16 * (c + 1) by omega]
    rw [this, Nat.add_comm]
    cases y.testBit 0 <;> simp

theorem countP_range_mem (group : List Nat) (hnd : group.Nodup) (N : Nat)
    (hlt : ∀ c ∈ group, c < N) (p : Nat → Bool) :
    (List.range N).countP (fun c => decide (c ∈ group) && p c) = group.countP p := by
  rw [List.countP_eq_length_filter, List.countP_eq_length_filter]
  apply List.Perm.length_eq
  apply (List.perm_ext_iff_of_nodup ((List.nodup_range N).filter _) (hnd.filter _)).2
  intro a
  simp only [List.mem_filter, List.mem_range, Bool.and_eq_true, decide_eq_true_eq]
  constructor
  · intro h; exact h.2
  · intro h; exact ⟨hlt a h.1, h⟩

theorem countCands_eq_countP (s i : Nat) : ∀ (group : List Nat),
    countCands s i group = group.countP (fun c => possAt s c i && Nat.beq (valOf s c) 0)
  | [] => rfl
  | c :: cs => by
    unfold countCands
    rw [List.countP_cons, countCands_eq_countP s i cs]
    cases possAt s c i && Nat.beq (valOf s c) 0 <;> simp

/-- The counter computed on bits is the counter of `getNumVals`, on a group of distinct
cells of the board. -/
theorem fastCount_eq (s : Cells) (group : List Nat) (i : Nat) (hnd : group.Nodup)
    (hlt : ∀ c ∈ group, c < 81) : fastCount s group i = numValsAt s group i := by
  unfold fastCount numValsAt
  rw [countCands_eq_countP, ble_eq_decide]
  by_cases hi : i ≤ 8
  · simp only [hi, decide_True, cond_true]
    show (digitMask s i &&& maskOf group) % 65535 = _
    have hY : ∀ k, (digitMask s i &&& maskOf group).testBit k = true → 16 ∣ k ∧ k < 16 * 81 := by
      intro k hk
      rw [Nat.testBit_and, testBit_maskOf, Bool.and_eq_true, decide_eq_true_eq] at hk
      obtain ⟨c, hc, rfl⟩ := hk.2
      have := hlt c hc
      omega
    have hbit : ∀ c ∈ List.range 81, ((digitMask s i &&& maskOf group).testBit (16 * c) = true ↔
        (decide (c ∈ group) && (possAt s c i && Nat.beq (valOf s c) 0)) = true) := by
      intro c hc
      rw [Nat.testBit_and, testBit_maskOf, testBit_digitMask s c i (List.mem_range.1 hc) hi]
      have : (∃ c' ∈ group, 16 * c = 16 * c') ↔ c ∈ group := by
        constructor
        · rintro ⟨c', hc', he⟩
          have : c = c' := by omega
          exact this ▸ hc'
        · intro h; exact ⟨c, h, rfl⟩
      simp only [this, Bool.and_eq_true, decide_eq_true_eq]
      tauto
    rw [limbCount_mod 81 _ hY, Nat.mod_eq_of_lt (by have := limbCount_le 81 (digitMask s i &&& maskOf group); omega),
      limbCount_eq_countP, List.countP_congr hbit, countP_range_mem group hnd 81 hlt]
  · simp only [hi, decide_False, cond_false]
    symm
    rw [List.countP_eq_zero]
    intro c _ h
    simp only [Bool.and_eq_true] at h
    exact hi (by have := possAt_lt h.1; omega)

/-! ### The faster executor agrees with `exec` -/

theorem forEach_idle {α : Type} (p : α → Bool) (f : α → Cells → Res) :
    ∀ (xs : List α), (∀ x ∈ xs, p x = false) → ∀ s,
      forEach (fun x s => if p x = true then f x s else Res.ok s) xs s = Res.ok s
  | [], _, _ => rfl
  | x :: xs, h, s => by
    have hx : p x = false := h x (List.mem_cons_self x xs)
    simp only [forEach, hx, Bool.false_eq_true, if_false, Res.bind]
    exact forEach_idle p f xs (fun y hy => h y (List.mem_cons_of_mem x hy)) s

theorem forEach_ext {α : Type} {f g : α → Cells → Res} :
    ∀ (xs : List α), (∀ x ∈ xs, ∀ s, f x s = g x s) → ∀ s, forEach f xs s = forEach g xs s
  | [], _, _ => rfl
  | x :: xs, h, s => by
    simp only [forEach, h x (List.mem_cons_self x xs)]
    congr 1
    funext t
    exact forEach_ext xs (fun y hy => h y (List.mem_cons_of_mem x hy)) t

theorem hasCount_false {s : Cells} {group : List Nat} {k : Nat} (hnd : group.Nodup)
    (hlt : ∀ c ∈ group, c < 81) (h : hasCount s group k = false) (i : Nat) (hi : i < 9) :
    Nat.beq (numValsAt s group i) k = false := by
  unfold hasCount at h
  simp only [fastCount_eq _ _ _ hnd hlt, Bool.or_eq_false_iff] at h
  interval_cases i <;> simp only [h]

theorem testBit_flagBits (s c j : Nat) :
    (flagBits s c).testBit j = possAt s c j := by
  rw [possAt_eq]
  show ((s >>> (16 * c + 4)) &&& 511).testBit j = _
  have : (511 : Nat) = 2 ^ 9 - 1 := by norm_num
  rw [this, Nat.and_pow_two_sub_one_eq_mod, Nat.testBit_mod_two_pow, Nat.testBit_shiftRight]
  have h9 : (j < 9) = (j ≤ 8) := by simp only [eq_iff_iff]; omega
  simp only [h9, Nat.add_assoc]

theorem testBit_valsMask (j : Nat) : ∀ (vals : List Nat),
    (valsMask vals).testBit j = decide (j < 9 ∧ j + 1 ∈ vals)
  | [] => by simp [valsMask]
  | v :: vs => by
    unfold valsMask
    rw [beq_eq_decide, ble_eq_decide]
    by_cases hv : v ≠ 0 ∧ v ≤ 9
    · have hc : (!decide (v = 0) && decide (v ≤ 9)) = true := by simp [hv.1, hv.2]
      rw [hc, cond_true]
      show ((1 <<< (v - 1)) ||| valsMask vs).testBit j = _
      rw [Nat.testBit_or, testBit_valsMask j vs, Nat.one_shiftLeft, Nat.testBit_two_pow]
      by_cases hj : v - 1 = j
      · have : j < 9 ∧ j + 1 = v := by omega
        simp [hj, this.1, this.2]
      · have : ¬ j + 1 = v := by omega
        simp [hj, this]
    · have hc : (!decide (v = 0) && decide (v ≤ 9)) = false := by
        by_cases h0 : v = 0
        · simp [h0]
        · have : ¬ v ≤ 9 := fun h => hv ⟨h0, h⟩
          simp [h0, this]
      rw [hc, cond_false, testBit_valsMask j vs]
      have : ¬ (j < 9 ∧ j + 1 = v) := by omega
      by_cases hm : j + 1 ∈ vs <;> by_cases hj : j < 9 <;> (simp [hm, hj]; try omega)

theorem lor_eq_right_iff (a m : Nat) :
    a ||| m = m ↔ ∀ j, a.testBit j = true → m.testBit j = true := by
  constructor
  · intro h j hj
    have := congrArg (fun x => x.testBit j) h
    simp only [Nat.testBit_or, hj, Bool.true_or] at this
    exact this.symm
  · intro h
    apply Nat.eq_of_testBit_eq
    intro j
    rw [Nat.testBit_or]
    cases ha : a.testBit j
    · simp
    · simp [h j ha]

theorem nakedCellsF_eq (s : Cells) (group vals : List Nat) :
    nakedCellsF s group vals = nakedCells s group vals := by
  unfold nakedCellsF nakedCells
  apply List.filter_congr
  intro c _
  rw [Bool.eq_iff_iff, beq_eq_decide, decide_eq_true_eq]
  show flagBits s c ||| valsMask vals = valsMask vals ↔ _
  rw [lor_eq_right_iff, List.all_eq_true]
  constructor
  · intro h v hv
    rw [mem_getPossVals, flag_eq] at hv
    simp only [Bool.and_eq_true, decide_eq_true_eq] at hv
    have := h (v - 1) (by rw [testBit_flagBits]; exact hv.2)
    rw [testBit_valsMask, decide_eq_true_eq] at this
    have hv1 : v - 1 + 1 = v := by omega
    rw [hv1] at this
    simpa using this.2
  · intro h j hj
    rw [testBit_flagBits] at hj
    have hj9 := possAt_lt hj
    have hf : flag s c (j + 1) = true := by
      rw [flag_eq]; simp [hj]
    have := h (j + 1) ((mem_getPossVals s c (j + 1)).2 hf)
    rw [testBit_valsMask, decide_eq_true_eq]
    exact ⟨hj9, by simpa using this⟩

/-- The faster executor computes the outcome of `exec`, for every board, call depth,
call and state. -/
theorem execF_eq (B : Board) (hB : ∀ g, (B.group g).Nodup ∧ ∀ c ∈ B.group g, c < 81) :
    ∀ (n : Nat) (call : Call) (s : Cells), execF B n call s = exec B n call s := by
  have hfc : ∀ s g i, fastCount s (B.group g) i = numValsAt s (B.group g) i :=
    fun s g i => fastCount_eq s _ i (hB g).1 (hB g).2
  intro n
  induction n with
  | zero => intro call s; rfl
  | succ n ih =>
    intro call s
    have ihf : ∀ call, execF B n call = exec B n call := fun call => funext (ih call)
    cases call with
    | hiddenSingle g =>
      simp only [exec, execF, ih, hfc]
      cases h : hasCount s (B.group g) 1
      · simp only [Bool.not_false, cond_true]
        exact (forEach_idle (fun val => Nat.beq (numValsAt s (B.group g) val) 1) _ _
          (fun x hx => hasCount_false (hB g).1 (hB g).2 h x (List.mem_range.1 hx)) s).symm
      · simp only [Bool.not_true, cond_false]
    | pointingPair g =>
      simp only [exec, execF, ih, hfc]
      cases h : hasCount s (B.group g) 2
      · simp only [Bool.not_false, cond_true]
        exact (forEach_idle (fun val => Nat.beq (numValsAt s (B.group g) val) 2) _ _
          (fun x hx => hasCount_false (hB g).1 (hB g).2 h x (List.mem_range.1 hx)) s).symm
      · simp only [Bool.not_true, cond_false]
    | pointingTriple g =>
      simp only [exec, execF, ih, hfc]
      cases h : hasCount s (B.group g) 3
      · simp only [Bool.not_false, cond_true]
        exact (forEach_idle (fun val => Nat.beq (numValsAt s (B.group g) val) 3) _ _
          (fun x hx => hasCount_false (hB g).1 (hB g).2 h x (List.mem_range.1 hx)) s).symm
      · simp only [Bool.not_true, cond_false]
    | hiddenDouble g =>
      simp only [exec, execF, ih, ihf, hfc]
      cases h : hasCount s (B.group g) 2
      · simp only [Bool.not_false, cond_true]
        symm
        refine Eq.trans (forEach_ext _ (fun val1 hv t => ?_) s)
          (forEach_idle (fun _ => false) (fun _ s' => Res.ok s') (List.range 9) (fun _ _ => rfl) s)
        have h1 := hasCount_false (hB g).1 (hB g).2 h val1 (List.mem_range.1 hv)
        simp only [h1, Bool.false_and, Bool.false_eq_true, if_false]
        exact forEach_idle (fun _ => false) (fun _ s' => Res.ok s') _ (fun _ _ => rfl) t
      · simp only [Bool.not_true, cond_false]
        refine forEach_ext _ (fun val1 _ t => ?_) s
        cases h1 : Nat.beq (numValsAt s (B.group g) val1) 2
        · simp only [Bool.not_false, cond_true, Bool.false_and, Bool.false_eq_true, if_false]
          exact (forEach_idle (fun _ => false) (fun _ s' => Res.ok s') _ (fun _ _ => rfl) t).symm
        · simp only [Bool.not_true, cond_false]
    | nakedNum g vals => simp only [exec, execF, ih, nakedCellsF_eq]
    | setVal c v => simp only [exec, execF, ih, hfc]
    | elimVal c v => simp only [exec, execF, ih, hfc]
    | elimValFromGroups c v => simp only [exec, execF, ih, hfc]
    | elimAllValsExcept c exceptions => simp only [exec, execF, ih, hfc]
    | nakedNums c vals => simp only [exec, execF, ih, hfc]
    | elimValFromGroupExcept g v exceptions => simp only [exec, execF, ih, hfc]
    | hiddenSingles => simp only [exec, execF, ih, hfc]
    | hiddenDoubles => simp only [exec, execF, ih, hfc]
    | pointingPairs => simp only [exec, execF, ih, hfc]
    | pointingTriples => simp only [exec, execF, ih, hfc]

theorem runCallsF_eq (B : Board) (hB : ∀ g, (B.group g).Nodup ∧ ∀ c ∈ B.group g, c < 81)
    (fuel : Nat) (calls : List (Nat × Nat)) (s : Cells) :
    runCallsF B fuel calls s = runCalls B fuel calls s := by
  unfold runCallsF runCalls
  exact forEach_ext _ (fun p _ t => execF_eq B hB fuel _ t) s

theorem theBoard_good (g : GroupRef) :
    (theBoard.group g).Nodup ∧ ∀ c ∈ theBoard.group g, c < 81 := by
  obtain ⟨k, i⟩ := g
  rw [theBoard_eq]
  by_cases hi : i < 9
  · cases k <;> interval_cases i <;> decide
  · have hi9 : 9 ≤ i := Nat.le_of_not_lt hi
    cases k <;> simp only [Board.group] <;> rw [List.getD_eq_default _ _ (by simpa using hi9)] <;>
      simp

set_option maxRecDepth 100000 in
/-- Evaluation: `setVal(5)` on cell 0 of the fresh board, call depth 8. -/
theorem setVal_fresh_eval : exec theBoard 8 (Call.setVal 0 5) fresh = Res.ok afterFirst5 := by
  rw [← execF_eq _ theBoard_good, theBoard_eq]
  decide!

set_option maxRecDepth 100000 in
/-- Evaluation: `setVal(5)` on cell 0 of `only5`, call depth 8. -/
theorem setVal_only5_eval : exec theBoard 8 (Call.setVal 0 5) only5 = Res.ok afterFirst5 := by
  rw [← execF_eq _ theBoard_good, theBoard_eq]
  decide!

/-- The forced-value branch of `elimVal`: with one candidate left on an unresolved cell
the call continues as `setVal` of that candidate. -/
theorem elimVal_forced_unfold (B : Board) (n : Nat) (s : Cells) (c d w : Nat)
    (hd1 : 1 ≤ d) (hd9 : d ≤ 9) (hc : valOf s c = 0)
    (hone : getPossVals (clearFlag s c d) c = [w]) :
    exec B (n + 1) (Call.elimVal c d) s = exec B n (Call.setVal c w) (clearFlag s c d) := by
  have h0 : (d == 0 || decide (9 < d)) = false := by
    have : ¬ (9 < d) := by omega
    have : d ≠ 0 := by omega
    simp [*]
  have hv : (valOf (clearFlag s c d) c == 0) = true := by
    rw [valOf_clearFlag]; simpa using hc
  simp [exec, h0, hone, hv]

theorem only35_clear3 : clearFlag only35 0 3 = only5 := by decide!

theorem only5_flags (w : Nat) (h : flag only5 0 w = true) : w = 5 := by
  have hr := flag_range h
  have h9 : w ≤ 9 := hr.2
  have h1 : 1 ≤ w := hr.1
  interval_cases w <;> first | rfl | exact absurd h (by decide!)

set_option maxRecDepth 100000 in
/-- C4: on the freshly constructed board `setVal(5)` on the cell of row 0, column 0
returns normally (for every call depth from 8 on); afterwards that cell has value 5, every
other cell of row 0, column 0 and the top-left box is unresolved with exactly the
candidates 1,2,3,4,6,7,8,9, and every remaining cell is unresolved with all nine
candidates. -/
theorem setVal_five_on_fresh_board :
    (∀ k, exec theBoard (8 + k) (Call.setVal ((theBoard.rows.getD 0 []).getD 0 0) 5) fresh
        = Res.ok afterFirst5) ∧
    valOf afterFirst5 ((theBoard.rows.getD 0 []).getD 0 0) = 5 ∧
    (∀ x ∈ theBoard.group (cellRow 0) ++ theBoard.group (cellCol 0)
          ++ theBoard.group (cellBox 0), x ≠ 0 →
        valOf afterFirst5 x = 0 ∧ getPossVals afterFirst5 x = [1, 2, 3, 4, 6, 7, 8, 9]) ∧
    (∀ x ∈ List.range 81, x ∉ theBoard.group (cellRow 0) ++ theBoard.group (cellCol 0)
          ++ theBoard.group (cellBox 0) →
        valOf afterFirst5 x = 0 ∧ getPossVals afterFirst5 x = [1, 2, 3, 4, 5, 6, 7, 8, 9]) := by
  refine ⟨fun k => ?_, ?_⟩
  · have e : (theBoard.rows.getD 0 []).getD 0 0 = 0 := by rw [theBoard_eq]; rfl
    rw [e]
    exact exec_ok_of_le setVal_fresh_eval (Nat.le_add_right 8 k)
  · rw [theBoard_eq]
    decide!

/-- Witness for C1: a second `setVal` on the resolved cell 0 changes nothing. -/
theorem setVal_guard_noop_witness :
    (valOf afterFirst5 0 ≠ 0 ∨ flag afterFirst5 0 7 = false) ∧
      exec theBoard 1 (Call.setVal 0 7) afterFirst5 = Res.ok afterFirst5 :=
  ⟨Or.inl (by decide!), setVal_guard_noop theBoard 0 afterFirst5 0 7 (Or.inl (by decide!))⟩

/-- Witness for C2 on the fresh board. -/
theorem setVal_value_and_candidates_witness :
    valOf fresh 0 = 0 ∧ flag fresh 0 5 = true ∧
      exec theBoard 8 (Call.setVal 0 5) fresh = Res.ok afterFirst5 ∧
      valOf afterFirst5 0 = 5 ∧ getPossVals afterFirst5 0 = [5] :=
  ⟨by decide!, by decide!, setVal_fresh_eval,
    setVal_value_and_candidates theBoard 8 fresh afterFirst5 0 5 (by decide!) (by decide!)
      setVal_fresh_eval⟩

/-- Witness for C3 on the fresh board. -/
theorem setVal_clears_groups_witness :
    valOf fresh 0 = 0 ∧ flag fresh 0 5 = true ∧
      exec theBoard 8 (Call.setVal 0 5) fresh = Res.ok afterFirst5 ∧
      ∀ x, x ∈ theBoard.group (cellBox 0) ∨ x ∈ theBoard.group (cellRow 0)
          ∨ x ∈ theBoard.group (cellCol 0) →
        ¬ (valOf afterFirst5 x = 0 ∧ flag afterFirst5 x 5 = true) :=
  ⟨by decide!, by decide!, setVal_fresh_eval,
    setVal_clears_groups theBoard 8 fresh afterFirst5 0 5 (by decide!) (by decide!)
      setVal_fresh_eval⟩

/-- Witness for C8: removing the last candidate 5 of cell 0 of `only5` throws. -/
theorem elimVal_throws_when_empty_witness :
    (∀ w, flag only5 0 w = true → w = 5) ∧
      exec theBoard 1 (Call.elimVal 0 5) only5
        = Res.err (Err.noPossVals 0) (clearFlag only5 0 5) :=
  ⟨only5_flags, elimVal_throws_when_empty theBoard 0 only5 0 5 (by decide) (by decide)
    only5_flags⟩

/-- Evaluation: `elimVal(3)` on cell 0 of `only35` forces the value 5. -/
theorem elimVal_only35_eval : exec theBoard 9 (Call.elimVal 0 3) only35 = Res.ok afterFirst5 := by
  rw [elimVal_forced_unfold theBoard 8 only35 0 3 5 (by decide) (by decide) (by decide!)
    (by rw [only35_clear3]; decide!), only35_clear3]
  exact setVal_only5_eval

/-- Witness for C9: removing 3 from the candidates 3,5 of cell 0 resolves it to 5. -/
theorem elimVal_forces_single_witness :
    valOf only35 0 = 0 ∧ getPossVals (clearFlag only35 0 3) 0 = [5] ∧
      exec theBoard 9 (Call.elimVal 0 3) only35 = Res.ok afterFirst5 ∧
      valOf afterFirst5 0 = 5 :=
  ⟨by decide!, by rw [only35_clear3]; decide!, elimVal_only35_eval,
    elimVal_forces_single theBoard 9 only35 afterFirst5 0 3 5 (by decide!)
      (by rw [only35_clear3]; decide!) elimVal_only35_eval⟩

/-- Counterexample to C10 as stated: digit 3 is not a candidate of the unresolved cell 0
of `only5`, yet `elimVal(3)` on it resolves the cell to 5 and, by the cascade, removes
candidate 5 from cell 1. -/
theorem elimVal_absent_digit_changes_state :
    flag only5 0 3 = false ∧
      exec theBoard 9 (Call.elimVal 0 3) only5 = Res.ok afterFirst5 ∧
      valOf only5 0 = 0 ∧ valOf afterFirst5 0 = 5 ∧
      flag only5 1 5 = true ∧ flag afterFirst5 1 5 = false := by
  refine ⟨by decide!, ?_, by decide!, by decide!, by decide!, by decide!⟩
  rw [elimVal_forced_unfold theBoard 8 only5 0 3 5 (by decide) (by decide) (by decide!)
    (by decide!)]
  have e : clearFlag only5 0 3 = only5 := by decide!
  rw [e]
  exact setVal_only5_eval

/-- Witness for the amended C10 on the same input. -/
theorem elimVal_absent_digit_witness :
    flag only5 0 3 = false ∧
      exec theBoard 9 (Call.elimVal 0 3) only5 =
        (if getPossVals only5 0 = [] then Res.err (Err.noPossVals 0) only5
        else if valOf only5 0 = 0 then
          if (getPossVals only5 0).length = 1 then
            exec theBoard 8 (Call.setVal 0 ((getPossVals only5 0).getD 0 0)) only5
          else exec theBoard 8 (Call.nakedNums 0 (getPossVals only5 0)) only5
        else Res.ok only5) :=
  ⟨by decide!, elimVal_absent_digit theBoard 8 only5 0 3 (by decide) (by decide) (by decide!)⟩

theorem theBoard_wired : Wired theBoard := by
  rw [theBoard_eq]
  exact ⟨by decide!, by decide!, by decide!, by decide!⟩

theorem cellBox_valid : ∀ x, x < 81 → cellBox x ∈ allGroups := by decide!

theorem cellRow_valid : ∀ x, x < 81 → cellRow x ∈ allGroups := by decide!

theorem cellCol_valid : ∀ x, x < 81 → cellCol x ∈ allGroups := by decide!

section Sol
variable {B : Board} {S : Nat → Nat}

theorem Solution.range (hS : Solution B S) {g : GroupRef} (hg : g ∈ allGroups) {x : Nat}
    (hx : x ∈ B.group g) : 1 ≤ S x ∧ S x ≤ 9 := by
  have h : S x ∈ (B.group g).map S := List.mem_map_of_mem S hx
  rw [(hS g hg).mem_iff] at h
  simp only [List.mem_cons, List.mem_singleton, List.not_mem_nil, or_false] at h
  omega

theorem Solution.nodup (hS : Solution B S) {g : GroupRef} (hg : g ∈ allGroups) :
    ((B.group g).map S).Nodup := by
  rw [(hS g hg).nodup_iff]
  decide

theorem Solution.inj (hS : Solution B S) {g : GroupRef} (hg : g ∈ allGroups) {x y : Nat}
    (hx : x ∈ B.group g) (hy : y ∈ B.group g) (h : S x = S y) : x = y :=
  List.inj_on_of_nodup_map (hS.nodup hg) hx hy h

theorem Solution.surj (hS : Solution B S) {g : GroupRef} (hg : g ∈ allGroups) {d : Nat}
    (h1 : 1 ≤ d) (h9 : d ≤ 9) : ∃ z ∈ B.group g, S z = d := by
  have h : d ∈ (B.group g).map S := by
    rw [(hS g hg).mem_iff]
    simp only [List.mem_cons, List.mem_singleton, List.not_mem_nil, or_false]
    omega
  obtain ⟨z, hz, rfl⟩ := List.mem_map.mp h
  exact ⟨z, hz, rfl⟩

end Sol

/-! ### `Board.getCellsWithVal` -/

theorem getCellsWithValAux_eq (s : Cells) (v : Nat) :
    ∀ (group acc : List Nat), getCellsWithValAux s v group acc =
      if group.any (fun c => flag s c v && valOf s c != 0) then []
      else acc ++ group.filter (fun c => flag s c v)
  | [], acc => by simp [getCellsWithValAux]
  | c :: rest, acc => by
    unfold getCellsWithValAux
    by_cases h1 : (flag s c v && valOf s c != 0) = true
    · simp [h1]
    · simp only [h1, Bool.false_eq_true, if_false]
      have h1' : (flag s c v && valOf s c != 0) = false := by simpa using h1
      by_cases h2 : flag s c v = true
      · rw [if_pos h2, getCellsWithValAux_eq s v rest]
        have h3 : valOf s c = 0 := by simpa [h2] using h1'
        simp [List.any_cons, List.filter_cons, h2, h3]
      · rw [if_neg h2, getCellsWithValAux_eq s v rest]
        simp [List.any_cons, h1', List.filter_cons, h2]

/-- A non-empty result of `getCellsWithVal` lists exactly the cells of the group that
carry the flag, and none of them is resolved. -/
theorem getCellsWithVal_nonempty {s : Cells} {group : List Nat} {v : Nat}
    (h : getCellsWithVal s group v ≠ []) :
    getCellsWithVal s group v = group.filter (fun c => flag s c v) ∧
      ∀ c ∈ group, flag s c v = true → valOf s c = 0 := by
  unfold getCellsWithVal at h ⊢
  rw [getCellsWithValAux_eq] at h ⊢
  by_cases ha : group.any (fun c => flag s c v && valOf s c != 0) = true
  · rw [if_pos ha] at h; exact absurd rfl h
  · rw [if_neg ha]
    refine ⟨by simp, fun c hc hf => ?_⟩
    by_contra hne
    apply ha
    rw [List.any_eq_true]
    exact ⟨c, hc, by simp [hf, hne]⟩

/-! ### The bulk loop of `Board.elimValFromGroupExcept` -/

theorem bulkClear_valOf (v : Nat) (exceptions : List Nat) :
    ∀ (group : List Nat) (s : Cells) (cells : List Nat) (x : Nat),
      valOf (bulkClear v exceptions group s cells).1 x = valOf s x
  | [], _, _, _ => rfl
  | c :: rest, s, cells, x => by
    unfold bulkClear
    split
    · rw [bulkClear_valOf v exceptions rest, valOf_clearFlag]
    · exact bulkClear_valOf v exceptions rest s cells x

/-- A flag lost in the bulk loop is the flag `v` of an unresolved cell of the group that
is not an exception. -/
theorem bulkClear_lost (v : Nat) (exceptions : List Nat) :
    ∀ (group : List Nat) (s : Cells) (cells : List Nat) (x w : Nat),
      flag s x w = true → flag (bulkClear v exceptions group s cells).1 x w = false →
        w = v ∧ x ∈ group ∧ x ∉ exceptions ∧ valOf s x = 0
  | [], s, _, x, w, h1, h2 => by
    simp only [bulkClear] at h2
    rw [h1] at h2; cases h2
  | c :: rest, s, cells, x, w, h1, h2 => by
    unfold bulkClear at h2
    split at h2
    · rename_i hcond
      simp only [Bool.and_eq_true, Bool.not_eq_true', beq_iff_eq] at hcond
      by_cases hx : x = c ∧ w = v
      · obtain ⟨rfl, rfl⟩ := hx
        refine ⟨rfl, List.mem_cons_self _ _, ?_, hcond.2.2⟩
        intro hmem
        have := hcond.1
        simp [hmem] at this
      · have hf : flag (clearFlag s c v) x w = true := by
          rw [flag_clearFlag, h1]; simp [hx]
        obtain ⟨e1, e2, e3, e4⟩ := bulkClear_lost v exceptions rest _ _ x w hf h2
        rw [valOf_clearFlag] at e4
        exact ⟨e1, List.mem_cons_of_mem _ e2, e3, e4⟩
    · obtain ⟨e1, e2, e3, e4⟩ := bulkClear_lost v exceptions rest _ _ x w h1 h2
      exact ⟨e1, List.mem_cons_of_mem _ e2, e3, e4⟩

/-- The cells collected by the bulk loop are unresolved cells of the group that are not
exceptions. -/
theorem bulkClear_collected (v : Nat) (exceptions : List Nat) :
    ∀ (group : List Nat) (s : Cells) (cells : List Nat) (c : Nat),
      c ∈ (bulkClear v exceptions group s cells).2 →
        c ∈ cells ∨ (c ∈ group ∧ c ∉ exceptions ∧ valOf s c = 0)
  | [], _, _, _, h => Or.inl h
  | a :: rest, s, cells, c, h => by
    unfold bulkClear at h
    split at h
    · rename_i hcond
      simp only [Bool.and_eq_true, Bool.not_eq_true', beq_iff_eq] at hcond
      rcases bulkClear_collected v exceptions rest _ _ c h with h' | ⟨h1, h2, h3⟩
      · rcases List.mem_append.mp h' with h'' | h''
        · exact Or.inl h''
        · rw [List.mem_singleton] at h''
          subst h''
          refine Or.inr ⟨List.mem_cons_self _ _, ?_, hcond.2.2⟩
          intro hmem
          have := hcond.1
          simp [hmem] at this
      · rw [valOf_clearFlag] at h3
        exact Or.inr ⟨List.mem_cons_of_mem _ h1, h2, h3⟩
    · rcases bulkClear_collected v exceptions rest _ _ c h with h' | ⟨h1, h2, h3⟩
      · exact Or.inl h'
      · exact Or.inr ⟨List.mem_cons_of_mem _ h1, h2, h3⟩

/-! ### The counting argument behind `Board.nakedNum` -/

theorem mem_nakedCells {s : Cells} {group vals : List Nat} {c : Nat} :
    c ∈ nakedCells s group vals ↔ c ∈ group ∧ ∀ w, flag s c w = true → w ∈ vals := by
  unfold nakedCells
  simp only [List.mem_filter, List.all_eq_true, mem_getPossVals]
  constructor
  · rintro ⟨h1, h2⟩
    exact ⟨h1, fun w hw => by simpa using h2 w hw⟩
  · rintro ⟨h1, h2⟩
    exact ⟨h1, fun w hw => by simpa using h2 w hw⟩

/-- If as many cells of a group as there are digits in `vals` have all their candidates
in `vals`, then in a sound state no other cell of the group has its solution digit in
`vals`. -/
theorem naked_pigeonhole {B : Board} {S : Nat → Nat} (hS : Solution B S) (hW : Wired B)
    {g : GroupRef} (hg : g ∈ allGroups) {s : Cells} (hs : Sound S s) {vals : List Nat}
    (hlen : (nakedCells s (B.group g) vals).length = vals.length) :
    ∀ x ∈ B.group g, x ∉ nakedCells s (B.group g) vals → S x ∉ vals := by
  have hsub : (nakedCells s (B.group g) vals).map S ⊆ vals := by
    intro d hd
    obtain ⟨c, hc, rfl⟩ := List.mem_map.mp hd
    rw [mem_nakedCells] at hc
    exact hc.2 _ (hs c (hW.lt g hg c hc.1)).1
  have hcellsnd : (nakedCells s (B.group g) vals).Nodup :=
    (List.Nodup.of_map S (hS.nodup hg)).filter _
  have hmapnd : ((nakedCells s (B.group g) vals).map S).Nodup := by
    rw [List.nodup_map_iff_inj_on hcellsnd]
    intro a ha b hb hab
    exact hS.inj hg (mem_nakedCells.mp ha).1 (mem_nakedCells.mp hb).1 hab
  have hperm : ((nakedCells s (B.group g) vals).map S).Perm vals :=
    (List.subperm_of_subset hmapnd hsub).perm_of_length_le (by rw [List.length_map, hlen])
  intro x hx hxn hSx
  rw [← hperm.mem_iff] at hSx
  obtain ⟨c, hc, hcx⟩ := List.mem_map.mp hSx
  have : c = x := hS.inj hg (mem_nakedCells.mp hc).1 hx hcx
  subst this
  exact hxn hc

theorem sat_and {P P' E E' : Cells → Prop} {r : Res} (h : r.sat P E) (h' : r.sat P' E') :
    r.sat (fun s => P s ∧ P' s) E := by
  cases r with
  | ok s => exact ⟨h, h'⟩
  | err e s => exact h
  | timeout => trivial

theorem sat_weaken {P Q E : Cells → Prop} {r : Res} (h : r.sat P E) (hPQ : ∀ s, P s → Q s) :
    r.sat Q E := by
  cases r with
  | ok s => exact hPQ s h
  | err e s => exact h
  | timeout => trivial

section Sound
variable {B : Board} {S : Nat → Nat}

theorem Sound.digit {s : Cells} (hs : Sound S s) {x : Nat} (hx : x < 81) :
    1 ≤ S x ∧ S x ≤ 9 := flag_range (hs x hx).1

theorem sound_setCellVal {s : Cells} (hs : Sound S s) {c : Nat} (hc : c < 81) :
    Sound S (setCellVal s c (S c)) := by
  intro x hx
  refine ⟨by rw [flag_setCellVal]; exact (hs x hx).1, fun hne => ?_⟩
  rw [valOf_setCellVal] at hne ⊢
  by_cases hxc : x = c
  · subst hxc
    rw [if_pos rfl]
    have := hs.digit hc
    omega
  · rw [if_neg hxc] at hne ⊢
    exact (hs x hx).2 hne

theorem sound_clearFlag {s : Cells} (hs : Sound S s) {c v : Nat} (hv : c < 81 → v ≠ S c) :
    Sound S (clearFlag s c v) := by
  intro x hx
  refine ⟨?_, fun hne => ?_⟩
  · rw [flag_clearFlag, (hs x hx).1]
    by_cases hxc : x = c
    · subst hxc
      have := hv hx
      simp [Ne.symm this]
    · simp [hxc]
  · rw [valOf_clearFlag] at hne ⊢
    exact (hs x hx).2 hne

theorem getD_of_length_one {l : List Nat} {a : Nat} (hl : l.length = 1) (ha : a ∈ l) :
    l.getD 0 0 = a := by
  obtain ⟨b, rfl⟩ := List.length_eq_one.mp hl
  rw [List.mem_singleton] at ha
  simp [ha]

theorem getD_mem_or_zero (l : List Nat) (i : Nat) : l.getD i 0 ∈ l ∨ l.getD i 0 = 0 := by
  by_cases h : i < l.length
  · left
    rw [List.getD_eq_getElem _ _ h]
    exact List.getElem_mem h
  · right
    exact List.getD_eq_default _ _ (Nat.le_of_not_lt h)

/-- The solution cell of a digit is among the cells that `getCellsWithVal` returns,
when it returns any. -/
theorem solution_cell_listed (hS : Solution B S) (hW : Wired B) {g : GroupRef}
    (hg : g ∈ allGroups) {s : Cells} (hs : Sound S s) {d : Nat} (h1 : 1 ≤ d) (h9 : d ≤ 9)
    (hne : getCellsWithVal s (B.group g) d ≠ []) :
    ∃ z ∈ getCellsWithVal s (B.group g) d, z ∈ B.group g ∧ S z = d := by
  obtain ⟨z, hz, hSz⟩ := hS.surj hg h1 h9
  refine ⟨z, ?_, hz, hSz⟩
  rw [(getCellsWithVal_nonempty hne).1, List.mem_filter]
  refine ⟨hz, ?_⟩
  have := (hs z (hW.lt g hg z hz)).1
  rw [hSz] at this
  simpa using this

theorem listed_mem_group {s : Cells} {group : List Nat} {d c : Nat}
    (hc : c ∈ getCellsWithVal s group d) : c ∈ group := by
  have hne : getCellsWithVal s group d ≠ [] := List.ne_nil_of_mem hc
  rw [(getCellsWithVal_nonempty hne).1, List.mem_filter] at hc
  exact hc.1

/-- Hidden single: if `getCellsWithVal` returns one cell for a digit, that cell has the
digit in the solution. -/
theorem hidden_single_sound (hS : Solution B S) (hW : Wired B) {g : GroupRef}
    (hg : g ∈ allGroups) {s : Cells} (hs : Sound S s) {val : Nat} (hval : val < 9)
    (hlen : (getCellsWithVal s (B.group g) (val + 1)).length = 1) :
    (getCellsWithVal s (B.group g) (val + 1)).getD 0 0 < 81 ∧
      val + 1 = S ((getCellsWithVal s (B.group g) (val + 1)).getD 0 0) := by
  have hne : getCellsWithVal s (B.group g) (val + 1) ≠ [] := by
    intro h; rw [h] at hlen; cases hlen
  obtain ⟨z, hz, hzg, hSz⟩ := solution_cell_listed hS hW hg hs (by omega) (by omega) hne
  rw [getD_of_length_one hlen hz]
  exact ⟨hW.lt g hg z hzg, hSz.symm⟩

/-- Pointing: when all the cells returned for a digit lie in a second group, no other
cell of that group has the digit in the solution. -/
theorem pointing_sound (hS : Solution B S) (hW : Wired B) {g g' : GroupRef}
    (hg : g ∈ allGroups) (hg' : g' ∈ allGroups) {s : Cells} (hs : Sound S s) {val : Nat}
    (hval : val < 9) (hne : getCellsWithVal s (B.group g) (val + 1) ≠ [])
    (hin : ∀ c ∈ getCellsWithVal s (B.group g) (val + 1), c ∈ B.group g') :
    ∀ x ∈ B.group g', x ∉ getCellsWithVal s (B.group g) (val + 1) → S x ≠ val + 1 := by
  obtain ⟨z, hz, _, hSz⟩ := solution_cell_listed hS hW hg hs (by omega) (by omega) hne
  intro x hx hxn hSx
  have : x = z := hS.inj hg' hx (hin z hz) (hSx.trans hSz.symm)
  subst this
  exact hxn hz

/-- Hidden pair: if two digits are carried by the same two cells of a group, those two
cells have these two digits in the solution. -/
theorem hidden_double_sound (hS : Solution B S) (hW : Wired B) {g : GroupRef}
    (hg : g ∈ allGroups) {s : Cells} (hs : Sound S s) {v1 v2 : Nat} (h1 : v1 < 9)
    (h21 : v2 < v1)
    (hl1 : (getCellsWithVal s (B.group g) (v1 + 1)).length = 2)
    (hl2 : (getCellsWithVal s (B.group g) (v2 + 1)).length = 2)
    (hc0 : (getCellsWithVal s (B.group g) (v1 + 1)).getD 0 0 ∈
      getCellsWithVal s (B.group g) (v2 + 1))
    (hc1 : (getCellsWithVal s (B.group g) (v1 + 1)).getD 1 0 ∈
      getCellsWithVal s (B.group g) (v2 + 1)) :
    ((getCellsWithVal s (B.group g) (v1 + 1)).getD 0 0 < 81 ∧
      S ((getCellsWithVal s (B.group g) (v1 + 1)).getD 0 0) ∈ [v1 + 1, v2 + 1]) ∧
    ((getCellsWithVal s (B.group g) (v1 + 1)).getD 1 0 < 81 ∧
      S ((getCellsWithVal s (B.group g) (v1 + 1)).getD 1 0) ∈ [v1 + 1, v2 + 1]) := by
  have hne1 : getCellsWithVal s (B.group g) (v1 + 1) ≠ [] := by
    intro h; rw [h] at hl1; cases hl1
  have hne2 : getCellsWithVal s (B.group g) (v2 + 1) ≠ [] := by
    intro h; rw [h] at hl2; cases hl2
  obtain ⟨z1, hz1, _, hSz1⟩ := solution_cell_listed hS hW hg hs (by omega) (by omega) hne1
  obtain ⟨z2, hz2, _, hSz2⟩ := solution_cell_listed hS hW hg hs (by omega) (by omega) hne2
  have hnd1 : (getCellsWithVal s (B.group g) (v1 + 1)).Nodup := by
    rw [(getCellsWithVal_nonempty hne1).1]
    exact (List.Nodup.of_map S (hS.nodup hg)).filter _
  have hg0 : ∀ c ∈ getCellsWithVal s (B.group g) (v1 + 1), c < 81 :=
    fun c hc => hW.lt g hg c (listed_mem_group hc)
  obtain ⟨a, b, hab⟩ := List.length_eq_two.mp hl1
  obtain ⟨p, q, hpq⟩ := List.length_eq_two.mp hl2
  rw [hab] at hz1 hnd1 hg0 hc0 hc1 ⊢
  rw [hpq] at hz2 hc0 hc1
  simp only [List.getD_cons_zero, List.getD_cons_succ, List.mem_cons, List.mem_singleton,
    List.not_mem_nil, or_false, List.nodup_cons, not_or, List.nodup_nil, and_true,
    not_false_eq_true] at hz1 hz2 hc0 hc1 hnd1 ⊢
  have hz12 : z1 ≠ z2 := by
    intro h
    rw [h, hSz2] at hSz1
    omega
  have ha : a < 81 := hg0 a (by simp)
  have hb : b < 81 := hg0 b (by simp)
  have hz2ab : z2 = a ∨ z2 = b := by omega
  refine ⟨⟨ha, ?_⟩, ⟨hb, ?_⟩⟩
  · rcases hz1 with h | h
    · left; rw [← h]; exact hSz1
    · rcases hz2ab with h2 | h2
      · right; rw [← h2]; exact hSz2
      · exact absurd (h.trans h2.symm) hz12
  · rcases hz1 with h | h
    · rcases hz2ab with h2 | h2
      · exact absurd (h.trans h2.symm) hz12
      · right; rw [← h2]; exact hSz2
    · left; rw [← h]; exact hSz1

/-- Clearing `v` on the rest of a group of a resolved cell with solution digit `v`. -/
theorem pre_group_of_resolved (hS : Solution B S) {g : GroupRef} (hg : g ∈ allGroups)
    {c : Nat} (hcg : c ∈ B.group g) {s : Cells} (hval : valOf s c ≠ 0) :
    ∀ x ∈ B.group g, x ∉ ([] : List Nat) → valOf s x = 0 → S x ≠ S c := by
  intro x hx _ h0 hSx
  have : x = c := hS.inj hg hx hcg hSx
  subst this
  exact hval h0

end Sound

/-- Soundness of the whole propagation: from a state that agrees with the solution `S`,
every call whose arguments agree with `S` ends, by return or by throw, in a state that
agrees with `S`. -/
theorem exec_sound {B : Board} {S : Nat → Nat} (hS : Solution B S) (hW : Wired B) :
    ∀ (n : Nat) (call : Call) (s : Cells), Sound S s → Pre B S call s →
      (exec B n call s).sat (Sound S) (Sound S) := by
  intro n
  induction n with
  | zero => intro call s _ _; trivial
  | succ n ih =>
    intro call s hs hpre
    cases call with
    | setVal c v =>
      obtain ⟨hc, rfl⟩ := hpre
      simp only [exec]
      split
      · exact hs
      · have hs1 : Sound S (setCellVal s c (S c)) := sound_setCellVal hs hc
        have hv1 : valOf (setCellVal s c (S c)) c ≠ 0 := by
          rw [valOf_setCellVal, if_pos rfl]
          have := hs.digit hc
          omega
        refine sat_bind (P := fun t => Sound S t ∧ Mono (setCellVal s c (S c)) t)
          (sat_forEach _ ?_ _ ⟨hs1, Mono.refl _⟩) ?_
        · intro i _ t ht
          split
          · rename_i hne
            have hne' : i + 1 ≠ S c := by simpa using hne
            exact sat_and (ih _ t ht.1 ⟨hc, hne'⟩) (exec_mono_from B _ n _ t ht.2)
          · exact ht
        · intro s2 h2
          have hv2 : valOf s2 c ≠ 0 := by
            rw [(h2.2 c).1 hv1]; exact hv1
          refine sat_bind (ih _ s2 h2.1 ⟨hc, rfl, hv2⟩) (fun s3 h3 => ?_)
          refine sat_bind (ih _ s3 h3 trivial) (fun s4 h4 => ?_)
          refine sat_bind (ih _ s4 h4 trivial) (fun s5 h5 => ?_)
          refine sat_bind (ih _ s5 h5 trivial) (fun s6 h6 => ?_)
          exact ih _ s6 h6 trivial
    | elimVal c v =>
      obtain ⟨hc, hv⟩ := hpre
      simp only [exec]
      split
      · exact hs
      · have hs1 : Sound S (clearFlag s c v) := sound_clearFlag hs (fun _ => hv)
        split
        · exact hs1
        · split
          · split
            · rename_i hlen
              have hlen' : (getPossVals (clearFlag s c v) c).length = 1 := by simpa using hlen
              have hmem : S c ∈ getPossVals (clearFlag s c v) c := by
                rw [mem_getPossVals]; exact (hs1 c hc).1
              exact ih _ _ hs1 ⟨hc, getD_of_length_one hlen' hmem⟩
            · exact ih _ _ hs1 hc
          · exact hs1
    | elimValFromGroups c v =>
      obtain ⟨hc, rfl, hval⟩ := hpre
      simp only [exec]
      have key : ∀ t, Mono s t → ∀ g, g ∈ allGroups → c ∈ B.group g →
          Pre B S (Call.elimValFromGroupExcept g (S c) []) t := by
        intro t ht g hg hcg
        have hvt : valOf t c ≠ 0 := by rw [(ht c).1 hval]; exact hval
        exact ⟨hg, pre_group_of_resolved hS hg hcg hvt⟩
      refine sat_bind (sat_and (ih _ s hs (key s (Mono.refl s) _ (cellBox_valid c hc)
        (hW.mem_box c hc))) (exec_mono B n _ s)) (fun s2 h2 => ?_)
      refine sat_bind (sat_and (ih _ s2 h2.1 (key s2 h2.2 _ (cellRow_valid c hc)
        (hW.mem_row c hc))) (exec_mono_from B s n _ s2 h2.2)) (fun s3 h3 => ?_)
      exact ih _ s3 h3.1 (key s3 h3.2 _ (cellCol_valid c hc) (hW.mem_col c hc))
    | elimAllValsExcept c exceptions =>
      obtain ⟨hc, hmem⟩ := hpre
      simp only [exec]
      refine sat_forEach _ ?_ _ hs
      intro i _ t ht
      split
      · rename_i hne
        have hne' : i + 1 ∉ exceptions := by simpa using hne
        refine ih _ t ht ⟨hc, ?_⟩
        intro h
        rw [h] at hne'
        exact hne' hmem
      · exact ht
    | nakedNums c vals =>
      simp only [exec]
      refine sat_bind (ih _ s hs (cellBox_valid c hpre)) (fun s2 h2 => ?_)
      refine sat_bind (ih _ s2 h2 (cellRow_valid c hpre)) (fun s3 h3 => ?_)
      exact ih _ s3 h3 (cellCol_valid c hpre)
    | elimValFromGroupExcept g v exceptions =>
      obtain ⟨hg, hpre⟩ := hpre
      simp only [exec]
      have hs1 : Sound S (bulkClear v exceptions (B.group g) s []).1 := by
        intro x hx
        refine ⟨?_, fun hne => ?_⟩
        · by_contra hf
          have hf' : flag (bulkClear v exceptions (B.group g) s []).1 x (S x) = false := by
            simpa using hf
          obtain ⟨e1, e2, e3, e4⟩ :=
            bulkClear_lost v exceptions (B.group g) s [] x (S x) (hs x hx).1 hf'
          exact hpre x e2 e3 e4 e1
        · rw [bulkClear_valOf] at hne ⊢
          exact (hs x hx).2 hne
      refine sat_forEach _ ?_ _ hs1
      intro c hc t ht
      split
      · rcases bulkClear_collected v exceptions (B.group g) s [] c hc with h | ⟨h1, h2, h3⟩
        · cases h
        · exact ih _ t ht ⟨hW.lt g hg c h1, fun h => hpre c h1 h2 h3 h.symm⟩
      · exact ht
    | hiddenSingle g =>
      simp only [exec]
      refine sat_forEach _ ?_ _ hs
      intro val hval t ht
      split
      · split
        · rename_i hlen
          have hlen' : (getCellsWithVal t (B.group g) (val + 1)).length = 1 := by
            simpa using hlen
          exact ih _ t ht
            (hidden_single_sound hS hW hpre ht (List.mem_range.mp hval) hlen')
        · split
          · exact ht
          · exact ht
      · exact ht
    | hiddenDouble g =>
      simp only [exec]
      refine sat_forEach _ ?_ _ hs
      intro val1 hval1 s1 hs1
      refine sat_forEach _ ?_ _ hs1
      intro val2 hval2 t ht
      split
      · split
        · rename_i hlens
          split
          · rename_i hcont
            simp only [Bool.and_eq_true, beq_iff_eq] at hlens
            simp only [Bool.and_eq_true] at hcont
            have hc0 := List.mem_of_elem_eq_true hcont.1
            have hc1 := List.mem_of_elem_eq_true hcont.2
            have key := hidden_double_sound hS hW hpre ht (List.mem_range.mp hval1)
              (List.mem_range.mp hval2) hlens.1 hlens.2 hc0 hc1
            exact sat_bind (ih _ t ht key.1) (fun t2 ht2 => ih _ t2 ht2 key.2)
          · exact ht
        · exact ht
      · exact ht
    | pointingPair g =>
      simp only [exec]
      refine sat_forEach _ ?_ _ hs
      intro val hval t ht
      have hval' : val < 9 := List.mem_range.mp hval
      split
      · split
        · rename_i hlen
          have hlen' : (getCellsWithVal t (B.group g) (val + 1)).length = 2 := by
            simpa using hlen
          have hne : getCellsWithVal t (B.group g) (val + 1) ≠ [] := by
            intro h; rw [h] at hlen'; cases hlen'
          obtain ⟨a, b, hab⟩ := List.length_eq_two.mp hlen'
          have ha : a < 81 := hW.lt g hpre a (listed_mem_group (by rw [hab]; simp))
          have hb : b < 81 := hW.lt g hpre b (listed_mem_group (by rw [hab]; simp))
          have hget0 : (getCellsWithVal t (B.group g) (val + 1)).getD 0 0 = a := by
            rw [hab]; rfl
          have hget1 : (getCellsWithVal t (B.group g) (val + 1)).getD 1 0 = b := by
            rw [hab]; rfl
          rw [hget0, hget1]
          split
          · rename_i hcond
            simp only [Bool.and_eq_true, beq_iff_eq] at hcond
            refine ih _ t ht ⟨cellBox_valid a ha, fun x hx hxn _ => ?_⟩
            refine pointing_sound hS hW hpre (cellBox_valid a ha) ht hval' hne ?_ x hx hxn
            intro c hc
            rw [hab] at hc
            simp only [List.mem_cons, List.mem_singleton, List.not_mem_nil, or_false] at hc
            rcases hc with rfl | rfl
            · exact hW.mem_box _ ha
            · rw [hcond.1]; exact hW.mem_box _ hb
          · split
            · rename_i hcond
              simp only [Bool.and_eq_true, beq_iff_eq] at hcond
              refine ih _ t ht ⟨cellRow_valid a ha, fun x hx hxn _ => ?_⟩
              refine pointing_sound hS hW hpre (cellRow_valid a ha) ht hval' hne ?_ x hx hxn
              intro c hc
              rw [hab] at hc
              simp only [List.mem_cons, List.mem_singleton, List.not_mem_nil, or_false] at hc
              rcases hc with rfl | rfl
              · exact hW.mem_row _ ha
              · rw [hcond.1]; exact hW.mem_row _ hb
            · split
              · rename_i hcond
                simp only [Bool.and_eq_true, beq_iff_eq] at hcond
                refine ih _ t ht ⟨cellCol_valid a ha, fun x hx hxn _ => ?_⟩
                refine pointing_sound hS hW hpre (cellCol_valid a ha) ht hval' hne ?_ x hx hxn
                intro c hc
                rw [hab] at hc
                simp only [List.mem_cons, List.mem_singleton, List.not_mem_nil, or_false] at hc
                rcases hc with rfl | rfl
                · exact hW.mem_col _ ha
                · rw [hcond.1]; exact hW.mem_col _ hb
              · exact ht
        · split
          · exact ht
          · exact ht
      · exact ht
    | pointingTriple g =>
      simp only [exec]
      refine sat_forEach _ ?_ _ hs
      intro val hval t ht
      have hval' : val < 9 := List.mem_range.mp hval
      split
      · split
        · rename_i hlen
          have hlen' : (getCellsWithVal t (B.group g) (val + 1)).length = 3 := by
            simpa using hlen
          have hne : getCellsWithVal t (B.group g) (val + 1) ≠ [] := by
            intro h; rw [h] at hlen'; cases hlen'
          obtain ⟨a, b, c3, hab⟩ := List.length_eq_three.mp hlen'
          have ha : a < 81 := hW.lt g hpre a (listed_mem_group (by rw [hab]; simp))
          have hb : b < 81 := hW.lt g hpre b (listed_mem_group (by rw [hab]; simp))
          have hc3 : c3 < 81 := hW.lt g hpre c3 (listed_mem_group (by rw [hab]; simp))
          have hget0 : (getCellsWithVal t (B.group g) (val + 1)).getD 0 0 = a := by
            rw [hab]; rfl
          have hget1 : (getCellsWithVal t (B.group g) (val + 1)).getD 1 0 = b := by
            rw [hab]; rfl
          have hget2 : (getCellsWithVal t (B.group g) (val + 1)).getD 2 0 = c3 := by
            rw [hab]; rfl
          rw [hget0, hget1, hget2]
          split
          · rename_i hcond
            simp only [Bool.and_eq_true, beq_iff_eq] at hcond
            refine ih _ t ht ⟨cellBox_valid a ha, fun x hx hxn _ => ?_⟩
            refine pointing_sound hS hW hpre (cellBox_valid a ha) ht hval' hne ?_ x hx hxn
            intro c hc
            rw [hab] at hc
            simp only [List.mem_cons, List.mem_singleton, List.not_mem_nil, or_false] at hc
            rcases hc with rfl | rfl | rfl
            · exact hW.mem_box _ ha
            · rw [hcond.1.1]; exact hW.mem_box _ hb
            · rw [hcond.1.1, hcond.1.2]; exact hW.mem_box _ hc3
          · split
            · rename_i hcond
              simp only [Bool.and_eq_true, beq_iff_eq] at hcond
              refine ih _ t ht ⟨cellRow_valid a ha, fun x hx hxn _ => ?_⟩
              refine pointing_sound hS hW hpre (cellRow_valid a ha) ht hval' hne ?_ x hx hxn
              intro c hc
              rw [hab] at hc
              simp only [List.mem_cons, List.mem_singleton, List.not_mem_nil, or_false] at hc
              rcases hc with rfl | rfl | rfl
              · exact hW.mem_row _ ha
              · rw [hcond.1.1]; exact hW.mem_row _ hb
              · rw [hcond.1.1, hcond.1.2]; exact hW.mem_row _ hc3
            · split
              · rename_i hcond
                simp only [Bool.and_eq_true, beq_iff_eq] at hcond
                refine ih _ t ht ⟨cellCol_valid a ha, fun x hx hxn _ => ?_⟩
                refine pointing_sound hS hW hpre (cellCol_valid a ha) ht hval' hne ?_ x hx hxn
                intro c hc
                rw [hab] at hc
                simp only [List.mem_cons, List.mem_singleton, List.not_mem_nil, or_false] at hc
                rcases hc with rfl | rfl | rfl
                · exact hW.mem_col _ ha
                · rw [hcond.1.1]; exact hW.mem_col _ hb
                · rw [hcond.1.1, hcond.1.2]; exact hW.mem_col _ hc3
              · exact ht
        · split
          · exact ht
          · exact ht
      · exact ht
    | nakedNum g vals =>
      simp only [exec]
      split
      · exact hs
      · split
        · rename_i hlen
          have hlen' : (nakedCells s (B.group g) vals).length = vals.length := by
            simpa using hlen
          have hp := naked_pigeonhole hS hW hpre hs hlen'
          have key : ∀ i t, Pre B S (Call.elimValFromGroupExcept g (vals.getD i 0)
              (nakedCells s (B.group g) vals)) t := by
            intro i t
            refine ⟨hpre, fun x hx hxn _ hSx => ?_⟩
            rcases getD_mem_or_zero vals i with h | h
            · rw [← hSx] at h; exact hp x hx hxn h
            · rw [h] at hSx
              have := hS.range hpre hx
              omega
          refine sat_bind (ih _ s hs (key 0 s)) (fun s2 h2 => ?_)
          refine sat_bind (ih _ s2 h2 (key 1 s2)) (fun s3 h3 => ?_)
          exact ih _ s3 h3 (key 2 s3)
        · exact hs
    | hiddenSingles =>
      simp only [exec]
      exact sat_forEach _ (fun g hg t ht => ih _ t ht hg) _ hs
    | hiddenDoubles =>
      simp only [exec]
      exact sat_forEach _ (fun g hg t ht => ih _ t ht hg) _ hs
    | pointingPairs =>
      simp only [exec]
      exact sat_forEach _ (fun g hg t ht => ih _ t ht hg) _ hs
    | pointingTriples =>
      simp only [exec]
      exact sat_forEach _ (fun g hg t ht => ih _ t ht hg) _ hs

theorem solB_valid : Solution theBoard (gridOf solB) := by
  unfold Solution
  rw [theBoard_eq]
  decide!

/-- Agreement with a solution on an arbitrary state: let `S` be a complete valid solution
grid. If every cell,
resolved or not, still has its digit of `S` among its candidate flags and every resolved
cell holds its digit of `S`, then after `setVal` of the digit of `S` on any cell, whether
the call returns or throws, the same holds again. -/
theorem setVal_keeps_solution (S : Nat → Nat) (hS : Solution theBoard S) (s : Cells)
    (hres : ∀ x, x < 81 → valOf s x ≠ 0 → valOf s x = S x)
    (hcand : ∀ x, x < 81 → flag s x (S x) = true)
    (c : Nat) (hc : c < 81) (n : Nat) (s' : Cells)
    (h : exec theBoard n (Call.setVal c (S c)) s = Res.ok s' ∨
      ∃ e, exec theBoard n (Call.setVal c (S c)) s = Res.err e s') :
    (∀ x, x < 81 → valOf s' x ≠ 0 → valOf s' x = S x) ∧
      (∀ x, x < 81 → flag s' x (S x) = true) := by
  have hs : Sound S s := fun x hx => ⟨hcand x hx, hres x hx⟩
  have key := exec_sound hS theBoard_wired n (Call.setVal c (S c)) s hs ⟨hc, rfl⟩
  have hs' : Sound S s' := by
    rcases h with h | ⟨e, h⟩
    · rw [h] at key; exact key
    · rw [h] at key; exact key
  exact ⟨fun x hx => (hs' x hx).2, fun x hx => (hs' x hx).1⟩

/-- The first entry of `solB` on the fresh board keeps the agreement with `solB`. -/
theorem setVal_keeps_solution_witness :
    (∀ x, x < 81 → valOf afterFirst5 x ≠ 0 → valOf afterFirst5 x = gridOf solB x) ∧
      (∀ x, x < 81 → flag afterFirst5 x (gridOf solB x) = true) :=
  setVal_keeps_solution (gridOf solB) solB_valid fresh
    (fun x _ h => absurd (valOf_fresh x) h) (by decide!) 0 (by decide) 8 afterFirst5
    (Or.inl setVal_fresh_eval)

set_option maxRecDepth 100000 in
/-- On a state that no call sequence reaches (`staleFlagState_unreachable`) the own flag of
the resolved cells matters: in `staleFlagState` every resolved cell holds its digit
of `solB` and every unresolved cell has its digit of `solB` as a candidate, yet `setVal`
of the digit of `solB` on cell 80 ends (by a throw) with cell 0 resolved to 2, while
`solB` has 5 there. -/
theorem solution_lost_with_stale_flag :
    Solution theBoard (gridOf solB) ∧
    (∀ x, x < 81 → (valOf staleFlagState x ≠ 0 → valOf staleFlagState x = gridOf solB x) ∧
      (valOf staleFlagState x = 0 → flag staleFlagState x (gridOf solB x) = true)) ∧
    exec theBoard 12 (Call.setVal 80 (gridOf solB 80)) staleFlagState
      = Res.err Err.endErr staleFlagAfter ∧
    valOf staleFlagAfter 0 = 2 ∧ gridOf solB 0 = 5 := by
  refine ⟨solB_valid, by decide!, ?_, by decide!, by decide⟩
  rw [← execF_eq _ theBoard_good, theBoard_eq]
  decide!

theorem solA_valid : Solution theBoard (gridOf solA) := by
  unfold Solution
  rw [theBoard_eq]
  decide!

set_option maxRecDepth 1000000 in
/-- C6, evaluation at the failing input: the eleven calls enter digits of the valid
solution `solA` only, and the last one throws "END" (from `pointingPair`). -/
theorem false_alarm_on_valid_givens :
    Solution theBoard (gridOf solA) ∧ (∀ p ∈ falseAlarmCalls, p.2 = gridOf solA p.1) ∧
      (runCalls theBoard 12 falseAlarmCalls fresh).raised = some Err.endErr := by
  refine ⟨solA_valid, by decide, ?_⟩
  rw [← runCallsF_eq _ theBoard_good, theBoard_eq]
  decide!

set_option maxRecDepth 1000000 in
/-- C5, evaluation at the failing input: all sixteen calls return normally, and then the
nine cells of grid row 8 are all resolved, cells 70 and 80 both hold 5, and no cell of
the row holds 1. -/
theorem duplicate_digit_in_resolved_row :
    runCalls theBoard 30 dupCalls fresh = Res.ok dupState ∧
      (∀ x ∈ theBoard.group ⟨GroupKind.row, 8⟩, valOf dupState x ≠ 0 ∧ valOf dupState x ≠ 1) ∧
      70 ∈ theBoard.group ⟨GroupKind.row, 8⟩ ∧ 80 ∈ theBoard.group ⟨GroupKind.row, 8⟩ ∧
      valOf dupState 70 = 5 ∧ valOf dupState 80 = 5 := by
  rw [← runCallsF_eq _ theBoard_good, theBoard_eq]
  decide!

theorem forEach_append {α : Type} (f : α → Cells → Res) :
    ∀ (xs ys : List α) (s : Cells),
      forEach f (xs ++ ys) s = (forEach f xs s).bind (forEach f ys)
  | [], _, _ => rfl
  | x :: xs, ys, s => by
    simp only [List.cons_append, forEach]
    cases f x s with
    | ok t => simp only [Res.bind]; exact forEach_append f xs ys t
    | err e t => rfl
    | timeout => rfl

theorem runCalls_append (B : Board) (fuel : Nat) (xs ys : List (Nat × Nat)) (s : Cells) :
    runCalls B fuel (xs ++ ys) s = (runCalls B fuel xs s).bind (runCalls B fuel ys) :=
  forEach_append _ xs ys s

theorem sat_err {P E : Cells → Prop} {r : Res} {e : Err} {s' : Cells} (h : r.sat P E)
    (hr : r = Res.err e s') : E s' := by
  subst hr; exact h

set_option maxRecDepth 1000000 in
/-- The first ten calls of `falseAlarmCalls` return normally. -/
theorem falseAlarm_first :
    runCalls theBoard 12 (falseAlarmCalls.take 10) fresh = Res.ok falseAlarmBefore := by
  rw [← runCallsF_eq _ theBoard_good, theBoard_eq]
  decide!

set_option maxRecDepth 1000000 in
/-- The eleventh call of `falseAlarmCalls` throws "END". -/
theorem falseAlarm_last :
    exec theBoard 12 (Call.setVal 14 7) falseAlarmBefore = Res.err Err.endErr falseAlarmAfter := by
  rw [← execF_eq _ theBoard_good, theBoard_eq]
  decide!

set_option maxRecDepth 1000000 in
theorem nakedNum_quad_eval :
    exec theBoard 6 (Call.nakedNum (cellBox 0) [1, 2, 3, 4]) quadState = Res.ok quadAfter := by
  rw [← execF_eq _ theBoard_good, theBoard_eq]
  decide!

set_option maxRecDepth 1000000 in
theorem elimValFromGroupExcept_eval :
    exec theBoard 6 (Call.elimValFromGroupExcept (cellBox 0) 7 [1, 2]) afterFirst5 =
      Res.ok afterClear7 := by
  rw [← execF_eq _ theBoard_good, theBoard_eq]
  decide!

/-! ### The bulk phase of `elimValFromGroupExcept` -/

theorem bulkClear_flag (v : Nat) (exceptions : List Nat) :
    ∀ (group : List Nat) (s : Cells) (cells : List Nat) (x w : Nat),
      flag (bulkClear v exceptions group s cells).1 x w =
        (flag s x w && !decide (w = v ∧ x ∈ group ∧ x ∉ exceptions ∧ valOf s x = 0))
  | [], _, _, _, _ => by simp [bulkClear]
  | c :: rest, s, cells, x, w => by
    unfold bulkClear
    split
    · rename_i h
      simp only [Bool.and_eq_true, Bool.not_eq_true', beq_iff_eq] at h
      have hc : c ∉ exceptions := by
        intro hm
        have := h.1
        simp [List.contains_iff_exists_mem_beq, hm] at this
      rw [bulkClear_flag v exceptions rest, flag_clearFlag, valOf_clearFlag]
      by_cases hx : x = c
      · subst hx
        by_cases hw : w = v
        · subst hw; simp [hc, h.2.2]
        · simp [hw]
      · simp [hx]
    · rename_i h
      rw [bulkClear_flag v exceptions rest]
      by_cases hx : x = c
      · subst hx
        by_cases hw : w = v
        · subst hw
          cases hf : flag s x w
          · simp
          · by_cases hex : x ∈ exceptions
            · simp [hex]
            · by_cases hval : valOf s x = 0
              · exfalso
                apply h
                simp [hex, hf, hval]
              · simp [hval]
        · simp [hw]
      · simp [hx]

theorem mem_bulkClear (v : Nat) (exceptions : List Nat) :
    ∀ (group : List Nat) (s : Cells) (cells : List Nat) (x : Nat),
      x ∈ (bulkClear v exceptions group s cells).2 ↔
        x ∈ cells ∨ (x ∈ group ∧ x ∉ exceptions ∧ valOf s x = 0 ∧ flag s x v = true)
  | [], _, _, _ => by simp [bulkClear]
  | c :: rest, s, cells, x => by
    unfold bulkClear
    split
    · rename_i h
      simp only [Bool.and_eq_true, Bool.not_eq_true', beq_iff_eq] at h
      have hc : c ∉ exceptions := by
        intro hm
        have := h.1
        simp [List.contains_iff_exists_mem_beq, hm] at this
      rw [mem_bulkClear v exceptions rest, flag_clearFlag, valOf_clearFlag]
      by_cases hx : x = c
      · subst hx; simp [hc, h.2.1, h.2.2]
      · simp [hx]
    · rename_i h
      rw [mem_bulkClear v exceptions rest]
      by_cases hx : x = c
      · subst hx
        constructor
        · rintro (h1 | h1)
          · exact Or.inl h1
          · exact Or.inr ⟨List.mem_cons_self _ _, h1.2⟩
        · rintro (h1 | h1)
          · exact Or.inl h1
          · exfalso
            apply h
            simp [h1.2.1, h1.2.2.1, h1.2.2.2]
      · simp [hx]

/-- C20. If `elimValFromGroupExcept(group, v, exceptions)` returns normally, no unresolved
cell of the group outside `exceptions` has `v` as a candidate. The call is the second loop
(`elimVal` on the collected cells that are still unresolved) run on the state `s1` left by
the bulk phase: `s1` has the values of `s`, and the flags of `s` except that flag `v` is
cleared on every unresolved cell of the group outside `exceptions`; the collected cells
are exactly those cells that carried `v`. -/
theorem elimValFromGroupExcept_bulk_first (B : Board) (n : Nat) (g : GroupRef) (v : Nat)
    (exceptions : List Nat) (s s' : Cells)
    (h : exec B (n + 1) (Call.elimValFromGroupExcept g v exceptions) s = Res.ok s') :
    (∀ x ∈ B.group g, x ∉ exceptions → ¬ (valOf s' x = 0 ∧ flag s' x v = true)) ∧
    ∃ s1 cells,
      (∀ x, valOf s1 x = valOf s x) ∧
      (∀ x w, flag s1 x w =
        (flag s x w && !decide (w = v ∧ x ∈ B.group g ∧ x ∉ exceptions ∧ valOf s x = 0))) ∧
      (∀ x, x ∈ cells ↔
        x ∈ B.group g ∧ x ∉ exceptions ∧ valOf s x = 0 ∧ flag s x v = true) ∧
      exec B (n + 1) (Call.elimValFromGroupExcept g v exceptions) s =
        forEach (fun c t => if valOf t c == 0 then exec B n (Call.elimVal c v) t else Res.ok t)
          cells s1 := by
  refine ⟨elimValFromGroupExcept_post h, (bulkClear v exceptions (B.group g) s []).1,
    (bulkClear v exceptions (B.group g) s []).2, ?_, ?_, ?_, ?_⟩
  · exact fun x => bulkClear_valOf v exceptions _ _ _ x
  · exact fun x w => bulkClear_flag v exceptions _ _ _ x w
  · intro x
    rw [mem_bulkClear]
    simp
  · simp only [exec]

theorem elimValFromGroupExcept_bulk_first_witness :
    (∀ x ∈ theBoard.group (cellBox 0), x ∉ [1, 2] →
      ¬ (valOf afterClear7 x = 0 ∧ flag afterClear7 x 7 = true)) ∧
    ∃ s1 cells,
      (∀ x, valOf s1 x = valOf afterFirst5 x) ∧
      (∀ x w, flag s1 x w = (flag afterFirst5 x w &&
        !decide (w = 7 ∧ x ∈ theBoard.group (cellBox 0) ∧ x ∉ [1, 2] ∧ valOf afterFirst5 x = 0))) ∧
      (∀ x, x ∈ cells ↔ x ∈ theBoard.group (cellBox 0) ∧ x ∉ [1, 2] ∧
        valOf afterFirst5 x = 0 ∧ flag afterFirst5 x 7 = true) ∧
      exec theBoard (5 + 1) (Call.elimValFromGroupExcept (cellBox 0) 7 [1, 2]) afterFirst5 =
        forEach (fun c t =>
          if valOf t c == 0 then exec theBoard 5 (Call.elimVal c 7) t else Res.ok t) cells s1 :=
  elimValFromGroupExcept_bulk_first theBoard 5 (cellBox 0) 7 [1, 2] afterFirst5 afterClear7
    elimValFromGroupExcept_eval

/-! ### Naked sets of more than three digits -/

set_option maxRecDepth 100000 in
/-- C17, evaluation at the failing input: on `quadState` exactly the four cells 0..3 of box 0
have their candidates inside `[1, 2, 3, 4]`; `nakedNum` returns normally, and afterwards the
unresolved cell 4 of the box, which is none of the four, still has the candidate 4. -/
theorem nakedNum_ignores_fourth_digit :
    nakedCells quadState (theBoard.group (cellBox 0)) [1, 2, 3, 4] = [0, 1, 2, 3] ∧
    exec theBoard 6 (Call.nakedNum (cellBox 0) [1, 2, 3, 4]) quadState = Res.ok quadAfter ∧
    4 ∈ theBoard.group (cellBox 0) ∧ valOf quadAfter 4 = 0 ∧ flag quadAfter 4 4 = true ∧
    (∀ x ∈ theBoard.group (cellBox 0), x ∉ [0, 1, 2, 3] → valOf quadAfter x = 0 →
      flag quadAfter x 1 = false ∧ flag quadAfter x 2 = false ∧ flag quadAfter x 3 = false) := by
  refine ⟨?_, nakedNum_quad_eval, ?_, by decide!, by decide!, ?_⟩
  · rw [theBoard_eq]; decide!
  · rw [theBoard_eq]; decide!
  · rw [theBoard_eq]; decide!

/-! ### A raising `setVal` keeps its changes -/

/-- A `setVal(v)` on cell `c` that raises had passed its guard, and at the throw `c` holds
the value `v`. -/
theorem setVal_err_val {B : Board} {n : Nat} {s : Cells} {c v : Nat} {e : Err} {s' : Cells}
    (h : exec B n (Call.setVal c v) s = Res.err e s') :
    valOf s c = 0 ∧ flag s c v = true ∧ valOf s' c = v := by
  cases n with
  | zero => simp [exec] at h
  | succ n =>
    simp only [exec] at h
    split at h
    · simp at h
    · rename_i hg
      simp only [Bool.or_eq_true, bne_iff_ne, ne_eq, Bool.not_eq_true', not_or, not_not,
        Bool.not_eq_false] at hg
      have hv := flag_range hg.2
      have hv16 : v % 16 = v := Nat.mod_eq_of_lt (by omega)
      have inv : ∀ (m : Nat) (call : Call) (t : Cells), valOf t c = v →
          (exec B m call t).sat (fun t => valOf t c = v) (fun t => valOf t c = v) := by
        intro m call t ht
        refine exec_sat B _ _ (fun _ h => h) ?_ ?_ ?_ ?_ m call t ht
        · intro t c' v' ht hc' _
          rw [valOf_setCellVal]
          split
          · rename_i hcc; subst hcc; omega
          · exact ht
        · intro t c' v' ht _ _
          rw [valOf_clearFlag]; exact ht
        · intro t c' v' ht _ _ _
          rw [valOf_clearFlag]; exact ht
        · intro t c' v' ht _ _ _
          rw [valOf_clearFlag]; exact ht
      have h0 : valOf (setCellVal s c v) c = v := by
        rw [valOf_setCellVal, if_pos rfl, hv16]
      have key : valOf s' c = v := by
        refine sat_err (P := fun t => valOf t c = v) (E := fun t => valOf t c = v) ?_ h
        refine sat_bind (P := fun t => valOf t c = v) (sat_forEach (P := fun t => valOf t c = v) _ ?_ _ h0) ?_
        · intro i _ t ht
          split
          · exact inv _ _ _ ht
          · exact ht
        · intro s1 h1
          refine sat_bind (P := fun t => valOf t c = v) (inv _ _ _ h1) (fun s2 h2 => ?_)
          refine sat_bind (P := fun t => valOf t c = v) (inv _ _ _ h2) (fun s3 h3 => ?_)
          refine sat_bind (P := fun t => valOf t c = v) (inv _ _ _ h3) (fun s4 h4 => ?_)
          refine sat_bind (P := fun t => valOf t c = v) (inv _ _ _ h4) (fun s5 h5 => ?_)
          exact inv _ _ _ h5
      exact ⟨hg.1, hg.2, key⟩

/-- C14 (amended). A `setVal(v)` on cell `c` that raises had passed its guard, and the
state at the throw is not the state before the call: `c` holds the value `v` assigned
before the throw, and all changes made up to the throw persist, each of them only
downward (resolved cells keep their value, candidate flags are only cleared). -/
theorem setVal_raise_keeps_changes (B : Board) (n : Nat) (s : Cells) (c v : Nat) (e : Err)
    (s' : Cells) (h : exec B n (Call.setVal c v) s = Res.err e s') :
    valOf s c = 0 ∧ flag s c v = true ∧ valOf s' c = v ∧ Mono s s' ∧ s' ≠ s := by
  obtain ⟨h0, hf, hval⟩ := setVal_err_val h
  have hmono : Mono s s' := by
    have := exec_mono B n (Call.setVal c v) s
    rw [h] at this
    exact this
  refine ⟨h0, hf, hval, hmono, ?_⟩
  intro heq
  rw [heq, h0] at hval
  have := flag_range hf
  omega

theorem setVal_raise_keeps_changes_witness :
    valOf falseAlarmBefore 14 = 0 ∧ flag falseAlarmBefore 14 7 = true ∧
      valOf falseAlarmAfter 14 = 7 ∧ Mono falseAlarmBefore falseAlarmAfter ∧
      falseAlarmAfter ≠ falseAlarmBefore :=
  setVal_raise_keeps_changes theBoard 12 falseAlarmBefore 14 7 Err.endErr falseAlarmAfter
    falseAlarm_last

/-- C14, counterexample to atomicity: after ten givens of a valid grid, entered on the
fresh board, the call `setVal(7)` on cell 14 raises, and at the throw cell 14 holds 7 and
cell 11 has lost the candidate 8 it had before the call. -/
theorem raising_setVal_changes_state :
    runCalls theBoard 12 (falseAlarmCalls.take 10) fresh = Res.ok falseAlarmBefore ∧
    exec theBoard 12 (Call.setVal 14 7) falseAlarmBefore = Res.err Err.endErr falseAlarmAfter ∧
    valOf falseAlarmBefore 14 = 0 ∧ valOf falseAlarmAfter 14 = 7 ∧
    falseAlarmAfter ≠ falseAlarmBefore :=
  ⟨falseAlarm_first, falseAlarm_last, by decide!, by decide!, by decide!⟩

/-! ### No unresolved cell is left with fewer than two candidates -/

theorem getPossVals_congr {s s' : Cells} {c c' : Nat} (h : ∀ w, flag s c w = flag s' c' w) :
    getPossVals s c = getPossVals s' c' := by
  unfold getPossVals
  congr 1
  apply List.filter_congr
  intro i _
  have := h (i + 1)
  rw [flag_eq, flag_eq] at this
  simpa using this

theorem NoNewFew.reflN (s : Cells) : NoNewFew s s := ⟨Mono.refl s, fun _ _ _ => rfl⟩

theorem NoNewFew.few {s s' : Cells} (h : NoNewFew s s') {c : Nat} (hc : Few s' c) : Few s c := by
  refine ⟨?_, ?_⟩
  · by_contra hne
    have := (h.1 c).1 hne
    rw [hc.1] at this
    exact hne this.symm
  · rw [getPossVals_congr (h.2 c hc)]
    exact hc.2

theorem NoNewFew.transN {a b c : Cells} (h1 : NoNewFew a b) (h2 : NoNewFew b c) : NoNewFew a c :=
  ⟨h1.1.trans h2.1, fun x hx w => (h1.2 x (h2.few hx) w).trans (h2.2 x hx w)⟩

theorem forEach_rel {α : Type} (R : Cells → Cells → Prop) (hrefl : ∀ s, R s s)
    (htrans : ∀ a b c, R a b → R b c → R a c) (f : α → Cells → Res) :
    ∀ (xs : List α), (∀ x ∈ xs, ∀ s s', f x s = Res.ok s' → R s s') →
      ∀ s s', forEach f xs s = Res.ok s' → R s s'
  | [], _, s, s', h => by
    simp only [forEach, Res.ok.injEq] at h
    subst h
    exact hrefl s
  | x :: xs, hf, s, s', h => by
    simp only [forEach] at h
    obtain ⟨s1, h1, h2⟩ := bind_eq_ok h
    exact htrans _ _ _ (hf x (List.mem_cons_self x xs) s s1 h1)
      (forEach_rel R hrefl htrans f xs (fun y hy => hf y (List.mem_cons_of_mem x hy)) s1 s' h2)

theorem not_few_of_resolved {s : Cells} {c : Nat} (h : valOf s c ≠ 0) : ¬ Few s c :=
  fun hf => h hf.1

/-- After a write to cell `c` only, followed by steps that create no new cell with at most
one candidate and leave `c` with two or more (or resolved), nothing new appeared. -/
theorem noNewFew_of_step {s s1 s' : Cells} {c : Nat} (hm : Mono s s1)
    (hother : ∀ x, x ≠ c → ∀ w, flag s x w = flag s1 x w) (h1 : NoNewFew s1 s')
    (hc : ¬ Few s' c) : NoNewFew s s' := by
  refine ⟨hm.trans h1.1, fun x hx w => ?_⟩
  have hxc : x ≠ c := fun e => hc (e ▸ hx)
  exact (hother x hxc w).trans (h1.2 x hx w)

/-- The loop over the collected cells of `elimValFromGroupExcept`. -/
theorem elimLoop_noNewFew (B : Board) (n v : Nat)
    (ih1 : ∀ call s s', exec B n call s = Res.ok s' → NoNewFew s s')
    (ih2 : ∀ c w s s', exec B n (Call.elimVal c w) s = Res.ok s' → ¬ Few s' c) :
    ∀ (cells : List Nat) (t s' : Cells),
      forEach (fun c t => if valOf t c == 0 then exec B n (Call.elimVal c v) t else Res.ok t)
        cells t = Res.ok s' →
      NoNewFew t s' ∧ ∀ x ∈ cells, ¬ Few s' x
  | [], t, s', h => by
    simp only [forEach, Res.ok.injEq] at h
    subst h
    exact ⟨NoNewFew.reflN t, fun _ hx => by cases hx⟩
  | x :: rest, t, s', h => by
    simp only [forEach] at h
    obtain ⟨t1, h1, h2⟩ := bind_eq_ok h
    obtain ⟨hr, hrest⟩ := elimLoop_noNewFew B n v ih1 ih2 rest t1 s' h2
    have hstep : NoNewFew t t1 ∧ ¬ Few t1 x := by
      split at h1
      · exact ⟨ih1 _ _ _ h1, ih2 _ _ _ _ h1⟩
      · rename_i hval
        simp only [Res.ok.injEq] at h1
        subst h1
        simp only [beq_iff_eq] at hval
        exact ⟨NoNewFew.reflN t, not_few_of_resolved hval⟩
    refine ⟨hstep.1.transN hr, ?_⟩
    intro y hy
    rcases List.mem_cons.1 hy with rfl | hy
    · exact fun hf => hstep.2 (hr.few hf)
    · exact hrest y hy

/-- Every call that returns leaves no new unresolved cell with at most one candidate, and
`elimVal` leaves its own cell resolved or with two or more candidates. -/
theorem exec_noNewFew (B : Board) : ∀ (n : Nat),
    (∀ call s s', exec B n call s = Res.ok s' → NoNewFew s s') ∧
    (∀ c w s s', exec B n (Call.elimVal c w) s = Res.ok s' → ¬ Few s' c) := by
  intro n
  induction n with
  | zero =>
    exact ⟨fun call s s' h => by simp [exec] at h, fun c w s s' h => by simp [exec] at h⟩
  | succ n ih =>
    obtain ⟨ih1, ih2⟩ := ih
    have hloop := @forEach_rel
    have helim : ∀ c w s s', exec B (n + 1) (Call.elimVal c w) s = Res.ok s' →
        NoNewFew s s' ∧ ¬ Few s' c := by
      intro c w s s' h
      simp only [exec] at h
      split at h
      · simp at h
      · have hm : Mono s (clearFlag s c w) := mono_clearFlag (Mono.refl s) c w
        have hother : ∀ x, x ≠ c → ∀ u, flag s x u = flag (clearFlag s c w) x u := by
          intro x hx u
          rw [flag_clearFlag]
          simp [hx]
        split at h
        · simp at h
        · rename_i hlen0
          split at h
          · rename_i hval
            simp only [beq_iff_eq] at hval
            split at h
            · rename_i hlen1
              simp only [beq_iff_eq] at hlen1
              have hmem : (getPossVals (clearFlag s c w) c).getD 0 0 ∈
                  getPossVals (clearFlag s c w) c := by
                rcases getD_mem_or_zero (getPossVals (clearFlag s c w) c) 0 with hm' | hz
                · exact hm'
                · match hl : getPossVals (clearFlag s c w) c, hlen1 with
                  | [a], _ => simp
              have hflag := (mem_getPossVals _ _ _).1 hmem
              have hset := setVal_settled hval hflag h
              have hne : valOf s' c ≠ 0 := by
                rw [hset.1]
                have := flag_range hflag
                omega
              have hc : ¬ Few s' c := not_few_of_resolved hne
              exact ⟨noNewFew_of_step hm hother (ih1 _ _ _ h) hc, hc⟩
            · rename_i hlen1
              have h1 := ih1 _ _ _ h
              have hc : ¬ Few s' c := by
                intro hf
                have := getPossVals_congr (h1.2 c hf)
                have hl := hf.2
                rw [← this] at hl
                simp only [beq_iff_eq] at hlen0 hlen1
                omega
              exact ⟨noNewFew_of_step hm hother h1 hc, hc⟩
          · rename_i hval
            simp only [Res.ok.injEq] at h
            subst h
            simp only [beq_iff_eq] at hval
            have hc : ¬ Few (clearFlag s c w) c := not_few_of_resolved hval
            exact ⟨noNewFew_of_step hm hother (NoNewFew.reflN _) hc, hc⟩
    refine ⟨?_, fun c w s s' h => (helim c w s s' h).2⟩
    intro call s s' h
    have hfe : ∀ {α : Type} (f : α → Cells → Res) (xs : List α),
        (∀ x ∈ xs, ∀ s s', f x s = Res.ok s' → NoNewFew s s') →
        ∀ s s', forEach f xs s = Res.ok s' → NoNewFew s s' :=
      fun f xs => forEach_rel NoNewFew NoNewFew.reflN (fun _ _ _ => NoNewFew.transN) f xs
    cases call with
    | elimVal c w => exact (helim c w s s' h).1
    | setVal c v =>
      simp only [exec] at h
      split at h
      · simp only [Res.ok.injEq] at h; subst h; exact NoNewFew.reflN s
      · rename_i hg
        simp only [Bool.or_eq_true, bne_iff_ne, ne_eq, Bool.not_eq_true', not_or, not_not,
          Bool.not_eq_false] at hg
        obtain ⟨s1, h1, h⟩ := bind_eq_ok h
        obtain ⟨s2, h2, h⟩ := bind_eq_ok h
        obtain ⟨s3, h3, h⟩ := bind_eq_ok h
        obtain ⟨s4, h4, h⟩ := bind_eq_ok h
        obtain ⟨s5, h5, h⟩ := bind_eq_ok h
        have hv := flag_range hg.2
        have h0 : NoNewFew s (setCellVal s c v) := by
          refine ⟨mono_setCellVal (Mono.refl s) c v hg.1, fun x hx w => ?_⟩
          rw [flag_setCellVal]
        have hl : NoNewFew (setCellVal s c v) s1 := by
          refine hfe _ _ ?_ _ _ h1
          intro i _ t t' ht
          split at ht
          · exact ih1 _ _ _ ht
          · simp only [Res.ok.injEq] at ht; subst ht; exact NoNewFew.reflN t
        exact h0.transN (hl.transN ((ih1 _ _ _ h2).transN ((ih1 _ _ _ h3).transN
          ((ih1 _ _ _ h4).transN ((ih1 _ _ _ h5).transN (ih1 _ _ _ h))))))
    | elimValFromGroups c v =>
      simp only [exec] at h
      obtain ⟨s1, h1, h⟩ := bind_eq_ok h
      obtain ⟨s2, h2, h⟩ := bind_eq_ok h
      exact (ih1 _ _ _ h1).transN ((ih1 _ _ _ h2).transN (ih1 _ _ _ h))
    | elimAllValsExcept c exceptions =>
      simp only [exec] at h
      refine hfe _ _ ?_ _ _ h
      intro i _ t t' ht
      split at ht
      · exact ih1 _ _ _ ht
      · simp only [Res.ok.injEq] at ht; subst ht; exact NoNewFew.reflN t
    | nakedNums c vals =>
      simp only [exec] at h
      obtain ⟨s1, h1, h⟩ := bind_eq_ok h
      obtain ⟨s2, h2, h⟩ := bind_eq_ok h
      exact (ih1 _ _ _ h1).transN ((ih1 _ _ _ h2).transN (ih1 _ _ _ h))
    | elimValFromGroupExcept g v exceptions =>
      simp only [exec] at h
      obtain ⟨hr, hcells⟩ := elimLoop_noNewFew B n v ih1 ih2 _ _ _ h
      refine ⟨(bulkClear_mono v exceptions _ s []).trans hr.1, fun x hx w => ?_⟩
      have hx1 := hr.2 x hx w
      rw [← hx1, bulkClear_flag]
      by_cases hcol : w = v ∧ x ∈ B.group g ∧ x ∉ exceptions ∧ valOf s x = 0
      · cases hf : flag s x w
        · simp
        · exfalso
          refine hcells x ?_ hx
          rw [mem_bulkClear]
          exact Or.inr ⟨hcol.2.1, hcol.2.2.1, hcol.2.2.2, hcol.1 ▸ hf⟩
      · simp [hcol]
    | hiddenSingle g =>
      simp only [exec] at h
      refine hfe _ _ ?_ _ _ h
      intro i _ t t' ht
      split at ht
      · split at ht
        · exact ih1 _ _ _ ht
        · split at ht
          · simp at ht
          · simp only [Res.ok.injEq] at ht; subst ht; exact NoNewFew.reflN t
      · simp only [Res.ok.injEq] at ht; subst ht; exact NoNewFew.reflN t
    | hiddenDouble g =>
      simp only [exec] at h
      refine hfe _ _ ?_ _ _ h
      intro i _ t1 t1' ht1
      refine hfe _ _ ?_ _ _ ht1
      intro j _ t t' ht
      split at ht
      · split at ht
        · split at ht
          · obtain ⟨u, hu, ht⟩ := bind_eq_ok ht
            exact (ih1 _ _ _ hu).transN (ih1 _ _ _ ht)
          · simp only [Res.ok.injEq] at ht; subst ht; exact NoNewFew.reflN t
        · simp only [Res.ok.injEq] at ht; subst ht; exact NoNewFew.reflN t
      · simp only [Res.ok.injEq] at ht; subst ht; exact NoNewFew.reflN t
    | pointingPair g =>
      simp only [exec] at h
      refine hfe _ _ ?_ _ _ h
      intro i _ t t' ht
      split at ht
      · split at ht
        · split at ht
          · exact ih1 _ _ _ ht
          · split at ht
            · exact ih1 _ _ _ ht
            · split at ht
              · exact ih1 _ _ _ ht
              · simp only [Res.ok.injEq] at ht; subst ht; exact NoNewFew.reflN t
        · split at ht
          · simp at ht
          · simp only [Res.ok.injEq] at ht; subst ht; exact NoNewFew.reflN t
      · simp only [Res.ok.injEq] at ht; subst ht; exact NoNewFew.reflN t
    | pointingTriple g =>
      simp only [exec] at h
      refine hfe _ _ ?_ _ _ h
      intro i _ t t' ht
      split at ht
      · split at ht
        · split at ht
          · exact ih1 _ _ _ ht
          · split at ht
            · exact ih1 _ _ _ ht
            · split at ht
              · exact ih1 _ _ _ ht
              · simp only [Res.ok.injEq] at ht; subst ht; exact NoNewFew.reflN t
        · split at ht
          · simp at ht
          · simp only [Res.ok.injEq] at ht; subst ht; exact NoNewFew.reflN t
      · simp only [Res.ok.injEq] at ht; subst ht; exact NoNewFew.reflN t
    | nakedNum g vals =>
      simp only [exec] at h
      split at h
      · simp at h
      · split at h
        · obtain ⟨s1, h1, h⟩ := bind_eq_ok h
          obtain ⟨s2, h2, h⟩ := bind_eq_ok h
          exact (ih1 _ _ _ h1).transN ((ih1 _ _ _ h2).transN (ih1 _ _ _ h))
        · simp only [Res.ok.injEq] at h; subst h; exact NoNewFew.reflN s
    | hiddenSingles =>
      simp only [exec] at h
      exact hfe _ _ (fun g _ t t' ht => ih1 _ _ _ ht) _ _ h
    | hiddenDoubles =>
      simp only [exec] at h
      exact hfe _ _ (fun g _ t t' ht => ih1 _ _ _ ht) _ _ h
    | pointingPairs =>
      simp only [exec] at h
      exact hfe _ _ (fun g _ t t' ht => ih1 _ _ _ ht) _ _ h
    | pointingTriples =>
      simp only [exec] at h
      exact hfe _ _ (fun g _ t t' ht => ih1 _ _ _ ht) _ _ h

theorem getPossVals_fresh {c : Nat} (hc : c < 81) : (getPossVals fresh c).length = 9 := by
  unfold getPossVals
  rw [List.length_map, List.filter_eq_self.2]
  · simp
  · intro i hi
    rw [possAt_fresh]
    have := List.mem_range.1 hi
    simp [hc]
    omega

theorem runCalls_noNewFew (B : Board) (fuel : Nat) (calls : List (Nat × Nat)) (s s' : Cells)
    (h : runCalls B fuel calls s = Res.ok s') : NoNewFew s s' :=
  forEach_rel NoNewFew NoNewFew.reflN (fun _ _ _ => NoNewFew.transN) _ calls
    (fun _ _ t t' ht => (exec_noNewFew B fuel).1 _ t t' ht) s s' h

/-- C11. In every state reached from the fresh board by `setVal` calls that all return
normally, every unresolved cell of the board has at least one candidate. -/
theorem unresolved_cells_have_candidates (B : Board) (fuel : Nat) (calls : List (Nat × Nat))
    (s : Cells) (h : runCalls B fuel calls fresh = Res.ok s) :
    ∀ c, c < 81 → valOf s c = 0 → getPossVals s c ≠ [] := by
  intro c hc hval hnil
  have hfew : Few s c := ⟨hval, by rw [hnil]; exact Nat.zero_le 1⟩
  have := ((runCalls_noNewFew B fuel calls fresh s h).few hfew).2
  rw [getPossVals_fresh hc] at this
  omega

theorem runCalls_first5 : runCalls theBoard 8 [(0, 5)] fresh = Res.ok afterFirst5 := by
  show (exec theBoard 8 (Call.setVal 0 5) fresh).bind _ = _
  rw [setVal_fresh_eval]
  rfl

theorem unresolved_cells_have_candidates_witness :
    runCalls theBoard 8 [(0, 5)] fresh = Res.ok afterFirst5 ∧
      ∀ c, c < 81 → valOf afterFirst5 c = 0 → getPossVals afterFirst5 c ≠ [] :=
  ⟨runCalls_first5,
    unresolved_cells_have_candidates theBoard 8 [(0, 5)] afterFirst5 runCalls_first5⟩

set_option maxRecDepth 1000000 in
theorem hiddenLeft_eval :
    runCalls theBoard 12 hiddenLeftCalls fresh = Res.ok hiddenLeftState := by
  rw [← runCallsF_eq _ theBoard_good, theBoard_eq]
  decide!

set_option maxRecDepth 100000 in
/-- C13, counterexample: the seven calls of `hiddenLeftCalls` all return normally, and in
the state they leave digit 3 is not placed in box 0 and cell 2 is the only unresolved cell
of box 0 with candidate 3: a hidden single that was not applied. -/
theorem hidden_single_left_unapplied :
    runCalls theBoard 12 hiddenLeftCalls fresh = Res.ok hiddenLeftState ∧
    2 ∈ theBoard.group (cellBox 2) ∧ valOf hiddenLeftState 2 = 0 ∧
    flag hiddenLeftState 2 3 = true ∧
    numValsAt hiddenLeftState (theBoard.group (cellBox 2)) (3 - 1) = 1 ∧
    (∀ x ∈ theBoard.group (cellBox 2), valOf hiddenLeftState x ≠ 3 ∧
      (x ≠ 2 → ¬ (valOf hiddenLeftState x = 0 ∧ flag hiddenLeftState x 3 = true))) := by
  refine ⟨hiddenLeft_eval, ?_, by decide!, by decide!, ?_, ?_⟩
  · rw [theBoard_eq]; decide!
  · rw [theBoard_eq]; decide!
  · rw [theBoard_eq]; decide!

/-- C13 (amended). In every state reached from the fresh board by `setVal` calls that all
return normally, no unresolved cell of the board is left with fewer than two candidates:
every forced value (naked single) has been applied. -/
theorem no_naked_single_left (B : Board) (fuel : Nat) (calls : List (Nat × Nat))
    (s : Cells) (h : runCalls B fuel calls fresh = Res.ok s) :
    ∀ c, c < 81 → valOf s c = 0 → 2 ≤ (getPossVals s c).length := by
  intro c hc hval
  by_contra hlt
  have hfew : Few s c := ⟨hval, by omega⟩
  have := ((runCalls_noNewFew B fuel calls fresh s h).few hfew).2
  rw [getPossVals_fresh hc] at this
  omega

theorem no_naked_single_left_witness :
    runCalls theBoard 12 hiddenLeftCalls fresh = Res.ok hiddenLeftState ∧
      ∀ c, c < 81 → valOf hiddenLeftState c = 0 →
        2 ≤ (getPossVals hiddenLeftState c).length :=
  ⟨hiddenLeft_eval,
    no_naked_single_left theBoard 12 hiddenLeftCalls hiddenLeftState hiddenLeft_eval⟩

set_option maxRecDepth 100000 in
/-- C12. Topology of the wiring: for each index `i < 81` the box, row and column numbers
and the three in-group positions are the formulas of the specification and lie in 0..8;
the cell is stored at exactly that position of each of its three group arrays; each of
the 27 arrays ends with 9 entries, none of them a hole; no position of an array is written
twice; and every cell occurs exactly once among the boxes, once among the rows and once
among the columns. -/
theorem wiring_topology :
    (∀ i, i < 81 →
      (cellBox i).idx = i / 9 ∧ (cellRow i).idx = (i % 9) / 3 + 3 * (i / 27) ∧
      (cellCol i).idx = (i % 3 + 3 * (i / 9)) % 9 ∧
      boxPos i = i % 9 ∧ rowPos i = (cellCol i).idx ∧ colPos i = (cellRow i).idx ∧
      (cellBox i).idx < 9 ∧ (cellRow i).idx < 9 ∧ (cellCol i).idx < 9 ∧
      boxPos i < 9 ∧ rowPos i < 9 ∧ colPos i < 9) ∧
    (∀ i, i < 81 →
      (wiring.boxes.getD (i / 9) []).getD (boxPos i) none = some i ∧
      (wiring.rows.getD (rowNum i) []).getD (rowPos i) none = some i ∧
      (wiring.cols.getD (colIndex i) []).getD (colPos i) none = some i) ∧
    (wiring.boxes.length = 9 ∧ wiring.rows.length = 9 ∧ wiring.cols.length = 9) ∧
    (∀ arr ∈ wiring.boxes ++ wiring.rows ++ wiring.cols, arr.length = 9 ∧ none ∉ arr) ∧
    (∀ i, i < 81 → ∀ j, j < 81 → i ≠ j →
      (i / 9 ≠ j / 9 ∨ boxPos i ≠ boxPos j) ∧ (rowNum i ≠ rowNum j ∨ rowPos i ≠ rowPos j) ∧
      (colIndex i ≠ colIndex j ∨ colPos i ≠ colPos j)) ∧
    theBoard.boxes.flatten.Perm (List.range 81) ∧ theBoard.rows.flatten.Perm (List.range 81) ∧
    theBoard.cols.flatten.Perm (List.range 81) := by
  have hpos : ∀ i, i < 81 →
      (wiring.boxes.getD (i / 9) []).getD (boxPos i) none = some i ∧
      (wiring.rows.getD (rowNum i) []).getD (rowPos i) none = some i ∧
      (wiring.cols.getD (colIndex i) []).getD (colPos i) none = some i := by decide!
  refine ⟨by decide!, hpos, by decide!, by decide!, ?_, ?_, ?_, ?_⟩
  · intro i hi j hj hij
    have h1 := hpos i hi
    have h2 := hpos j hj
    have hne : (some i : Option Nat) ≠ some j := fun h => hij (Option.some.inj h)
    refine ⟨?_, ?_, ?_⟩
    · by_contra hc
      rw [not_or, not_not, not_not] at hc
      rw [hc.1, hc.2, h2.1] at h1
      exact hne h1.1.symm
    · by_contra hc
      rw [not_or, not_not, not_not] at hc
      rw [hc.1, hc.2, h2.2.1] at h1
      exact hne h1.2.1.symm
    · by_contra hc
      rw [not_or, not_not, not_not] at hc
      rw [hc.1, hc.2, h2.2.2] at h1
      exact hne h1.2.2.symm
  · rw [theBoard_eq]; decide!
  · rw [theBoard_eq]; decide!
  · rw [theBoard_eq]; decide!

/-! ### Termination -/

theorem cellWeight_eq (s : Cells) (c : Nat) :
    cellWeight s c = if valOf s c = 0 then (getPossVals s c).length else 0 := by
  unfold cellWeight
  rw [beq_eq_decide]
  by_cases h : valOf s c = 0 <;> simp [h]

theorem getPossVals_sublist {s s' : Cells} {c : Nat}
    (h : ∀ w, flag s' c w = true → flag s c w = true) :
    (getPossVals s' c).Sublist (getPossVals s c) := by
  unfold getPossVals
  apply List.Sublist.map
  have e : (List.range 9).filter (fun i => possAt s' c i) =
      ((List.range 9).filter (fun i => possAt s c i)).filter (fun i => possAt s' c i) := by
    rw [List.filter_filter]
    apply List.filter_congr
    intro i _
    cases h' : possAt s' c i
    · simp
    · have := h (i + 1) (by rw [flag_eq]; simpa using h')
      rw [flag_eq] at this
      simp at this
      simp [this]
  rw [e]
  exact List.filter_sublist _

theorem cellWeight_mono {s s' : Cells} (h : Mono s s') (c : Nat) :
    cellWeight s' c ≤ cellWeight s c := by
  rw [cellWeight_eq, cellWeight_eq]
  by_cases h' : valOf s' c = 0
  · have h0 : valOf s c = 0 := by
      by_contra hne
      have := (h c).1 hne
      omega
    rw [if_pos h', if_pos h0]
    exact (getPossVals_sublist (h c).2).length_le
  · rw [if_neg h']
    exact Nat.zero_le _

theorem cellWeight_lt {s s' : Cells} (h : Mono s s') {c v : Nat} (hc : valOf s c = 0)
    (hv : flag s c v = true) (hch : valOf s' c ≠ 0 ∨ flag s' c v = false) :
    cellWeight s' c < cellWeight s c := by
  rw [cellWeight_eq, cellWeight_eq, if_pos hc]
  have hpos : 0 < (getPossVals s c).length :=
    List.length_pos_of_mem ((mem_getPossVals s c v).2 hv)
  by_cases h' : valOf s' c = 0
  · rw [if_pos h']
    rcases hch with h1 | h1
    · exact absurd h' h1
    · have hsub := getPossVals_sublist (h c).2
      by_contra hge
      have heq := hsub.eq_of_length_le (by omega)
      have hmem : v ∈ getPossVals s' c := heq ▸ (mem_getPossVals s c v).2 hv
      rw [mem_getPossVals, h1] at hmem
      cases hmem
  · rw [if_neg h']
    exact hpos

theorem undecided_mono {s s' : Cells} (h : Mono s s') : undecided s' ≤ undecided s :=
  List.sum_le_sum (fun c _ => cellWeight_mono h c)

theorem undecided_lt {s s' : Cells} (h : Mono s s') {c : Nat} (hc : c < 81)
    (hlt : cellWeight s' c < cellWeight s c) : undecided s' < undecided s :=
  List.sum_lt_sum _ _ (fun c _ => cellWeight_mono h c) ⟨c, List.mem_range.2 hc, hlt⟩

theorem cellWeight_le_nine (s : Cells) (c : Nat) : cellWeight s c ≤ 9 := by
  rw [cellWeight_eq]
  split
  · unfold getPossVals
    rw [List.length_map]
    exact (List.length_filter_le _ _).trans (by simp)
  · omega

theorem undecided_le (s : Cells) : undecided s ≤ 729 := by
  have h := List.sum_le_sum (l := List.range 81) (f := cellWeight s) (g := fun _ => 9)
    (fun c _ => cellWeight_le_nine s c)
  simpa [undecided] using h

set_option exponentiation.threshold 2000 in
theorem cellWeight_of_lt {s : Cells} (hs : s < 2 ^ 1296) (c : Nat) (hc : 81 ≤ c) :
    cellWeight s c = 0 := by
  rw [cellWeight_eq]
  have : getPossVals s c = [] := by
    apply getPossVals_eq_nil
    intro w
    rw [flag_eq, possAt_eq]
    have hb : s.testBit (16 * c + (4 + (w - 1))) = false := by
      apply Nat.testBit_lt_two_pow
      exact Nat.lt_of_lt_of_le hs (Nat.pow_le_pow_right (by norm_num) (by omega))
    simp [hb]
  simp [this]

theorem safe_ok {I : Cells → Prop} {s : Cells} (h : I s) : (Res.ok s).safe I :=
  ⟨by simp, fun t ht => by cases ht; exact h⟩

theorem safe_err {I : Cells → Prop} {e : Err} {s : Cells} : (Res.err e s).safe I :=
  ⟨by simp, fun t ht => by cases ht⟩

theorem safe_bind {I J : Cells → Prop} {r : Res} {f : Cells → Res} (hr : r.safe I)
    (hf : ∀ s, I s → (f s).safe J) : (r.bind f).safe J := by
  cases r with
  | ok s => exact hf s (hr.2 s rfl)
  | err e s => exact safe_err
  | timeout => exact absurd rfl hr.1

theorem safe_forEach {α : Type} {I : Cells → Prop} {f : α → Cells → Res} :
    ∀ (xs : List α), (∀ x ∈ xs, ∀ t, I t → (f x t).safe I) → ∀ s, I s →
      (forEach f xs s).safe I
  | [], _, _, hs => safe_ok hs
  | x :: xs, h, s, hs =>
    safe_bind (h x (List.mem_cons_self x xs) s hs)
      (fun t ht => safe_forEach xs (fun y hy => h y (List.mem_cons_of_mem x hy)) t ht)

theorem rank_le_six (call : Call) : call.rank ≤ 6 := by
  cases call <;> simp [Call.rank]

/-- With call depth above seven times the number of undecided candidates (plus the rank
of the method) no call runs out of depth. -/
theorem exec_ne_timeout (B : Board) : ∀ (n : Nat) (call : Call) (s : Cells),
    (∀ c, 81 ≤ c → cellWeight s c = 0) → 7 * undecided s + call.rank < n →
    exec B n call s ≠ Res.timeout := by
  intro n
  induction n with
  | zero => intro call s _ h; omega
  | succ n ih =>
    intro call s hsupp hn
    have sub : ∀ (call' : Call) (t0 : Cells), Mono s t0 →
        (call'.rank < call.rank ∨ undecided t0 < undecided s) →
        ∀ t, Mono t0 t → (exec B n call' t).safe (Mono t0) := by
      intro call' t0 hm0 hlt t hmt
      refine ⟨?_, fun t' ht' => hmt.trans (exec_ok_mono ht')⟩
      have hm := hm0.trans hmt
      apply ih call' t
      · intro c hc
        have := cellWeight_mono hm c
        rw [hsupp c hc] at this
        omega
      · have h1 := undecided_mono hmt
        have h2 := undecided_mono hm0
        have h3 := rank_le_six call'
        rcases hlt with h | h <;> omega
    have hskip : ∀ {t0 t : Cells}, Mono t0 t → (Res.ok t).safe (Mono t0) := fun h => safe_ok h
    suffices h : (exec B (n + 1) call s).safe (fun _ => True) from h.1
    have weaken : ∀ (t0 : Cells) {r : Res}, r.safe (Mono t0) → r.safe (fun _ => True) :=
      fun _ _ h => ⟨h.1, fun _ _ => trivial⟩
    cases call with
    | setVal c v =>
      simp only [exec]
      split
      · exact safe_ok trivial
      · rename_i hg
        simp only [Bool.or_eq_true, bne_iff_ne, ne_eq, Bool.not_eq_true', not_or, not_not,
          Bool.not_eq_false] at hg
        have hv := flag_range hg.2
        have hm0 : Mono s (setCellVal s c v) := mono_setCellVal (Mono.refl s) c v hg.1
        have hw : cellWeight (setCellVal s c v) c < cellWeight s c := by
          apply cellWeight_lt hm0 hg.1 hg.2
          left
          rw [valOf_setCellVal, if_pos rfl]
          omega
        have hc81 : c < 81 := by
          by_contra hge
          rw [hsupp c (by omega)] at hw
          omega
        have hlt := undecided_lt hm0 hc81 hw
        have I := fun call' => sub call' _ hm0 (Or.inr hlt)
        refine weaken (setCellVal s c v) (safe_bind (safe_forEach _ ?_ _ (Mono.refl _)) ?_)
        · intro i _ t ht
          split
          · exact I _ t ht
          · exact hskip ht
        · intro s1 h1
          refine safe_bind (I _ s1 h1) (fun s2 h2 => ?_)
          refine safe_bind (I _ s2 h2) (fun s3 h3 => ?_)
          refine safe_bind (I _ s3 h3) (fun s4 h4 => ?_)
          refine safe_bind (I _ s4 h4) (fun s5 h5 => ?_)
          exact I _ s5 h5
    | elimVal c v =>
      have I := fun (call' : Call) (h : call'.rank < 3) =>
        sub call' _ (mono_clearFlag (Mono.refl s) c v) (Or.inl h)
      simp only [exec]
      split
      · exact safe_err
      · split
        · exact safe_err
        · split
          · split
            · exact weaken (clearFlag s c v) (I _ (by simp [Call.rank]) _ (Mono.refl _))
            · exact weaken (clearFlag s c v) (I _ (by simp [Call.rank]) _ (Mono.refl _))
          · exact safe_ok trivial
    | elimValFromGroups c v =>
      have I := fun (call' : Call) (h : call'.rank < 1) => sub call' s (Mono.refl s) (Or.inl h)
      simp only [exec]
      refine weaken s (safe_bind (I _ (by simp [Call.rank]) s (Mono.refl s)) (fun s2 h2 => ?_))
      refine safe_bind (I _ (by simp [Call.rank]) s2 h2) (fun s3 h3 => ?_)
      exact I _ (by simp [Call.rank]) s3 h3
    | elimAllValsExcept c exceptions =>
      have I := fun (call' : Call) (h : call'.rank < 4) => sub call' s (Mono.refl s) (Or.inl h)
      simp only [exec]
      refine weaken s (safe_forEach _ ?_ _ (Mono.refl s))
      intro i _ t ht
      split
      · exact I _ (by simp [Call.rank]) t ht
      · exact hskip ht
    | nakedNums c vals =>
      have I := fun (call' : Call) (h : call'.rank < 2) => sub call' s (Mono.refl s) (Or.inl h)
      simp only [exec]
      refine weaken s (safe_bind (I _ (by simp [Call.rank]) s (Mono.refl s)) (fun s2 h2 => ?_))
      refine safe_bind (I _ (by simp [Call.rank]) s2 h2) (fun s3 h3 => ?_)
      exact I _ (by simp [Call.rank]) s3 h3
    | elimValFromGroupExcept g v exceptions =>
      simp only [exec]
      by_cases hnil : (bulkClear v exceptions (B.group g) s []).2 = []
      · rw [hnil]
        exact safe_ok trivial
      · obtain ⟨x, hx⟩ := List.exists_mem_of_ne_nil _ hnil
        have hx' := (mem_bulkClear v exceptions _ s [] x).1 hx
        simp only [List.not_mem_nil, false_or] at hx'
        have hm0 := bulkClear_mono v exceptions (B.group g) s []
        have hw : cellWeight (bulkClear v exceptions (B.group g) s []).1 x < cellWeight s x := by
          apply cellWeight_lt hm0 hx'.2.2.1 hx'.2.2.2
          right
          rw [bulkClear_flag]
          simp [hx'.1, hx'.2.1, hx'.2.2.1]
        have hx81 : x < 81 := by
          by_contra hge
          rw [hsupp x (by omega)] at hw
          omega
        have hlt := undecided_lt hm0 hx81 hw
        refine weaken (bulkClear v exceptions (B.group g) s []).1 (safe_forEach _ ?_ _ (Mono.refl _))
        intro c _ t ht
        split
        · exact sub _ _ hm0 (Or.inr hlt) t ht
        · exact hskip ht
    | hiddenSingle g =>
      have I := fun (call' : Call) (h : call'.rank < 1) => sub call' s (Mono.refl s) (Or.inl h)
      simp only [exec]
      refine weaken s (safe_forEach _ ?_ _ (Mono.refl s))
      intro i _ t ht
      split
      · split
        · exact I _ (by simp [Call.rank]) t ht
        · split
          · exact safe_err
          · exact hskip ht
      · exact hskip ht
    | hiddenDouble g =>
      have I := fun (call' : Call) (h : call'.rank < 5) => sub call' s (Mono.refl s) (Or.inl h)
      simp only [exec]
      refine weaken s (safe_forEach _ ?_ _ (Mono.refl s))
      intro i _ t1 ht1
      refine safe_forEach _ ?_ _ ht1
      intro j _ t ht
      split
      · split
        · split
          · exact safe_bind (I _ (by simp [Call.rank]) t ht)
              (fun t2 h2 => I _ (by simp [Call.rank]) t2 h2)
          · exact hskip ht
        · exact hskip ht
      · exact hskip ht
    | pointingPair g =>
      have I := fun (call' : Call) (h : call'.rank < 1) => sub call' s (Mono.refl s) (Or.inl h)
      simp only [exec]
      refine weaken s (safe_forEach _ ?_ _ (Mono.refl s))
      intro i _ t ht
      split
      · split
        · split
          · exact I _ (by simp [Call.rank]) t ht
          · split
            · exact I _ (by simp [Call.rank]) t ht
            · split
              · exact I _ (by simp [Call.rank]) t ht
              · exact hskip ht
        · split
          · exact safe_err
          · exact hskip ht
      · exact hskip ht
    | pointingTriple g =>
      have I := fun (call' : Call) (h : call'.rank < 1) => sub call' s (Mono.refl s) (Or.inl h)
      simp only [exec]
      refine weaken s (safe_forEach _ ?_ _ (Mono.refl s))
      intro i _ t ht
      split
      · split
        · split
          · exact I _ (by simp [Call.rank]) t ht
          · split
            · exact I _ (by simp [Call.rank]) t ht
            · split
              · exact I _ (by simp [Call.rank]) t ht
              · exact hskip ht
        · split
          · exact safe_err
          · exact hskip ht
      · exact hskip ht
    | nakedNum g vals =>
      have I := fun (call' : Call) (h : call'.rank < 1) => sub call' s (Mono.refl s) (Or.inl h)
      simp only [exec]
      split
      · exact safe_err
      · split
        · refine weaken s (safe_bind (I _ (by simp [Call.rank]) s (Mono.refl s)) (fun s2 h2 => ?_))
          refine safe_bind (I _ (by simp [Call.rank]) s2 h2) (fun s3 h3 => ?_)
          exact I _ (by simp [Call.rank]) s3 h3
        · exact safe_ok trivial
    | hiddenSingles =>
      have I := fun (call' : Call) (h : call'.rank < 2) => sub call' s (Mono.refl s) (Or.inl h)
      simp only [exec]
      exact weaken s (safe_forEach _ (fun g _ t ht => I _ (by simp [Call.rank]) t ht) _ (Mono.refl s))
    | hiddenDoubles =>
      have I := fun (call' : Call) (h : call'.rank < 6) => sub call' s (Mono.refl s) (Or.inl h)
      simp only [exec]
      exact weaken s (safe_forEach _ (fun g _ t ht => I _ (by simp [Call.rank]) t ht) _ (Mono.refl s))
    | pointingPairs =>
      have I := fun (call' : Call) (h : call'.rank < 2) => sub call' s (Mono.refl s) (Or.inl h)
      simp only [exec]
      exact weaken s (safe_forEach _ (fun g _ t ht => I _ (by simp [Call.rank]) t ht) _ (Mono.refl s))
    | pointingTriples =>
      have I := fun (call' : Call) (h : call'.rank < 2) => sub call' s (Mono.refl s) (Or.inl h)
      simp only [exec]
      exact weaken s (safe_forEach _ (fun g _ t ht => I _ (by simp [Call.rank]) t ht) _ (Mono.refl s))

theorem unresolvedCount_setCellVal {s : Cells} {c v : Nat} (hc81 : c < 81)
    (hc : valOf s c = 0) (hv1 : 1 ≤ v) (hv9 : v ≤ 9) :
    unresolvedCount (setCellVal s c v) < unresolvedCount s := by
  have hv : Nat.beq (v % 16) 0 = false := by
    rw [beq_eq_decide, decide_eq_false_iff_not]
    omega
  apply List.sum_lt_sum
  · intro x _
    show (bif Nat.beq (valOf (setCellVal s c v) x) 0 then 1 else 0) ≤
      (bif Nat.beq (valOf s x) 0 then 1 else 0)
    rw [valOf_setCellVal]
    by_cases hx : x = c
    · subst hx
      rw [if_pos rfl, hc, hv]
      decide
    · rw [if_neg hx]
  · refine ⟨c, List.mem_range.2 hc81, ?_⟩
    show (bif Nat.beq (valOf (setCellVal s c v) c) 0 then 1 else 0) <
      (bif Nat.beq (valOf s c) 0 then 1 else 0)
    rw [valOf_setCellVal, if_pos rfl, hc, hv]
    decide

theorem unresolvedCount_clearFlag (s : Cells) (c v : Nat) :
    unresolvedCount (clearFlag s c v) = unresolvedCount s := by
  unfold unresolvedCount
  simp only [valOf_clearFlag]

set_option exponentiation.threshold 2000 in
/-- C15. Termination: on every state of the 81 cells, every method call (in particular
`setVal` and `elimVal`) made with a call depth of at least `7 * undecided s + 7` returns or
throws: it never exhausts the depth. The pair (`unresolvedCount`, `undecided`), the number
of unresolved cells and the number of candidate flags set on unresolved cells (at most
729), strictly decreases at the two writes that every recursive cycle passes through: the
assignment of `setVal` lowers both components (the cell stops being unresolved), and the
clearing of a flag that is set on an unresolved cell (`elimVal`, and the bulk loop of
`elimValFromGroupExcept`, which calls `elimVal` only on cells it cleared) keeps the first
and lowers the second. -/
theorem calls_terminate (B : Board) (s : Cells) (hs : s < 2 ^ 1296) (call : Call) (n : Nat)
    (hn : 7 * undecided s + 7 ≤ n) :
    exec B n call s ≠ Res.timeout ∧ undecided s ≤ 729 ∧
    (∀ c v, valOf s c = 0 → flag s c v = true →
      (unresolvedCount (setCellVal s c v) < unresolvedCount s ∧
        undecided (setCellVal s c v) < undecided s) ∧
      (unresolvedCount (clearFlag s c v) = unresolvedCount s ∧
        undecided (clearFlag s c v) < undecided s)) := by
  have hsupp := cellWeight_of_lt hs
  refine ⟨exec_ne_timeout B n call s hsupp ?_, undecided_le s, ?_⟩
  · have := rank_le_six call
    omega
  · intro c v hc hv
    have hr := flag_range hv
    have hc81 : c < 81 := by
      by_contra hge
      have h0 := hsupp c (by omega)
      rw [cellWeight_eq, if_pos hc] at h0
      have := List.length_pos_of_mem ((mem_getPossVals s c v).2 hv)
      omega
    refine ⟨⟨unresolvedCount_setCellVal hc81 hc hr.1 hr.2, ?_⟩,
      ⟨unresolvedCount_clearFlag s c v, ?_⟩⟩
    · have hm := mono_setCellVal (Mono.refl s) c v hc
      apply undecided_lt hm hc81
      apply cellWeight_lt hm hc hv
      left
      rw [valOf_setCellVal, if_pos rfl]
      omega
    · have hm := mono_clearFlag (Mono.refl s) c v
      apply undecided_lt hm hc81
      apply cellWeight_lt hm hc hv
      right
      rw [flag_clearFlag, hv]
      simp

set_option exponentiation.threshold 2000 in
theorem calls_terminate_witness :
    fresh < 2 ^ 1296 ∧ 7 * undecided fresh + 7 ≤ 7 * undecided fresh + 7 ∧
    exec theBoard (7 * undecided fresh + 7) (Call.setVal 0 5) fresh ≠ Res.timeout ∧
    undecided fresh ≤ 729 ∧
    (∀ c v, valOf fresh c = 0 → flag fresh c v = true →
      (unresolvedCount (setCellVal fresh c v) < unresolvedCount fresh ∧
        undecided (setCellVal fresh c v) < undecided fresh) ∧
      (unresolvedCount (clearFlag fresh c v) = unresolvedCount fresh ∧
        undecided (clearFlag fresh c v) < undecided fresh)) :=
  ⟨by decide!, Nat.le_refl _,
    calls_terminate theBoard fresh (by decide!) (Call.setVal 0 5) _ (Nat.le_refl _)⟩

/-! ### Agreement with a solution on the reachable states -/

theorem reachable_mono {B : Board} {s : Cells} (h : Reachable B s) : Mono fresh s := by
  induction h with
  | start => exact Mono.refl _
  | ret n c v _ _ h ih => exact ih.trans (exec_ok_mono h)
  | @raise s s' n c v e _ _ h ih =>
    have := exec_mono B n (Call.setVal c v) s
    rw [h] at this
    exact ih.trans this

theorem reachable_of_runCalls {B : Board} {fuel : Nat} :
    ∀ (calls : List (Nat × Nat)) (s s' : Cells), (∀ p ∈ calls, p.1 < 81) → Reachable B s →
      runCalls B fuel calls s = Res.ok s' → Reachable B s'
  | [], s, s', _, hs, h => by
    simp only [runCalls, forEach, Res.ok.injEq] at h
    subst h
    exact hs
  | p :: rest, s, s', hp, hs, h => by
    simp only [runCalls, forEach] at h
    obtain ⟨t, h1, h2⟩ := bind_eq_ok h
    exact reachable_of_runCalls rest t s' (fun q hq => hp q (List.mem_cons_of_mem p hq))
      (Reachable.ret fuel p.1 p.2 (hp p (List.mem_cons_self p rest)) hs h1) h2

/-- A `setVal` that returns either was stopped by its guard and changed nothing, or had
passed the guard and left the cell with the value. -/
theorem setVal_ok_cases {B : Board} {n : Nat} {s s' : Cells} {c v : Nat}
    (h : exec B n (Call.setVal c v) s = Res.ok s') :
    s' = s ∨ (valOf s c = 0 ∧ flag s c v = true ∧ valOf s' c = v) := by
  by_cases h0 : valOf s c = 0
  · by_cases hf : flag s c v = true
    · right
      exact ⟨h0, hf, (setVal_settled h0 hf h).1⟩
    · left
      cases n with
      | zero => simp [exec] at h
      | succ n =>
        have hg : (valOf s c != 0 || !flag s c v) = true := by simp [hf]
        simp only [exec, hg, if_true, Res.ok.injEq] at h
        exact h.symm
  · left
    cases n with
    | zero => simp [exec] at h
    | succ n =>
      have hg : (valOf s c != 0 || !flag s c v) = true := by simp [h0]
      simp only [exec, hg, if_true, Res.ok.injEq] at h
      exact h.symm

theorem sound_fresh {S : Nat → Nat} (hS : Solution theBoard S) : Sound S fresh := by
  intro x hx
  refine ⟨?_, fun h => absurd (valOf_fresh x) h⟩
  have hr := hS.range (cellBox_valid x hx) (theBoard_wired.mem_box x hx)
  rw [flag_eq, possAt_fresh]
  simp only [Bool.and_eq_true, decide_eq_true_eq]
  omega

/-- On a reachable state the resolved cells decide: if each of them holds its digit of
the solution `S`, then every cell, resolved or not, still has its digit of `S` as a
candidate flag. -/
theorem reach_sound {S : Nat → Nat} (hS : Solution theBoard S) {s : Cells}
    (h : Reachable theBoard s) :
    (∀ x, x < 81 → valOf s x ≠ 0 → valOf s x = S x) → Sound S s := by
  induction h with
  | start => intro _; exact sound_fresh hS
  | @ret s s' n c v hc _ h ih =>
    intro hres
    have hm := exec_ok_mono h
    have hprev : Sound S s := ih (fun x hx hv => by
      have e := (hm x).1 hv
      rw [← e]
      exact hres x hx (by rw [e]; exact hv))
    rcases setVal_ok_cases h with e | ⟨_, hf, hval⟩
    · rw [e]; exact hprev
    · have hv := flag_range hf
      have hvS : v = S c := by
        rw [← hval]
        exact hres c hc (by rw [hval]; omega)
      subst hvS
      have key := exec_sound hS theBoard_wired n (Call.setVal c (S c)) s hprev ⟨hc, rfl⟩
      rw [h] at key
      exact key
  | @raise s s' n c v e hc _ h ih =>
    intro hres
    have hm : Mono s s' := by
      have := exec_mono theBoard n (Call.setVal c v) s
      rw [h] at this
      exact this
    have hprev : Sound S s := ih (fun x hx hv => by
      have e := (hm x).1 hv
      rw [← e]
      exact hres x hx (by rw [e]; exact hv))
    obtain ⟨_, hf, hval⟩ := setVal_err_val h
    have hv := flag_range hf
    have hvS : v = S c := by
      rw [← hval]
      exact hres c hc (by rw [hval]; omega)
    subst hvS
    have key := exec_sound hS theBoard_wired n (Call.setVal c (S c)) s hprev ⟨hc, rfl⟩
    rw [h] at key
    exact key

/-- C7. Candidate soundness with respect to a solution, on the states the program can be
in: let `S` be a complete valid solution grid and `s` a state reached from the fresh board
by top-level `setVal` calls (returning or throwing) in which every resolved cell holds its
digit of `S`. Then after `setVal` of the digit of `S` on any cell, whether the call
returns or throws, every resolved cell holds its digit of `S` and every cell, so every
unresolved one, has its digit of `S` as a candidate; and with call depth
`7 * undecided s + 7` the call does return or throw. On a reachable state the second
hypothesis of the claim (unresolved cells have their digit of `S` as a candidate) follows
from the first. -/
theorem setVal_sound_on_reachable (S : Nat → Nat) (hS : Solution theBoard S) (s : Cells)
    (hreach : Reachable theBoard s)
    (hres : ∀ x, x < 81 → valOf s x ≠ 0 → valOf s x = S x)
    (c : Nat) (hc : c < 81) (n : Nat) :
    (∀ s', exec theBoard n (Call.setVal c (S c)) s = Res.ok s' →
      (∀ x, x < 81 → valOf s' x ≠ 0 → valOf s' x = S x) ∧
        (∀ x, x < 81 → flag s' x (S x) = true)) ∧
    (∀ e s', exec theBoard n (Call.setVal c (S c)) s = Res.err e s' →
      (∀ x, x < 81 → valOf s' x ≠ 0 → valOf s' x = S x) ∧
        (∀ x, x < 81 → flag s' x (S x) = true)) ∧
    (7 * undecided s + 7 ≤ n → exec theBoard n (Call.setVal c (S c)) s ≠ Res.timeout) := by
  have hs : Sound S s := reach_sound hS hreach hres
  have key := exec_sound hS theBoard_wired n (Call.setVal c (S c)) s hs ⟨hc, rfl⟩
  refine ⟨fun s' h => ?_, fun e s' h => ?_, fun hn => ?_⟩
  · rw [h] at key
    exact ⟨fun x hx => (key x hx).2, fun x hx => (key x hx).1⟩
  · rw [h] at key
    exact ⟨fun x hx => (key x hx).2, fun x hx => (key x hx).1⟩
  · have hm := reachable_mono hreach
    refine exec_ne_timeout theBoard n _ s (fun x hx => ?_) (by simp only [Call.rank]; omega)
    rw [cellWeight_eq]
    have : getPossVals s x = [] := by
      apply getPossVals_eq_nil
      intro w
      cases hf : flag s x w
      · rfl
      · have h1 := (hm x).2 w hf
        rw [flag_eq, possAt_fresh] at h1
        have hx' : ¬ x < 81 := by omega
        simp [hx'] at h1
    simp [this]

set_option maxRecDepth 100000 in
theorem setVal_sound_on_reachable_witness :
    Solution theBoard (gridOf solA) ∧ Reachable theBoard falseAlarmBefore ∧
    (∀ x, x < 81 → valOf falseAlarmBefore x ≠ 0 →
      valOf falseAlarmBefore x = gridOf solA x) ∧
    exec theBoard 12 (Call.setVal 14 (gridOf solA 14)) falseAlarmBefore =
      Res.err Err.endErr falseAlarmAfter ∧
    (∀ x, x < 81 → valOf falseAlarmAfter x ≠ 0 → valOf falseAlarmAfter x = gridOf solA x) ∧
    (∀ x, x < 81 → flag falseAlarmAfter x (gridOf solA x) = true) := by
  have hR : Reachable theBoard falseAlarmBefore :=
    reachable_of_runCalls _ _ _ (by decide) Reachable.start falseAlarm_first
  have hres : ∀ x, x < 81 → valOf falseAlarmBefore x ≠ 0 →
      valOf falseAlarmBefore x = gridOf solA x := by decide!
  have hex : exec theBoard 12 (Call.setVal 14 (gridOf solA 14)) falseAlarmBefore =
      Res.err Err.endErr falseAlarmAfter := falseAlarm_last
  exact ⟨solA_valid, hR, hres, hex,
    (setVal_sound_on_reachable (gridOf solA) solA_valid falseAlarmBefore hR hres 14
      (by decide) 12).2.1 Err.endErr falseAlarmAfter hex⟩

set_option maxRecDepth 100000 in
/-- The state `staleFlagState`, in which a resolved cell has lost its own flag, is none the
program can be in. -/
theorem staleFlagState_unreachable : ¬ Reachable theBoard staleFlagState := by
  intro h
  have hs := reach_sound solB_valid h (by decide!)
  have h1 := (hs 1 (by decide)).1
  have h2 : flag staleFlagState 1 (gridOf solB 1) = false := by decide!
  rw [h2] at h1
  cases h1

/-! ### Cells resolved during a call -/

theorem Tidy.reflT (B : Board) (s : Cells) : Tidy B s s :=
  ⟨Mono.refl s, fun _ _ _ h => h, fun _ h0 h1 => absurd h0 h1⟩

theorem Mono.unresolved {s s' : Cells} (h : Mono s s') {x : Nat} (hx : valOf s' x = 0) :
    valOf s x = 0 := by
  by_contra hne
  have := (h x).1 hne
  omega

theorem Tidy.transT {B : Board} {a b c : Cells} (h1 : Tidy B a b) (h2 : Tidy B b c) :
    Tidy B a c := by
  refine ⟨h1.1.trans h2.1, fun x v hv hs => h2.2.1 x v hv (h1.2.1 x v hv hs), ?_⟩
  intro x hxa hxc
  by_cases hxb : valOf b x = 0
  · exact h2.2.2 x hxb hxc
  · obtain ⟨hset, hno⟩ := h1.2.2 x hxa hxb
    have hval : valOf c x = valOf b x := (h2.1 x).1 hxb
    rw [hval]
    refine ⟨h2.2.1 x _ hxb hset, fun y hy hcon => hno y hy ⟨h2.1.unresolved hcon.1, ?_⟩⟩
    exact (h2.1 y).2 _ hcon.2

theorem exec_ok_settled {B : Board} {n : Nat} {call : Call} {s s' : Cells}
    (h : exec B n call s = Res.ok s') {c v : Nat} (hv : v ≠ 0) (hs : Settled c v s) :
    Settled c v s' :=
  sat_ok (E := fun _ => True) (exec_settled B c v hv n call s hs) h

theorem setVal_noCand {B : Board} {n : Nat} {s s' : Cells} {c v : Nat}
    (hc : valOf s c = 0) (hv : flag s c v = true)
    (h : exec B n (Call.setVal c v) s = Res.ok s') :
    ∀ x, x ∈ B.group (cellBox c) ∨ x ∈ B.group (cellRow c) ∨ x ∈ B.group (cellCol c) →
      ¬ (valOf s' x = 0 ∧ flag s' x v = true) := by
  obtain ⟨m, s2, s3, rfl, _, h3, hm⟩ := setVal_stages hc hv h
  cases m with
  | zero => simp [exec] at h3
  | succ k =>
    simp only [exec] at h3
    obtain ⟨sa, ha, h3⟩ := bind_eq_ok h3
    obtain ⟨sb, hb, hcol⟩ := bind_eq_ok h3
    have mab := exec_ok_mono hb
    have mb3 := exec_ok_mono hcol
    intro x hx
    rcases hx with hx | hx | hx
    · exact NoCand.mono (fun y hy => elimValFromGroupExcept_post ha y hy (List.not_mem_nil y))
        ((mab.trans mb3).trans hm) x hx
    · exact NoCand.mono (fun y hy => elimValFromGroupExcept_post hb y hy (List.not_mem_nil y))
        (mb3.trans hm) x hx
    · exact NoCand.mono (fun y hy => elimValFromGroupExcept_post hcol y hy (List.not_mem_nil y))
        hm x hx

/-- A call whose first write resolves no cell is tidy when the rest of it is. -/
theorem tidy_of_rest {B : Board} {n : Nat} {call : Call} {s s' : Cells} (s1 : Cells)
    (h : exec B n call s = Res.ok s') (hval : ∀ x, valOf s1 x = valOf s x)
    (hrest : Tidy B s1 s') : Tidy B s s' :=
  ⟨exec_ok_mono h, fun _ _ hv hs => exec_ok_settled h hv hs,
    fun x hx hx' => hrest.2.2 x ((hval x).trans hx) hx'⟩

/-- Every call that returns is tidy. -/
theorem exec_tidy (B : Board) : ∀ (n : Nat) (call : Call) (s s' : Cells),
    exec B n call s = Res.ok s' → Tidy B s s' := by
  intro n
  induction n with
  | zero => intro call s s' h; simp [exec] at h
  | succ n ih =>
    intro call s s' h
    have hfe : ∀ {α : Type} (f : α → Cells → Res) (xs : List α),
        (∀ x ∈ xs, ∀ s s', f x s = Res.ok s' → Tidy B s s') →
        ∀ s s', forEach f xs s = Res.ok s' → Tidy B s s' :=
      fun f xs => forEach_rel (Tidy B) (Tidy.reflT B) (fun _ _ _ => Tidy.transT) f xs
    have hwhole := h
    cases call with
    | setVal c v =>
      simp only [exec] at h
      split at h
      · simp only [Res.ok.injEq] at h; subst h; exact Tidy.reflT B s
      · rename_i hg
        simp only [Bool.or_eq_true, bne_iff_ne, ne_eq, Bool.not_eq_true', not_or, not_not,
          Bool.not_eq_false] at hg
        obtain ⟨s1, h1, h⟩ := bind_eq_ok h
        obtain ⟨s2, h2, h⟩ := bind_eq_ok h
        obtain ⟨s3, h3, h⟩ := bind_eq_ok h
        obtain ⟨s4, h4, h⟩ := bind_eq_ok h
        obtain ⟨s5, h5, h⟩ := bind_eq_ok h
        have hl : Tidy B (setCellVal s c v) s1 := by
          refine hfe _ _ ?_ _ _ h1
          intro i _ t t' ht
          split at ht
          · exact ih _ _ _ ht
          · simp only [Res.ok.injEq] at ht; subst ht; exact Tidy.reflT B t
        have hrest : Tidy B (setCellVal s c v) s' :=
          hl.transT ((ih _ _ _ h2).transT ((ih _ _ _ h3).transT
            ((ih _ _ _ h4).transT ((ih _ _ _ h5).transT (ih _ _ _ h)))))
        refine ⟨exec_ok_mono hwhole, fun _ _ hv hs => exec_ok_settled hwhole hv hs, ?_⟩
        intro x hx hx'
        by_cases hxc : x = c
        · subst hxc
          have hset := setVal_settled hg.1 hg.2 hwhole
          rw [hset.1]
          exact ⟨hset, setVal_noCand hg.1 hg.2 hwhole⟩
        · refine hrest.2.2 x ?_ hx'
          rw [valOf_setCellVal, if_neg hxc]
          exact hx
    | elimVal c w =>
      simp only [exec] at h
      split at h
      · simp at h
      · split at h
        · simp at h
        · split at h
          · split at h
            · exact tidy_of_rest (clearFlag s c w) hwhole (fun x => valOf_clearFlag s c w x) (ih _ _ _ h)
            · exact tidy_of_rest (clearFlag s c w) hwhole (fun x => valOf_clearFlag s c w x) (ih _ _ _ h)
          · simp only [Res.ok.injEq] at h
            subst h
            exact tidy_of_rest (clearFlag s c w) hwhole (fun x => valOf_clearFlag s c w x) (Tidy.reflT B _)
    | elimValFromGroups c v =>
      simp only [exec] at h
      obtain ⟨s1, h1, h⟩ := bind_eq_ok h
      obtain ⟨s2, h2, h⟩ := bind_eq_ok h
      exact (ih _ _ _ h1).transT ((ih _ _ _ h2).transT (ih _ _ _ h))
    | elimAllValsExcept c exceptions =>
      simp only [exec] at h
      refine hfe _ _ ?_ _ _ h
      intro i _ t t' ht
      split at ht
      · exact ih _ _ _ ht
      · simp only [Res.ok.injEq] at ht; subst ht; exact Tidy.reflT B t
    | nakedNums c vals =>
      simp only [exec] at h
      obtain ⟨s1, h1, h⟩ := bind_eq_ok h
      obtain ⟨s2, h2, h⟩ := bind_eq_ok h
      exact (ih _ _ _ h1).transT ((ih _ _ _ h2).transT (ih _ _ _ h))
    | elimValFromGroupExcept g v exceptions =>
      simp only [exec] at h
      refine tidy_of_rest (bulkClear v exceptions (B.group g) s []).1 hwhole
        (fun x => bulkClear_valOf v exceptions (B.group g) s [] x) ?_
      refine hfe _ _ ?_ _ _ h
      intro i _ t t' ht
      split at ht
      · exact ih _ _ _ ht
      · simp only [Res.ok.injEq] at ht; subst ht; exact Tidy.reflT B t
    | hiddenSingle g =>
      simp only [exec] at h
      refine hfe _ _ ?_ _ _ h
      intro i _ t t' ht
      split at ht
      · split at ht
        · exact ih _ _ _ ht
        · split at ht
          · simp at ht
          · simp only [Res.ok.injEq] at ht; subst ht; exact Tidy.reflT B t
      · simp only [Res.ok.injEq] at ht; subst ht; exact Tidy.reflT B t
    | hiddenDouble g =>
      simp only [exec] at h
      refine hfe _ _ ?_ _ _ h
      intro i _ t1 t1' ht1
      refine hfe _ _ ?_ _ _ ht1
      intro j _ t t' ht
      split at ht
      · split at ht
        · split at ht
          · obtain ⟨u, hu, ht⟩ := bind_eq_ok ht
            exact (ih _ _ _ hu).transT (ih _ _ _ ht)
          · simp only [Res.ok.injEq] at ht; subst ht; exact Tidy.reflT B t
        · simp only [Res.ok.injEq] at ht; subst ht; exact Tidy.reflT B t
      · simp only [Res.ok.injEq] at ht; subst ht; exact Tidy.reflT B t
    | pointingPair g =>
      simp only [exec] at h
      refine hfe _ _ ?_ _ _ h
      intro i _ t t' ht
      split at ht
      · split at ht
        · split at ht
          · exact ih _ _ _ ht
          · split at ht
            · exact ih _ _ _ ht
            · split at ht
              · exact ih _ _ _ ht
              · simp only [Res.ok.injEq] at ht; subst ht; exact Tidy.reflT B t
        · split at ht
          · simp at ht
          · simp only [Res.ok.injEq] at ht; subst ht; exact Tidy.reflT B t
      · simp only [Res.ok.injEq] at ht; subst ht; exact Tidy.reflT B t
    | pointingTriple g =>
      simp only [exec] at h
      refine hfe _ _ ?_ _ _ h
      intro i _ t t' ht
      split at ht
      · split at ht
        · split at ht
          · exact ih _ _ _ ht
          · split at ht
            · exact ih _ _ _ ht
            · split at ht
              · exact ih _ _ _ ht
              · simp only [Res.ok.injEq] at ht; subst ht; exact Tidy.reflT B t
        · split at ht
          · simp at ht
          · simp only [Res.ok.injEq] at ht; subst ht; exact Tidy.reflT B t
      · simp only [Res.ok.injEq] at ht; subst ht; exact Tidy.reflT B t
    | nakedNum g vals =>
      simp only [exec] at h
      split at h
      · simp at h
      · split at h
        · obtain ⟨s1, h1, h⟩ := bind_eq_ok h
          obtain ⟨s2, h2, h⟩ := bind_eq_ok h
          exact (ih _ _ _ h1).transT ((ih _ _ _ h2).transT (ih _ _ _ h))
        · simp only [Res.ok.injEq] at h; subst h; exact Tidy.reflT B s
    | hiddenSingles =>
      simp only [exec] at h
      exact hfe _ _ (fun g _ t t' ht => ih _ _ _ ht) _ _ h
    | hiddenDoubles =>
      simp only [exec] at h
      exact hfe _ _ (fun g _ t t' ht => ih _ _ _ ht) _ _ h
    | pointingPairs =>
      simp only [exec] at h
      exact hfe _ _ (fun g _ t t' ht => ih _ _ _ ht) _ _ h
    | pointingTriples =>
      simp only [exec] at h
      exact hfe _ _ (fun g _ t t' ht => ih _ _ _ ht) _ _ h

/-- The state in which one element of a loop is processed. -/
theorem forEach_at {α : Type} (R : Cells → Cells → Prop) (hrefl : ∀ s, R s s)
    (htrans : ∀ a b c, R a b → R b c → R a c) (f : α → Cells → Res) :
    ∀ (xs : List α), (∀ x ∈ xs, ∀ s s', f x s = Res.ok s' → R s s') →
      ∀ x0 ∈ xs, ∀ s s', forEach f xs s = Res.ok s' →
        ∃ t t', R s t ∧ f x0 t = Res.ok t' ∧ R t' s'
  | [], _, _, hx0, _, _, _ => by cases hx0
  | x :: xs, hf, x0, hx0, s, s', h => by
    simp only [forEach] at h
    obtain ⟨s1, h1, h2⟩ := bind_eq_ok h
    have hfx := fun y hy => hf y (List.mem_cons_of_mem x hy)
    rcases List.mem_cons.1 hx0 with rfl | hmem
    · exact ⟨s, s1, hrefl s, h1, forEach_rel R hrefl htrans f xs hfx s1 s' h2⟩
    · obtain ⟨t, t', ht, hft, ht'⟩ := forEach_at R hrefl htrans f xs hfx x0 hmem s1 s' h2
      exact ⟨t, t', htrans _ _ _ (hf x (List.mem_cons_self x xs) s s1 h1) ht, hft, ht'⟩

/-! ### Hidden single and pointing pair -/

theorem eq_singleton_of_nodup {l : List Nat} {H : Nat} (hnd : l.Nodup) (hH : H ∈ l)
    (hall : ∀ x ∈ l, x = H) : l = [H] := by
  match l, hnd, hH, hall with
  | [], _, hH, _ => cases hH
  | [a], _, _, hall => rw [hall a (List.mem_singleton_self a)]
  | a :: b :: t, hnd, _, hall =>
    have ha := hall a (by simp)
    have hb := hall b (by simp)
    exfalso
    rw [List.nodup_cons] at hnd
    exact hnd.1 (by rw [ha, ← hb]; simp)

theorem numValsAt_eq_filter (s : Cells) (group : List Nat) (i : Nat) :
    numValsAt s group i =
      (group.filter (fun c => possAt s c i && Nat.beq (valOf s c) 0)).length := by
  unfold numValsAt
  rw [countCands_eq_countP, List.countP_eq_length_filter]

theorem carries_iff {s : Cells} {x d : Nat} (hd : 1 ≤ d) :
    (possAt s x (d - 1) && Nat.beq (valOf s x) 0) = true ↔
      (valOf s x = 0 ∧ flag s x d = true) := by
  rw [flag_eq, beq_eq_decide]
  have : d ≠ 0 := by omega
  simp [this, and_comm]

theorem getCellsWithVal_eq (s : Cells) (group : List Nat) (v : Nat) :
    getCellsWithVal s group v =
      if group.any (fun c => flag s c v && valOf s c != 0) then []
      else group.filter (fun c => flag s c v) := by
  unfold getCellsWithVal
  rw [getCellsWithValAux_eq]
  simp

theorem isValTaken_iff {s : Cells} {group : List Nat} {v : Nat} :
    isValTaken s group v = true ↔ ∃ x ∈ group, valOf s x = v := by
  unfold isValTaken
  simp [List.any_eq_true]

/-- The body of the loop of `hiddenSingle` is tidy. -/
theorem hiddenSingle_step_tidy {B : Board} {n : Nat} {g : GroupRef} {c1 : Bool} {val : Nat}
    {t t' : Cells}
    (ht : (if c1 = true then
        if ((getCellsWithVal t (B.group g) (val + 1)).length == 1) = true then
          exec B n (Call.setVal ((getCellsWithVal t (B.group g) (val + 1)).getD 0 0) (val + 1)) t
        else if (!isValTaken t (B.group g) (val + 1)) = true then Res.err Err.endErr t
        else Res.ok t
      else Res.ok t) = Res.ok t') : Tidy B t t' := by
  split at ht
  · split at ht
    · exact exec_tidy B _ _ _ _ ht
    · split at ht
      · simp at ht
      · simp only [Res.ok.injEq] at ht; subst ht; exact Tidy.reflT B t
  · simp only [Res.ok.injEq] at ht; subst ht; exact Tidy.reflT B t

/-- C18. Hidden single on the constructed board: in a state in which every resolved cell has exactly its own value
as candidate flag, let `H` be the only unresolved cell of the group with candidate `d`, and
let no cell of the group hold `d`. If `hiddenSingle(group)` returns normally, `H` is
resolved with value `d` afterwards. -/
theorem hiddenSingle_places_digit (n : Nat) (g : GroupRef) (s s' : Cells)
    (d H : Nat)
    (hwf : ∀ c, valOf s c ≠ 0 → ∀ w, flag s c w = true ↔ w = valOf s c)
    (hH : H ∈ theBoard.group g) (hHval : valOf s H = 0)
    (hHd : flag s H d = true)
    (huniq : ∀ x ∈ theBoard.group g, valOf s x = 0 → flag s x d = true → x = H)
    (hfree : ∀ x ∈ theBoard.group g, valOf s x ≠ d)
    (h : exec theBoard n (Call.hiddenSingle g) s = Res.ok s') : valOf s' H = d := by
  have hd := flag_range hHd
  have hnd := (theBoard_good g).1
  have hd1 : d - 1 + 1 = d := by omega
  cases n with
  | zero => simp [exec] at h
  | succ n =>
    simp only [exec] at h
    obtain ⟨t, t', hst, hbody, hts'⟩ := forEach_at (Tidy theBoard) (Tidy.reflT theBoard)
      (fun _ _ _ => Tidy.transT) _ _ (fun val _ t t' ht => hiddenSingle_step_tidy ht)
      (d - 1) (List.mem_range.2 (by omega)) s s' h
    have hcount : Nat.beq (numValsAt s (theBoard.group g) (d - 1)) 1 = true := by
      rw [numValsAt_eq_filter, eq_singleton_of_nodup (hnd.filter _) (List.mem_filter.2
        ⟨hH, (carries_iff hd.1).2 ⟨hHval, hHd⟩⟩) (fun x hx => by
          have hx' := List.mem_filter.1 hx
          have := (carries_iff hd.1).1 hx'.2
          exact huniq x hx'.1 this.1 this.2)]
      rfl
    rw [if_pos hcount, hd1] at hbody
    have hA : ∀ x ∈ theBoard.group g, flag t x d = true → x = H := by
      intro x hx hf
      have hfs := (hst.1 x).2 d hf
      by_cases hv : valOf s x = 0
      · exact huniq x hx hv hfs
      · exact absurd ((hwf x hv d).1 hfs).symm (hfree x hx)
    have hBv : ∀ x ∈ theBoard.group g, valOf t x = d → x = H ∧ valOf t H = d := by
      intro x hx hv
      have hs0 : valOf s x = 0 := by
        by_contra hne
        have := (hst.1 x).1 hne
        exact hfree x hx (this ▸ hv)
      have hset := (hst.2.2 x hs0 (by rw [hv]; omega)).1
      rw [hv] at hset
      have hxH := hA x hx ((hset.2 d).2 rfl)
      exact ⟨hxH, hxH ▸ hv⟩
    have hfin : valOf t' H = d := by
      split at hbody
      · rename_i hlen
        simp only [beq_iff_eq] at hlen
        have hne : getCellsWithVal t (theBoard.group g) d ≠ [] := by
          intro he; rw [he] at hlen; simp at hlen
        obtain ⟨hfil, hunres⟩ := getCellsWithVal_nonempty hne
        obtain ⟨a, ha⟩ := List.exists_mem_of_ne_nil _ hne
        have ha' := ha
        rw [hfil, List.mem_filter] at ha'
        have haH := hA a ha'.1 ha'.2
        have h0 : (getCellsWithVal t (theBoard.group g) d).getD 0 0 = H :=
          haH ▸ getD_of_length_one hlen ha
        rw [h0] at hbody
        have hHf : flag t H d = true := haH ▸ ha'.2
        exact (setVal_settled (hunres H hH hHf) hHf hbody).1
      · split at hbody
        · simp at hbody
        · rename_i htk
          simp only [Res.ok.injEq] at hbody
          subst hbody
          simp only [Bool.not_eq_true', Bool.not_eq_false] at htk
          obtain ⟨x, hx, hv⟩ := isValTaken_iff.1 htk
          exact (hBv x hx hv).2
    have := (hts'.1 H).1 (by rw [hfin]; omega)
    rw [this, hfin]

theorem pair_of_nodup {l : List Nat} {X Y : Nat} (hnd : l.Nodup)
    (hall : ∀ x ∈ l, x = X ∨ x = Y) (h2 : 2 ≤ l.length) : l = [X, Y] ∨ l = [Y, X] := by
  match l, hnd, hall, h2 with
  | [], _, _, h2 => simp at h2
  | [a], _, _, h2 => simp at h2
  | [a, b], hnd, hall, _ =>
    have ha := hall a (by simp)
    have hb := hall b (by simp)
    have hab : a ≠ b := by
      intro e; subst e; simp at hnd
    rcases ha with rfl | rfl <;> rcases hb with rfl | rfl
    · exact absurd rfl hab
    · exact Or.inl rfl
    · exact Or.inr rfl
    · exact absurd rfl hab
  | a :: b :: c :: t, hnd, hall, _ =>
    have ha := hall a (by simp)
    have hb := hall b (by simp)
    have hc := hall c (by simp)
    exfalso
    simp only [List.nodup_cons, List.mem_cons, not_or] at hnd
    rcases ha with rfl | rfl <;> rcases hb with rfl | rfl <;> rcases hc with rfl | rfl <;>
      simp_all

theorem pair_length {l : List Nat} {X Y : Nat} (hnd : l.Nodup) (hX : X ∈ l) (hY : Y ∈ l)
    (hXY : X ≠ Y) (hall : ∀ x ∈ l, x = X ∨ x = Y) : l.length = 2 := by
  have h2 : 2 ≤ l.length := by
    match l, hX, hY with
    | [], hX, _ => cases hX
    | [a], hX, hY =>
      simp only [List.mem_singleton] at hX hY
      exact absurd (hX.trans hY.symm) hXY
    | _ :: _ :: _, _, _ => simp
  rcases pair_of_nodup hnd hall h2 with e | e <;> rw [e] <;> rfl

theorem theBoard_cellGroup (g : GroupRef) :
    ∀ x ∈ theBoard.group g, x < 81 ∧ g = cellGroup g.kind x := by
  obtain ⟨k, i⟩ := g
  rw [theBoard_eq]
  by_cases hi : i < 9
  · cases k <;> interval_cases i <;> decide
  · have hi9 : 9 ≤ i := Nat.le_of_not_lt hi
    cases k <;> simp only [Board.group] <;> rw [List.getD_eq_default _ _ (by simpa using hi9)] <;>
      simp

theorem row_col_inj {x y : Nat} (hr : cellRow x = cellRow y) (hc : cellCol x = cellCol y) :
    x = y := by
  have h1 : rowNum x = rowNum y := by
    simpa [cellRow] using hr
  have h2 : colIndex x = colIndex y := by
    simpa [cellCol] using hc
  unfold rowNum at h1
  unfold colIndex at h2
  omega

/-- Which of the three branches of `pointingPair` is taken for two cells of `g` that also
share the group `g2`. -/
theorem pointing_select {α : Type} (g g2 : GroupRef) (c1 c2 : Nat)
    (hg : g = cellGroup g.kind c1) (hg' : g = cellGroup g.kind c2)
    (h2 : g2 = cellGroup g2.kind c1) (h2' : g2 = cellGroup g2.kind c2)
    (hne : g2 ≠ g) (hc : c1 ≠ c2) (f : GroupRef → α) (z : α) :
    (if (cellBox c1 == cellBox c2 && cellBox c1 != g) = true then f (cellBox c1)
      else if (cellRow c1 == cellRow c2 && cellRow c1 != g) = true then f (cellRow c1)
      else if (cellCol c1 == cellCol c2 && cellCol c1 != g) = true then f (cellCol c1)
      else z) = f g2 := by
  have hne' : g ≠ g2 := fun e => hne e.symm
  cases hk : g.kind <;> cases hk2 : g2.kind <;> rw [hk] at hg hg' <;> rw [hk2] at h2 h2' <;>
    simp only [cellGroup] at hg hg' h2 h2'
  · exact absurd (h2.trans hg.symm) hne
  · have hrow : cellRow c1 = cellRow c2 := h2.symm.trans h2'
    have hbox : cellBox c1 = cellBox c2 := hg.symm.trans hg'
    simp [hbox, hrow, ← hg', ← h2', hne]
  · have hcol : cellCol c1 = cellCol c2 := h2.symm.trans h2'
    have hbox : cellBox c1 = cellBox c2 := hg.symm.trans hg'
    have hrow : cellRow c1 ≠ cellRow c2 := fun e => hc (row_col_inj e hcol)
    simp [hbox, hrow, hcol, ← hg', ← h2', hne]
  · have hbox : cellBox c1 = cellBox c2 := h2.symm.trans h2'
    simp [hbox, ← h2', hne]
  · exact absurd (h2.trans hg.symm) hne
  · exact absurd (row_col_inj (hg.symm.trans hg') (h2.symm.trans h2')) hc
  · have hbox : cellBox c1 = cellBox c2 := h2.symm.trans h2'
    simp [hbox, ← h2', hne]
  · exact absurd (row_col_inj (h2.symm.trans h2') (hg.symm.trans hg')) hc
  · exact absurd (h2.trans hg.symm) hne

/-- C19. Pointing pair on the constructed board: in a state in which every resolved cell
has exactly its own value as candidate flag, let `X` and `Y` be the only unresolved cells
of the group `g` with candidate `d`, let no cell of `g` hold `d`, and let both also lie in
a second group `g2`. If `pointingPair(g)` returns normally, no unresolved cell of `g2`
other than `X` and `Y` has the candidate `d` afterwards. -/
theorem pointingPair_clears_second_group (n : Nat) (g g2 : GroupRef) (s s' : Cells)
    (d X Y : Nat)
    (hwf : ∀ c, valOf s c ≠ 0 → ∀ w, flag s c w = true ↔ w = valOf s c)
    (hX : X ∈ theBoard.group g) (hY : Y ∈ theBoard.group g) (hXY : X ≠ Y)
    (hXc : valOf s X = 0 ∧ flag s X d = true) (hYc : valOf s Y = 0 ∧ flag s Y d = true)
    (huniq : ∀ x ∈ theBoard.group g, valOf s x = 0 → flag s x d = true → x = X ∨ x = Y)
    (hfree : ∀ x ∈ theBoard.group g, valOf s x ≠ d)
    (hg2 : g2 ≠ g) (hX2 : X ∈ theBoard.group g2) (hY2 : Y ∈ theBoard.group g2)
    (h : exec theBoard n (Call.pointingPair g) s = Res.ok s') :
    ∀ x ∈ theBoard.group g2, x ≠ X → x ≠ Y → ¬ (valOf s' x = 0 ∧ flag s' x d = true) := by
  have hd := flag_range hXc.2
  have hd1 : d - 1 + 1 = d := by omega
  have hnd := (theBoard_good g).1
  cases n with
  | zero => simp [exec] at h
  | succ n =>
    simp only [exec] at h
    obtain ⟨t, t', hst, hbody, hts'⟩ := forEach_at (Tidy theBoard) (Tidy.reflT _)
      (fun _ _ _ => Tidy.transT) _ _
      (fun val _ t t' ht => by
        split at ht
        · split at ht
          · split at ht
            · exact exec_tidy _ _ _ _ _ ht
            · split at ht
              · exact exec_tidy _ _ _ _ _ ht
              · split at ht
                · exact exec_tidy _ _ _ _ _ ht
                · simp only [Res.ok.injEq] at ht; subst ht; exact Tidy.reflT _ t
          · split at ht
            · simp at ht
            · simp only [Res.ok.injEq] at ht; subst ht; exact Tidy.reflT _ t
        · simp only [Res.ok.injEq] at ht; subst ht; exact Tidy.reflT _ t)
      (d - 1) (List.mem_range.2 (by omega)) s s' h
    have hcount : Nat.beq (numValsAt s (theBoard.group g) (d - 1)) 2 = true := by
      rw [numValsAt_eq_filter, pair_length (hnd.filter _)
        (List.mem_filter.2 ⟨hX, (carries_iff hd.1).2 hXc⟩)
        (List.mem_filter.2 ⟨hY, (carries_iff hd.1).2 hYc⟩) hXY (fun x hx => by
          have hx' := List.mem_filter.1 hx
          have := (carries_iff hd.1).1 hx'.2
          exact huniq x hx'.1 this.1 this.2)]
      rfl
    rw [if_pos hcount, hd1] at hbody
    have hgX := (theBoard_cellGroup g X hX).2
    have hgY := (theBoard_cellGroup g Y hY).2
    have h2X := (theBoard_cellGroup g2 X hX2).2
    have h2Y := (theBoard_cellGroup g2 Y hY2).2
    have hA : ∀ x ∈ theBoard.group g, flag t x d = true → x = X ∨ x = Y := by
      intro x hx hf
      have hfs := (hst.1 x).2 d hf
      by_cases hv : valOf s x = 0
      · exact huniq x hx hv hfs
      · exact absurd ((hwf x hv d).1 hfs).symm (hfree x hx)
    intro x hx hxX hxY hcon
    have hcon' : valOf t' x = 0 ∧ flag t' x d = true :=
      ⟨hts'.1.unresolved hcon.1, (hts'.1 x).2 d hcon.2⟩
    revert hcon'
    split at hbody
    · rename_i hlen
      simp only [beq_iff_eq] at hlen
      have hne : getCellsWithVal t (theBoard.group g) d ≠ [] := by
        intro he; rw [he] at hlen; simp at hlen
      obtain ⟨hfil, -⟩ := getCellsWithVal_nonempty hne
      have hcn : (getCellsWithVal t (theBoard.group g) d).Nodup := by
        rw [hfil]; exact hnd.filter _
      have hcall : ∀ y ∈ getCellsWithVal t (theBoard.group g) d, y = X ∨ y = Y := by
        intro y hy
        rw [hfil, List.mem_filter] at hy
        exact hA y hy.1 hy.2
      have hxc : x ∉ getCellsWithVal t (theBoard.group g) d := by
        intro hm
        rcases hcall x hm with e | e
        · exact hxX e
        · exact hxY e
      have key : exec theBoard n (Call.elimValFromGroupExcept g2 d
          (getCellsWithVal t (theBoard.group g) d)) t = Res.ok t' := by
        rcases pair_of_nodup hcn hcall (by omega) with e | e
        · rw [e] at hbody ⊢
          simp only [List.getD_cons_zero, List.getD_cons_succ] at hbody
          rw [pointing_select g g2 X Y hgX hgY h2X h2Y hg2 hXY
            (fun grp => exec theBoard n (Call.elimValFromGroupExcept grp d [X, Y]) t)] at hbody
          exact hbody
        · rw [e] at hbody ⊢
          simp only [List.getD_cons_zero, List.getD_cons_succ] at hbody
          rw [pointing_select g g2 Y X hgY hgX h2Y h2X hg2 (Ne.symm hXY)
            (fun grp => exec theBoard n (Call.elimValFromGroupExcept grp d [Y, X]) t)] at hbody
          exact hbody
      exact elimValFromGroupExcept_post key x hx hxc
    · split at hbody
      · simp at hbody
      · rename_i htk
        simp only [Res.ok.injEq] at hbody
        subst hbody
        simp only [Bool.not_eq_true', Bool.not_eq_false] at htk
        obtain ⟨z, hz, hv⟩ := isValTaken_iff.1 htk
        have hs0 : valOf s z = 0 := by
          by_contra hne
          have := (hst.1 z).1 hne
          exact hfree z hz (this ▸ hv)
        obtain ⟨hset, hno⟩ := hst.2.2 z hs0 (by rw [hv]; omega)
        rw [hv] at hset hno
        have hzXY := hA z hz ((hset.2 d).2 rfl)
        have h2z : g2 = cellGroup g2.kind z := by
          rcases hzXY with e | e
          · rw [e]; exact h2X
          · rw [e]; exact h2Y
        apply hno x
        have hxm : x ∈ theBoard.group (cellGroup g2.kind z) := h2z ▸ hx
        cases hk : g2.kind <;> rw [hk] at hxm <;> simp only [cellGroup] at hxm <;> simp [hxm]

/-! ### Hidden pair -/

theorem elimVal_clears {B : Board} {n : Nat} {c w : Nat} {s s' : Cells}
    (h : exec B n (Call.elimVal c w) s = Res.ok s') : flag s' c w = false := by
  cases n with
  | zero => simp [exec] at h
  | succ n =>
    have hcl : flag (clearFlag s c w) c w = false := by
      rw [flag_clearFlag]; simp
    have fin : ∀ {t : Cells}, Mono (clearFlag s c w) t → flag t c w = false := by
      intro t hm
      cases hf : flag t c w
      · rfl
      · have := (hm c).2 w hf
        rw [hcl] at this
        cases this
    simp only [exec] at h
    split at h
    · simp at h
    · split at h
      · simp at h
      · split at h
        · split at h
          · exact fin (exec_ok_mono h)
          · exact fin (exec_ok_mono h)
        · simp only [Res.ok.injEq] at h
          subst h
          exact hcl

theorem elimAllValsExcept_post {B : Board} {n : Nat} {c : Nat} {exceptions : List Nat}
    {s s' : Cells} (h : exec B n (Call.elimAllValsExcept c exceptions) s = Res.ok s') :
    ∀ w, flag s' c w = true → w ∈ exceptions := by
  intro w hf
  by_contra hw
  have hr := flag_range hf
  have hw1 : w - 1 + 1 = w := by omega
  cases n with
  | zero => simp [exec] at h
  | succ n =>
    simp only [exec] at h
    obtain ⟨t, t', -, hbody, hts'⟩ := forEach_at Mono Mono.refl (fun _ _ _ => Mono.trans) _ _
      (fun i _ t t' ht => by
        split at ht
        · exact exec_ok_mono ht
        · simp only [Res.ok.injEq] at ht; subst ht; exact Mono.refl t)
      (w - 1) (List.mem_range.2 (by omega)) s s' h
    rw [hw1] at hbody
    have hc : (!exceptions.contains w) = true := by simpa using hw
    rw [if_pos hc] at hbody
    have := elimVal_clears hbody
    have := (hts' c).2 w hf
    simp_all

theorem forEach_all_idle {α : Type} {f : α → Cells → Res} :
    ∀ (xs : List α), (∀ x ∈ xs, ∀ t, f x t = Res.ok t) → ∀ s, forEach f xs s = Res.ok s
  | [], _, _ => rfl
  | x :: xs, h, s => by
    simp only [forEach, h x (List.mem_cons_self x xs) s, Res.bind]
    exact forEach_all_idle xs (fun y hy => h y (List.mem_cons_of_mem x hy)) s

/-- A loop in which only the element `x0` does anything. -/
theorem forEach_only {f : Nat → Cells → Res} (x0 : Nat) :
    ∀ (xs : List Nat), xs.Nodup → (∀ x ∈ xs, x ≠ x0 → ∀ t, f x t = Res.ok t) → x0 ∈ xs →
      ∀ s, forEach f xs s = f x0 s
  | [], _, _, hm, _ => by cases hm
  | x :: xs, hnd, hidle, hm, s => by
    rw [List.nodup_cons] at hnd
    simp only [forEach]
    by_cases hx : x = x0
    · subst hx
      have hrest : ∀ t, forEach f xs t = Res.ok t :=
        forEach_all_idle xs (fun y hy t =>
          hidle y (List.mem_cons_of_mem x hy) (fun e => hnd.1 (e ▸ hy)) t)
      cases hr : f x s with
      | ok t => simp only [Res.bind]; exact hrest t
      | err e t => rfl
      | timeout => rfl
    · rw [hidle x (List.mem_cons_self x xs) hx s]
      simp only [Res.bind]
      rcases List.mem_cons.1 hm with e | hm'
      · exact absurd e.symm hx
      · exact forEach_only x0 xs hnd.2
          (fun y hy => hidle y (List.mem_cons_of_mem x hy)) hm' s

/-- C16 (amended). Hidden pair on the constructed board: in a state in which every resolved cell has exactly its own
value as candidate flag, let the digits `b < a` each be a candidate of exactly the two
unresolved cells `X` and `Y` of the group, let no cell of the group hold `a` or `b`, and let
no other digit have the count two in the group. If `hiddenDouble(group)` returns normally,
the candidates of `X` and of `Y` are contained in `{a, b}` afterwards. -/
theorem hiddenDouble_narrows_pair (n : Nat) (g : GroupRef) (s s' : Cells)
    (a b X Y : Nat)
    (hwf : ∀ c, valOf s c ≠ 0 → ∀ w, flag s c w = true ↔ w = valOf s c)
    (hab : b < a)
    (hX : X ∈ theBoard.group g) (hY : Y ∈ theBoard.group g) (hXY : X ≠ Y)
    (hXc : valOf s X = 0 ∧ flag s X a = true ∧ flag s X b = true)
    (hYc : valOf s Y = 0 ∧ flag s Y a = true ∧ flag s Y b = true)
    (hua : ∀ x ∈ theBoard.group g, valOf s x = 0 → flag s x a = true → x = X ∨ x = Y)
    (hub : ∀ x ∈ theBoard.group g, valOf s x = 0 → flag s x b = true → x = X ∨ x = Y)
    (hfree : ∀ x ∈ theBoard.group g, valOf s x ≠ a ∧ valOf s x ≠ b)
    (honly : ∀ i, i < 9 → numValsAt s (theBoard.group g) i = 2 → i + 1 = a ∨ i + 1 = b)
    (h : exec theBoard n (Call.hiddenDouble g) s = Res.ok s') :
    (∀ w, flag s' X w = true → w = a ∨ w = b) ∧ (∀ w, flag s' Y w = true → w = a ∨ w = b) := by
  have ha := flag_range hXc.2.1
  have hnd := (theBoard_good g).1
  have hb := flag_range hXc.2.2
  have ha1 : a - 1 + 1 = a := by omega
  have hb1 : b - 1 + 1 = b := by omega
  have hcount : ∀ d, 1 ≤ d → flag s X d = true → flag s Y d = true →
      (∀ x ∈ theBoard.group g, valOf s x = 0 → flag s x d = true → x = X ∨ x = Y) →
      numValsAt s (theBoard.group g) (d - 1) = 2 := by
    intro d hd hXd hYd hud
    rw [numValsAt_eq_filter]
    exact pair_length (hnd.filter _)
      (List.mem_filter.2 ⟨hX, (carries_iff hd).2 ⟨hXc.1, hXd⟩⟩)
      (List.mem_filter.2 ⟨hY, (carries_iff hd).2 ⟨hYc.1, hYd⟩⟩) hXY (fun x hx => by
        have hx' := List.mem_filter.1 hx
        have := (carries_iff hd).1 hx'.2
        exact hud x hx'.1 this.1 this.2)
  have hca := hcount a ha.1 hXc.2.1 hYc.2.1 hua
  have hcb := hcount b hb.1 hXc.2.2 hYc.2.2 hub
  have hcells : ∀ d, 1 ≤ d → flag s X d = true → flag s Y d = true →
      (∀ x ∈ theBoard.group g, valOf s x = 0 → flag s x d = true → x = X ∨ x = Y) →
      (∀ x ∈ theBoard.group g, valOf s x ≠ d) →
      getCellsWithVal s (theBoard.group g) d = [X, Y] ∨ getCellsWithVal s (theBoard.group g) d = [Y, X] := by
    intro d hd hXd hYd hud hfd
    have hres : ∀ x ∈ theBoard.group g, flag s x d = true → valOf s x = 0 := by
      intro x hx hf
      by_contra hv
      exact hfd x hx ((hwf x hv d).1 hf).symm
    have hany : (theBoard.group g).any (fun c => flag s c d && valOf s c != 0) = false := by
      rw [List.any_eq_false]
      intro x hx
      cases hf : flag s x d
      · simp
      · simp [hres x hx hf]
    rw [getCellsWithVal_eq, hany]
    simp only [Bool.false_eq_true, if_false]
    apply pair_of_nodup (hnd.filter _)
    · intro x hx
      rw [List.mem_filter] at hx
      exact hud x hx.1 (hres x hx.1 hx.2) hx.2
    · have : X ∈ (theBoard.group g).filter (fun c => flag s c d) := List.mem_filter.2 ⟨hX, hXd⟩
      have : Y ∈ (theBoard.group g).filter (fun c => flag s c d) := List.mem_filter.2 ⟨hY, hYd⟩
      match hl : (theBoard.group g).filter (fun c => flag s c d) with
      | [] => simp_all
      | [z] => simp_all
      | _ :: _ :: _ => simp
  have hea := hcells a ha.1 hXc.2.1 hYc.2.1 hua (fun x hx => (hfree x hx).1)
  have heb := hcells b hb.1 hXc.2.2 hYc.2.2 hub (fun x hx => (hfree x hx).2)
  cases n with
  | zero => simp [exec] at h
  | succ n =>
    simp only [exec] at h
    rw [forEach_only (a - 1) (List.range 9) (List.nodup_range 9) ?_ (List.mem_range.2 (by omega)),
      forEach_only (b - 1) (List.range (a - 1)) (List.nodup_range _) ?_
        (List.mem_range.2 (by omega))] at h
    · simp only [hca, hcb, ha1, hb1] at h
      have fin : ∀ c1 c2, (c1 = X ∧ c2 = Y ∨ c1 = Y ∧ c2 = X) →
          (exec theBoard n (Call.elimAllValsExcept c1 [a, b]) s).bind
            (exec theBoard n (Call.elimAllValsExcept c2 [a, b])) = Res.ok s' →
          (∀ w, flag s' X w = true → w = a ∨ w = b) ∧
            (∀ w, flag s' Y w = true → w = a ∨ w = b) := by
        intro c1 c2 hc hb'
        obtain ⟨s1, h1, h2⟩ := bind_eq_ok hb'
        have p1 : ∀ w, flag s' c1 w = true → w = a ∨ w = b := by
          intro w hw
          have := elimAllValsExcept_post h1 w ((exec_ok_mono h2 c1).2 w hw)
          simpa using this
        have p2 : ∀ w, flag s' c2 w = true → w = a ∨ w = b := by
          intro w hw
          have := elimAllValsExcept_post h2 w hw
          simpa using this
        rcases hc with ⟨rfl, rfl⟩ | ⟨rfl, rfl⟩
        · exact ⟨p1, p2⟩
        · exact ⟨p2, p1⟩
      rcases hea with e1 | e1 <;> rcases heb with e2 | e2 <;> rw [e1, e2] at h <;>
        simp [hXY, Ne.symm hXY] at h
      · exact fin X Y (Or.inl ⟨rfl, rfl⟩) h
      · exact fin X Y (Or.inl ⟨rfl, rfl⟩) h
      · exact fin Y X (Or.inr ⟨rfl, rfl⟩) h
      · exact fin Y X (Or.inr ⟨rfl, rfl⟩) h
    · intro val2 hv2 hne t
      have hlt := List.mem_range.1 hv2
      have hg : Nat.beq (numValsAt s (theBoard.group g) val2) 2 = false := by
        rw [beq_eq_decide, decide_eq_false_iff_not]
        intro hc2
        rcases honly val2 (by omega) hc2 with e | e <;> omega
      simp [hg]
    · intro val1 hv1 hne t
      have hlt := List.mem_range.1 hv1
      apply forEach_all_idle
      intro val2 hv2 t2
      have hlt2 := List.mem_range.1 hv2
      have hg : (Nat.beq (numValsAt s (theBoard.group g) val1) 2 &&
          Nat.beq (numValsAt s (theBoard.group g) val2) 2) = false := by
        rw [beq_eq_decide, beq_eq_decide]
        simp only [Bool.and_eq_false_iff, decide_eq_false_iff_not]
        by_contra hc
        rw [not_or, not_not, not_not] at hc
        rcases honly val1 hlt hc.1 with e1 | e1 <;>
          rcases honly val2 (by omega) hc.2 with e2 | e2 <;> omega
      simp [hg]

set_option exponentiation.threshold 2000 in
theorem valOf_of_ge {s : Cells} (hs : s < 2 ^ 1296) {c : Nat} (hc : 81 ≤ c) : valOf s c = 0 := by
  rw [valOf_eq, Nat.shiftRight_eq_div_pow, Nat.div_eq_of_lt]
  · rfl
  · calc s < 2 ^ 1296 := hs
      _ ≤ 2 ^ (16 * c) := Nat.pow_le_pow_right (by norm_num) (by omega)

theorem wf_of_check {s : Cells} (hs : s < 2 ^ 1296) (h : wfCheck s = true) :
    ∀ c, valOf s c ≠ 0 → ∀ w, flag s c w = true ↔ w = valOf s c := by
  intro c hc w
  have hc81 : c < 81 := by
    by_contra hge
    exact hc (valOf_of_ge hs (by omega))
  simp only [wfCheck, List.all_eq_true, List.mem_range, Bool.or_eq_true, beq_iff_eq] at h
  rcases h c hc81 with h0 | hall
  · rw [beq_eq_decide, decide_eq_true_eq] at h0
    exact absurd h0 hc
  · by_cases hw : w < 16
    · have := hall w hw
      rw [this, beq_eq_decide, decide_eq_true_eq]
    · constructor
      · intro hf
        have := flag_range hf
        omega
      · intro e
        have := valOf_lt s c
        omega

set_option exponentiation.threshold 2000 in
theorem singleState_wf :
    ∀ c, valOf singleState c ≠ 0 → ∀ w, flag singleState c w = true ↔ w = valOf singleState c :=
  wf_of_check (by decide!) (by decide!)

set_option exponentiation.threshold 2000 in
theorem pointState_wf :
    ∀ c, valOf pointState c ≠ 0 → ∀ w, flag pointState c w = true ↔ w = valOf pointState c :=
  wf_of_check (by decide!) (by decide!)

set_option exponentiation.threshold 2000 in
theorem twoState_wf :
    ∀ c, valOf twoState c ≠ 0 → ∀ w, flag twoState c w = true ↔ w = valOf twoState c :=
  wf_of_check (by decide!) (by decide!)

set_option maxRecDepth 1000000 in
theorem hiddenSingle_eval :
    exec theBoard 8 (Call.hiddenSingle (cellBox 0)) singleState = Res.ok singleAfter := by
  rw [← execF_eq _ theBoard_good, theBoard_eq]
  decide!

set_option maxRecDepth 1000000 in
theorem pointingPair_eval :
    exec theBoard 5 (Call.pointingPair (cellRow 0)) pointState = Res.ok pointAfter := by
  rw [← execF_eq _ theBoard_good, theBoard_eq]
  decide!

set_option maxRecDepth 1000000 in
theorem hiddenDouble_eval :
    exec theBoard 10 (Call.hiddenDouble (cellRow 0)) twoState = Res.ok twoAfter := by
  rw [← execF_eq _ theBoard_good, theBoard_eq]
  decide!

set_option maxRecDepth 1000000 in
theorem hiddenDouble_pair_eval :
    exec theBoard 19 (Call.hiddenDouble (cellRow 0)) pairState = Res.ok pairAfter := by
  rw [← execF_eq _ theBoard_good, theBoard_eq]
  decide!

set_option maxRecDepth 100000 in
theorem hiddenSingle_places_digit_witness :
    (∀ c, valOf singleState c ≠ 0 →
      ∀ w, flag singleState c w = true ↔ w = valOf singleState c) ∧
    2 ∈ theBoard.group (cellBox 0) ∧ valOf singleState 2 = 0 ∧ flag singleState 2 3 = true ∧
    (∀ x ∈ theBoard.group (cellBox 0),
      valOf singleState x = 0 → flag singleState x 3 = true → x = 2) ∧
    (∀ x ∈ theBoard.group (cellBox 0), valOf singleState x ≠ 3) ∧
    exec theBoard 8 (Call.hiddenSingle (cellBox 0)) singleState = Res.ok singleAfter ∧
    valOf singleAfter 2 = 3 :=
  ⟨singleState_wf, by rw [theBoard_eq]; decide!, by decide!, by decide!,
    by rw [theBoard_eq]; decide!, by rw [theBoard_eq]; decide!, hiddenSingle_eval,
    hiddenSingle_places_digit 8 (cellBox 0) singleState singleAfter 3 2 singleState_wf
      (by rw [theBoard_eq]; decide!) (by decide!) (by decide!)
      (by rw [theBoard_eq]; decide!) (by rw [theBoard_eq]; decide!) hiddenSingle_eval⟩

set_option maxRecDepth 100000 in
theorem pointingPair_clears_second_group_witness :
    (∀ c, valOf pointState c ≠ 0 →
      ∀ w, flag pointState c w = true ↔ w = valOf pointState c) ∧
    1 ∈ theBoard.group (cellRow 0) ∧ 2 ∈ theBoard.group (cellRow 0) ∧
    (valOf pointState 1 = 0 ∧ flag pointState 1 1 = true) ∧
    (valOf pointState 2 = 0 ∧ flag pointState 2 1 = true) ∧
    (∀ x ∈ theBoard.group (cellRow 0),
      valOf pointState x = 0 → flag pointState x 1 = true → x = 1 ∨ x = 2) ∧
    (∀ x ∈ theBoard.group (cellRow 0), valOf pointState x ≠ 1) ∧
    cellBox 0 ≠ cellRow 0 ∧
    1 ∈ theBoard.group (cellBox 0) ∧ 2 ∈ theBoard.group (cellBox 0) ∧
    exec theBoard 5 (Call.pointingPair (cellRow 0)) pointState = Res.ok pointAfter ∧
    (∀ x ∈ theBoard.group (cellBox 0), x ≠ 1 → x ≠ 2 →
      ¬ (valOf pointAfter x = 0 ∧ flag pointAfter x 1 = true)) :=
  ⟨pointState_wf, by rw [theBoard_eq]; decide!, by rw [theBoard_eq]; decide!,
    by decide!, by decide!, by rw [theBoard_eq]; decide!, by rw [theBoard_eq]; decide!,
    by decide, by rw [theBoard_eq]; decide!, by rw [theBoard_eq]; decide!, pointingPair_eval,
    pointingPair_clears_second_group 5 (cellRow 0) (cellBox 0) pointState pointAfter 1 1 2
      pointState_wf (by rw [theBoard_eq]; decide!) (by rw [theBoard_eq]; decide!) (by decide)
      (by decide!) (by decide!) (by rw [theBoard_eq]; decide!) (by rw [theBoard_eq]; decide!)
      (by decide) (by rw [theBoard_eq]; decide!) (by rw [theBoard_eq]; decide!)
      pointingPair_eval⟩

set_option maxRecDepth 100000 in
/-- C16, counterexample: in `pairState` the digits 1 and 2 each have the count two in row 0
and are carried by the same two unresolved cells 0 and 1. `hiddenDouble` on row 0 returns
normally and leaves the cells 0 and 1 with the candidates 1 and 2, but cell 2, another cell
of row 0, has lost the candidate 3. -/
theorem hiddenDouble_changes_other_cell :
    numValsAt pairState (theBoard.group (cellRow 0)) (1 - 1) = 2 ∧
    numValsAt pairState (theBoard.group (cellRow 0)) (2 - 1) = 2 ∧
    getCellsWithVal pairState (theBoard.group (cellRow 0)) 1 = [0, 1] ∧
    getCellsWithVal pairState (theBoard.group (cellRow 0)) 2 = [0, 1] ∧
    valOf pairState 0 = 0 ∧ valOf pairState 1 = 0 ∧
    exec theBoard 19 (Call.hiddenDouble (cellRow 0)) pairState = Res.ok pairAfter ∧
    getPossVals pairAfter 0 = [1, 2] ∧ getPossVals pairAfter 1 = [1, 2] ∧
    2 ∈ theBoard.group (cellRow 0) ∧
    valOf pairState 2 = 0 ∧ getPossVals pairState 2 = [3, 4, 5, 6, 7, 8, 9] ∧
    valOf pairAfter 2 = 0 ∧ getPossVals pairAfter 2 = [4, 5, 6, 7, 8, 9] := by
  refine ⟨?_, ?_, ?_, ?_, by decide!, by decide!, hiddenDouble_pair_eval, by decide!,
    by decide!, ?_, by decide!, by decide!, by decide!, by decide!⟩ <;>
  · rw [theBoard_eq]; decide!

set_option maxRecDepth 100000 in
theorem hiddenDouble_narrows_pair_witness :
    (∀ c, valOf twoState c ≠ 0 → ∀ w, flag twoState c w = true ↔ w = valOf twoState c) ∧
    1 ∈ theBoard.group (cellRow 0) ∧ 2 ∈ theBoard.group (cellRow 0) ∧
    (valOf twoState 1 = 0 ∧ flag twoState 1 2 = true ∧ flag twoState 1 1 = true) ∧
    (valOf twoState 2 = 0 ∧ flag twoState 2 2 = true ∧ flag twoState 2 1 = true) ∧
    (∀ x ∈ theBoard.group (cellRow 0),
      valOf twoState x = 0 → flag twoState x 2 = true → x = 1 ∨ x = 2) ∧
    (∀ x ∈ theBoard.group (cellRow 0),
      valOf twoState x = 0 → flag twoState x 1 = true → x = 1 ∨ x = 2) ∧
    (∀ x ∈ theBoard.group (cellRow 0), valOf twoState x ≠ 2 ∧ valOf twoState x ≠ 1) ∧
    (∀ i, i < 9 → numValsAt twoState (theBoard.group (cellRow 0)) i = 2 →
      i + 1 = 2 ∨ i + 1 = 1) ∧
    exec theBoard 10 (Call.hiddenDouble (cellRow 0)) twoState = Res.ok twoAfter ∧
    ((∀ w, flag twoAfter 1 w = true → w = 2 ∨ w = 1) ∧
      (∀ w, flag twoAfter 2 w = true → w = 2 ∨ w = 1)) :=
  ⟨twoState_wf, by rw [theBoard_eq]; decide!, by rw [theBoard_eq]; decide!,
    by decide!, by decide!, by rw [theBoard_eq]; decide!, by rw [theBoard_eq]; decide!,
    by rw [theBoard_eq]; decide!, by rw [theBoard_eq]; decide!, hiddenDouble_eval,
    hiddenDouble_narrows_pair 10 (cellRow 0) twoState twoAfter 2 1 1 2 twoState_wf
      (by decide) (by rw [theBoard_eq]; decide!) (by rw [theBoard_eq]; decide!) (by decide)
      (by decide!) (by decide!) (by rw [theBoard_eq]; decide!) (by rw [theBoard_eq]; decide!)
      (by rw [theBoard_eq]; decide!) (by rw [theBoard_eq]; decide!) hiddenDouble_eval⟩

/-! ### The two group queries -/

theorem getNumVals_getElem (s : Cells) (group : List Nat) {i : Nat} (hi : i < 9) :
    (getNumVals s group)[i]? = some (numValsAt s group i) := by
  unfold getNumVals numValsAt
  rw [List.getElem?_map, List.getElem?_range hi]
  rfl

theorem carries_eq (s : Cells) (c : Nat) {d : Nat} (hd : 1 ≤ d) :
    (possAt s c (d - 1) && Nat.beq (valOf s c) 0) = (decide (valOf s c = 0) && flag s c d) := by
  rw [Bool.eq_iff_iff, carries_iff hd]
  simp

/-- C22. `getNumVals(group)` returns a list of exactly 9 counts, and for each digit `d` in
1..9 its entry `d - 1` is the number of cells of the group that are unresolved (`val == 0`)
and have `d` as a candidate; a resolved cell is not counted, whatever its flags. -/
theorem getNumVals_counts (s : Cells) (group : List Nat) :
    (getNumVals s group).length = 9 ∧
    ∀ d, 1 ≤ d → d ≤ 9 →
      (getNumVals s group)[d - 1]? =
        some (group.filter (fun c => decide (valOf s c = 0) && flag s c d)).length := by
  refine ⟨by simp [getNumVals], fun d h1 h9 => ?_⟩
  rw [getNumVals_getElem s group (by omega), numValsAt_eq_filter]
  congr 2
  apply List.filter_congr
  intro c _
  exact carries_eq s c h1

/-- C21. `getCellsWithVal(group, v)` returns the empty list if some resolved cell of the
group has the candidate flag `v` set; otherwise it returns, in group order, exactly the
cells of the group that have `v` as a candidate. Whenever the result is not empty, its
length is the entry `v - 1` of `getNumVals(group)`. -/
theorem getCellsWithVal_spec (s : Cells) (group : List Nat) (v : Nat) :
    ((∃ c ∈ group, valOf s c ≠ 0 ∧ flag s c v = true) → getCellsWithVal s group v = []) ∧
    ((¬ ∃ c ∈ group, valOf s c ≠ 0 ∧ flag s c v = true) →
      getCellsWithVal s group v = group.filter (fun c => flag s c v)) ∧
    (getCellsWithVal s group v ≠ [] →
      (getNumVals s group)[v - 1]? = some (getCellsWithVal s group v).length) := by
  have hany : group.any (fun c => flag s c v && valOf s c != 0) = true ↔
      ∃ c ∈ group, valOf s c ≠ 0 ∧ flag s c v = true := by
    simp only [List.any_eq_true, Bool.and_eq_true, bne_iff_ne, ne_eq]
    constructor
    · rintro ⟨c, hc, hf, hv⟩; exact ⟨c, hc, hv, hf⟩
    · rintro ⟨c, hc, hv, hf⟩; exact ⟨c, hc, hf, hv⟩
  refine ⟨fun h => ?_, fun h => ?_, fun h => ?_⟩
  · rw [getCellsWithVal_eq, if_pos (hany.2 h)]
  · rw [getCellsWithVal_eq, if_neg (fun ha => h (hany.1 ha))]
  · obtain ⟨hfil, hunres⟩ := getCellsWithVal_nonempty h
    obtain ⟨a, ha⟩ := List.exists_mem_of_ne_nil _ h
    rw [hfil, List.mem_filter] at ha
    have hr := flag_range ha.2
    rw [getNumVals_getElem s group (by omega), numValsAt_eq_filter, hfil]
    congr 2
    apply List.filter_congr
    intro c hc
    rw [carries_eq s c hr.1]
    cases hf : flag s c v
    · simp
    · simp [hunres c hc hf]

/-! ### Monotonicity -/

/-- C23. Monotonicity of the state: whatever the call (any method of the engine) and
whether it returns or raises, every cell that was resolved before holds the same value
afterwards and every candidate of a cell afterwards was a candidate of it before. The
call does produce such an outcome: with call depth `7 * undecided s + 7` it does not run
out of depth. -/
theorem calls_only_narrow (B : Board) (n : Nat) (call : Call) (s : Cells) :
    (∀ s', exec B n call s = Res.ok s' →
      ∀ c, (valOf s c ≠ 0 → valOf s' c = valOf s c) ∧
        ∀ w, w ∈ getPossVals s' c → w ∈ getPossVals s c) ∧
    (∀ e s', exec B n call s = Res.err e s' →
      ∀ c, (valOf s c ≠ 0 → valOf s' c = valOf s c) ∧
        ∀ w, w ∈ getPossVals s' c → w ∈ getPossVals s c) ∧
    (s < 2 ^ 1296 → 7 * undecided s + 7 ≤ n → exec B n call s ≠ Res.timeout) := by
  have hm := exec_mono B n call s
  have key : ∀ s', Mono s s' → ∀ c, (valOf s c ≠ 0 → valOf s' c = valOf s c) ∧
      ∀ w, w ∈ getPossVals s' c → w ∈ getPossVals s c := by
    intro s' h c
    refine ⟨(h c).1, fun w hw => ?_⟩
    rw [mem_getPossVals] at hw ⊢
    exact (h c).2 w hw
  refine ⟨fun s' h => ?_, fun e s' h => ?_, fun hs hn => ?_⟩
  · rw [h] at hm; exact key s' hm
  · rw [h] at hm; exact key s' hm
  · have := rank_le_six call
    exact exec_ne_timeout B n call s (cellWeight_of_lt hs) (by omega)

/-! ### Geometry of the wiring -/

set_option maxRecDepth 100000 in
/-- C24. Geometry of the constructed board: for all `r`, `c` in 0..8 the entry `c` of row
array `r` and the entry `r` of column array `c` are the same cell, the cell with index
`27 * (r / 3) + 9 * (c / 3) + 3 * (r % 3) + c % 3`; it is a member of box
`3 * (r / 3) + c / 3`, and its own row, column and box fields are row `r`, column `c` and
that box. Two cells that lie in the same row array and in the same column array are
equal. -/
theorem wiring_geometry :
    (∀ r, r < 9 → ∀ c, c < 9 →
      (theBoard.rows.getD r [])[c]? =
        some (27 * (r / 3) + 9 * (c / 3) + 3 * (r % 3) + c % 3) ∧
      (theBoard.cols.getD c [])[r]? =
        some (27 * (r / 3) + 9 * (c / 3) + 3 * (r % 3) + c % 3) ∧
      27 * (r / 3) + 9 * (c / 3) + 3 * (r % 3) + c % 3 ∈
        theBoard.boxes.getD (3 * (r / 3) + c / 3) [] ∧
      cellRow (27 * (r / 3) + 9 * (c / 3) + 3 * (r % 3) + c % 3) = ⟨GroupKind.row, r⟩ ∧
      cellCol (27 * (r / 3) + 9 * (c / 3) + 3 * (r % 3) + c % 3) = ⟨GroupKind.col, c⟩ ∧
      cellBox (27 * (r / 3) + 9 * (c / 3) + 3 * (r % 3) + c % 3) =
        ⟨GroupKind.box, 3 * (r / 3) + c / 3⟩) ∧
    (∀ r c x y, x ∈ theBoard.rows.getD r [] → y ∈ theBoard.rows.getD r [] →
      x ∈ theBoard.cols.getD c [] → y ∈ theBoard.cols.getD c [] → x = y) := by
  refine ⟨?_, ?_⟩
  · rw [theBoard_eq]
    decide!
  · intro r c x y hxr hyr hxc hyc
    have h1 := (theBoard_cellGroup ⟨GroupKind.row, r⟩ x hxr).2
    have h2 := (theBoard_cellGroup ⟨GroupKind.row, r⟩ y hyr).2
    have h3 := (theBoard_cellGroup ⟨GroupKind.col, c⟩ x hxc).2
    have h4 := (theBoard_cellGroup ⟨GroupKind.col, c⟩ y hyc).2
    exact row_col_inj (h1.symm.trans h2) (h3.symm.trans h4)

end Sudoku
